import Mathlib

/-!
Verification of the `vpk0` codec (tehzz/vpk0).

This file shallowly embeds the Rust sources (`src/format.rs`, `src/decode.rs`,
`src/encode.rs`, `src/encode/lzss.rs`, `src/encode/huffman.rs`) into Lean.
Bytes are `Nat` (< 256 where it matters), bit streams are MSB-first
`List Bool`, machine integers are `Nat`/`Int` with explicit underflow and
index-out-of-bounds checks where the Rust code would panic.  Loops are
embedded as fuel-based structural recursions so that every definition is
kernel-executable; each fuel parameter is noted at its definition, and
callers always supply fuel that is proven (or evidently) sufficient.
-/

/-! ## Bit-stream utilities (bitstream_io `BitReader`/`BitWriter`, BigEndian) -/

/-- MSB-first value of a bit list, as read by `BitReader::read(n)`. -/
def bitsToNat (bs : List Bool) : Nat :=
  bs.foldl (fun a b => 2 * a + b.toNat) 0

/-- `natToBits w v` is `v` written MSB-first in `w` bits, as by
`BitWriter::write(w, v)` (only the low `w` bits of `v` are kept). -/
def natToBits : Nat → Nat → List Bool
  | 0, _ => []
  | w + 1, v => v.testBit w :: natToBits w v

/-- A byte sequence as a bit stream (each byte MSB-first). -/
def bytesToBits (bytes : List Nat) : List Bool :=
  bytes.flatMap (natToBits 8)

/-- Pack a bit stream into bytes, zero-padding the final partial byte —
the effect of `BitWriter::byte_align` at close.  Fuel: one unit per
produced byte; `bits.length` always suffices. -/
def packBitsGo : Nat → List Bool → List Nat
  | 0, _ => []
  | _, [] => []
  | fuel + 1, b :: rest =>
    bitsToNat ((b :: rest).take 8 ++ List.replicate (8 - (b :: rest).length) false)
      :: packBitsGo fuel (rest.drop 7)

def packBits (bits : List Bool) : List Nat :=
  packBitsGo bits.length bits

/-- `BitReader::read(n)`: `n` bits MSB-first, or `none` at end of stream. -/
def readN (n : Nat) (bs : List Bool) : Option (Nat × List Bool) :=
  if n ≤ bs.length then some (bitsToNat (bs.take n), bs.drop n) else none

/-- `BitReader::read_bit`. -/
def readBit : List Bool → Option (Bool × List Bool)
  | [] => none
  | b :: rest => some (b, rest)

/-! ## Errors (`src/errors.rs`) -/

/-- `EncodeTreeParseErr`.  `ParseUnexp` carries the offending token's
display string in Rust; we carry the token's name tag as a `Nat` index
(0 = "(", 1 = ")", 2 = ",", 3 = "whitespace", 4 = "number") plus the
position, which is all the structure the claims need. -/
inductive TreeParseErr where
  | lexNum (pos : Nat)
  | lexUnexp (c : Char) (pos : Nat)
  | parseUnexp (tok : Nat) (pos : Nat)
  | parseUnexpEnd
deriving DecidableEq, Repr

/-- `VpkError`.  `InvalidHeader` carries the magic bytes whose UTF-8 text
was displayed; `Io` stands for any underlying stream error (in this model:
reading past the end of the bit stream). -/
inductive VpkError where
  | invalidHeader (magic : List Nat)
  | invalidMethod (b : Nat)
  | badLookBack (moveBack haveLen : Nat)
  | badTreeEncoding
  | badUserTree (e : TreeParseErr)
  | inputTooBig
  | utf8Error
  | io
deriving DecidableEq, Repr

/-- Outcome of running a fallible Rust routine: normal return, an error
return, or a panic (index out of bounds / checked-arithmetic overflow). -/
inductive DRes (α : Type) where
  | ok : α → DRes α
  | err : VpkError → DRes α
  | panic : DRes α
deriving DecidableEq, Repr

def DRes.bind : DRes α → (α → DRes β) → DRes β
  | .ok a, f => f a
  | .err e, _ => .err e
  | .panic, _ => .panic

instance : Monad DRes where
  pure := .ok
  bind := DRes.bind

def DRes.ofOption (e : VpkError) : Option α → DRes α
  | some a => .ok a
  | none => .err e

/-! ## `src/format.rs` -/

/-- `VpkMethod`. -/
inductive VpkMethod where
  | oneSample
  | twoSample
deriving DecidableEq, Repr

/-- `VpkHeader`. -/
structure VpkHeader where
  size : Nat
  method : VpkMethod
deriving DecidableEq, Repr

/-- The four magic bytes `b"vpk0"`. -/
def vpkMagic : List Nat := [118, 112, 107, 48]

/-- Standard UTF-8 validity of a byte list (`str::from_utf8` succeeds).
Fuel: one unit per encoded code point; `bytes.length` suffices. -/
def utf8ValidGo : Nat → List Nat → Bool
  | 0, l => l.isEmpty
  | _, [] => true
  | fuel + 1, b :: rest =>
    if b < 0x80 then utf8ValidGo fuel rest
    else if 0xC2 ≤ b ∧ b ≤ 0xDF then
      match rest with
      | c1 :: rest' => 0x80 ≤ c1 ∧ c1 ≤ 0xBF ∧ utf8ValidGo fuel rest'
      | _ => false
    else if 0xE0 ≤ b ∧ b ≤ 0xEF then
      match rest with
      | c1 :: c2 :: rest' =>
        (if b = 0xE0 then 0xA0 ≤ c1 ∧ c1 ≤ 0xBF
         else if b = 0xED then 0x80 ≤ c1 ∧ c1 ≤ 0x9F
         else 0x80 ≤ c1 ∧ c1 ≤ 0xBF) ∧
        0x80 ≤ c2 ∧ c2 ≤ 0xBF ∧ utf8ValidGo fuel rest'
      | _ => false
    else if 0xF0 ≤ b ∧ b ≤ 0xF4 then
      match rest with
      | c1 :: c2 :: c3 :: rest' =>
        (if b = 0xF0 then 0x90 ≤ c1 ∧ c1 ≤ 0xBF
         else if b = 0xF4 then 0x80 ≤ c1 ∧ c1 ≤ 0x8F
         else 0x80 ≤ c1 ∧ c1 ≤ 0xBF) ∧
        0x80 ≤ c2 ∧ c2 ≤ 0xBF ∧ 0x80 ≤ c3 ∧ c3 ≤ 0xBF ∧ utf8ValidGo fuel rest'
      | _ => false
    else false

def utf8Valid (bytes : List Nat) : Bool :=
  utf8ValidGo bytes.length bytes

/-- `VpkHeader::from_array` over the nine header bytes. -/
def VpkHeader.fromArray (arr : List Nat) : DRes VpkHeader :=
  let magic := arr.take 4
  if utf8Valid magic then
    if magic = vpkMagic then
      let size := 16777216 * arr[4]! + 65536 * arr[5]! + 256 * arr[6]! + arr[7]!
      match arr[8]! with
      | 0 => .ok ⟨size, .oneSample⟩
      | 1 => .ok ⟨size, .twoSample⟩
      | unk => .err (.invalidMethod unk)
    else .err (.invalidHeader magic)
  else .err .utf8Error

/-- `VpkHeader::from_bitreader`: read nine bytes, then parse. -/
def VpkHeader.fromBits (bits : List Bool) : DRes (VpkHeader × List Bool) :=
  if 72 ≤ bits.length then
    match VpkHeader.fromArray (packBits (bits.take 72)) with
    | .ok h => .ok (h, bits.drop 72)
    | .err e => .err e
    | .panic => .panic
  else .err .io

/-- `TreeEntry`. -/
inductive TreeEntry where
  | node (left right : Nat)
  | leaf (val : Nat)
deriving DecidableEq, Repr

/-- `VpkTree`: the array-based Huffman tree; root is the last entry. -/
structure VpkTree where
  entries : List TreeEntry
deriving DecidableEq, Repr

def VpkTree.empty : VpkTree := ⟨[]⟩

/-- Loop body of `VpkTree::from_bitreader`.  `buf` is the stack of
outstanding entry indices, topmost first.  Fuel: one unit per loop
iteration; each iteration consumes at least one bit, so `bits.length + 1`
always suffices. -/
def treeFromBitsGo : Nat → List TreeEntry → List Nat → List Bool →
    Option (VpkTree × List Bool)
  | 0, _, _, _ => none
  | fuel + 1, entries, buf, bits =>
    match readBit bits with
    | none => none
    | some (true, rest) =>
      if buf.length < 2 then some (⟨entries⟩, rest)
      else
        match buf with
        | right :: left :: buf' =>
          treeFromBitsGo fuel (entries ++ [.node left right])
            (entries.length :: buf') rest
        | _ => none
    | some (false, rest) =>
      match readN 8 rest with
      | none => none
      | some (v, rest') =>
        treeFromBitsGo fuel (entries ++ [.leaf v]) (entries.length :: buf) rest'

/-- `VpkTree::from_bitreader`. -/
def VpkTree.fromBits (bits : List Bool) : Option (VpkTree × List Bool) :=
  treeFromBitsGo (bits.length + 1) [] [] bits

/-- Walk of `VpkTree::read_value` down from entry `idx`.  Fuel: one unit
per visited node; children indices of parsed/flattened trees are strictly
smaller than the parent's, so `idx + 1` suffices.  An out-of-range entry
index is an out-of-bounds `Vec` access, i.e. a panic. -/
def readValueGo (tbl : List TreeEntry) : Nat → Nat → List Bool →
    DRes (Nat × List Bool)
  | 0, _, _ => .panic
  | fuel + 1, idx, bits =>
    match tbl[idx]? with
    | none => .panic
    | some (.node left right) =>
      match readBit bits with
      | none => .err .io
      | some (b, rest) => readValueGo tbl fuel (if b then right else left) rest
    | some (.leaf size) =>
      -- `bits.read(size as u32)` into a `u32`
      DRes.ofOption .io (readN size bits)

/-- `VpkTree::read_value`. -/
def VpkTree.readValue (t : VpkTree) (bits : List Bool) : DRes (Nat × List Bool) :=
  if t.entries.length = 0 then .ok (0, bits)
  else readValueGo t.entries t.entries.length (t.entries.length - 1) bits

/-- `VpkTree::write`: post-order entries, `0`+payload per leaf, `1` per
node, one terminating `1`. -/
def VpkTree.writeBits (t : VpkTree) : List Bool :=
  t.entries.flatMap (fun e =>
    match e with
    | .leaf v => false :: natToBits 8 v
    | .node _ _ => [true]) ++ [true]

/-! ## `src/decode.rs` -/

/-- The `move_back` computation of `do_decode` (decode.rs lines 191–214)
after the first offset component `initialMove` has been read.  For
`TwoSample` the subtractions `(l + (u << 2)) - 8` and
`(initial_move << 2) - 8` are unchecked `usize` subtractions in Rust;
with overflow checks (the debug default) an underflow is a panic, which
is how we model it. -/
def computeMoveBack (method : VpkMethod) (offsets : VpkTree)
    (initialMove : Nat) (bits : List Bool) : DRes (Nat × List Bool) :=
  match method with
  | .oneSample => .ok (initialMove, bits)
  | .twoSample =>
    if initialMove < 3 then
      let l := initialMove + 1
      match offsets.readValue bits with
      | .ok (u, rest) =>
        if l + 4 * u < 8 then .panic else .ok (l + 4 * u - 8, rest)
      | .err e => .err e
      | .panic => .panic
    else
      if 4 * initialMove < 8 then .panic
      else .ok (4 * initialMove - 8, bits)

/-- The copy-back loop of `do_decode`:
`for i in start..start+size { let byte = output[i]; output.push(byte) }`.
An index at or past the current length is an out-of-bounds access: panic. -/
def copyBack : List Nat → Nat → Nat → DRes (List Nat)
  | out, _, 0 => .ok out
  | out, start, size + 1 =>
    match out[start]? with
    | some byte => copyBack (out ++ [byte]) (start + 1) size
    | none => .panic

/-- Main loop of `do_decode`.  Fuel: one unit per iteration; each
iteration consumes at least the leading flag bit, so `bits.length + 1`
always suffices (the fuel-0 answer mirrors the end-of-stream error that
would follow). -/
def decodeLoop (offsets lengths : VpkTree) (method : VpkMethod)
    (outputSize : Nat) : Nat → List Bool → List Nat → DRes (List Nat)
  | 0, _, _ => .err .io
  | fuel + 1, bits, out =>
    if out.length < outputSize then
      match readBit bits with
      | none => .err .io
      | some (true, rest) =>
        match offsets.readValue rest with
        | .ok (initialMove, rest1) =>
          match computeMoveBack method offsets initialMove rest1 with
          | .ok (moveBack, rest2) =>
            if out.length < moveBack then
              .err (.badLookBack moveBack out.length)
            else
              -- `start = output.len() - move_back`
              match lengths.readValue rest2 with
              | .ok (size, rest3) =>
                match copyBack out (out.length - moveBack) size with
                | .ok out' => decodeLoop offsets lengths method outputSize fuel rest3 out'
                | .err e => .err e
                | .panic => .panic
              | .err e => .err e
              | .panic => .panic
          | .err e => .err e
          | .panic => .panic
        | .err e => .err e
        | .panic => .panic
      | some (false, rest) =>
        match readN 8 rest with
        | none => .err .io
        | some (byte, rest1) =>
          decodeLoop offsets lengths method outputSize fuel rest1 (out ++ [byte])
    else .ok out

/-- `do_decode` on a full artifact given as a byte list. -/
def doDecode (artifact : List Nat) : DRes (List Nat) :=
  let bits := bytesToBits artifact
  match VpkHeader.fromBits bits with
  | .ok (header, rest) =>
    match VpkTree.fromBits rest with
    | some (offsets, rest1) =>
      match VpkTree.fromBits rest1 with
      | some (lengths, rest2) =>
        decodeLoop offsets lengths header.method header.size
          (rest2.length + 1) rest2 []
      | none => .err .io
    | none => .err .io
  | .err e => .err e
  | .panic => .panic

/-! ## `src/encode.rs` -/

/-- `count_needed_bits`: `usize::MAX.count_ones() - val.leading_zeros()`,
i.e. the bit width of a 64-bit value.  Fuel: one unit per bit of a
64-bit word. -/
def countNeededBitsGo : Nat → Nat → Nat
  | 0, _ => 0
  | fuel + 1, v => if v = 0 then 0 else countNeededBitsGo fuel (v / 2) + 1

def count_needed_bits (val : Nat) : Nat :=
  countNeededBitsGo 64 val

/-- `TwoSample`: a moveback devolved into one or two smaller samples. -/
inductive TwoSample where
  | one (q : Nat)
  | two (first second : Nat)
deriving DecidableEq, Repr

/-- `TwoSample::LIMIT`. -/
def twoSampleLimit : Nat := 4

/-- `impl From<usize> for TwoSample` (encode.rs lines 360–375). -/
def TwoSample.ofOffset (val : Nat) : TwoSample :=
  let v := val + 8
  let quot := v / twoSampleLimit
  let rem := v % twoSampleLimit
  if rem ≠ 0 then .two (rem - 1) quot else .one quot

/-- The offset components of a `TwoSample`, in the order `write_file`
emits them (`One` → `[q]`; `Two` → `[first, second]`). -/
def TwoSample.wire : TwoSample → List Nat
  | .one q => [q]
  | .two first second => [first, second]

/-- The decoder's reconstruction of a moveback from the two-sample wire
components, per `do_decode` (decode.rs lines 191–214): branch on the
first component being `< 3`; `none` when the number of components on the
wire does not match what that branch would consume. -/
def twoSampleReconstruct : List Nat → Option Nat
  | [u] => if u < 3 then none else some (4 * u - 8)
  | [u, v] => if u < 3 then some ((u + 1 + 4 * v) - 8) else none
  | _ => none

/-! ## `src/encode/lzss.rs` -/

/-- `LzssSettings`. -/
structure LzssSettings where
  offset_bits : Nat
  length_bits : Nat
  max_uncoded : Nat
deriving DecidableEq, Repr

def LzssSettings.default : LzssSettings :=
  ⟨16, 8, 2⟩

/-- `LzssSettings::window_size`: `(1 << offset_bits) - 1`. -/
def LzssSettings.window_size (s : LzssSettings) : Nat :=
  2 ^ s.offset_bits - 1

/-- `LzssSettings::max_encoded`: `(1 << length_bits) - 1`. -/
def LzssSettings.max_encoded (s : LzssSettings) : Nat :=
  2 ^ s.length_bits - 1

/-- `MAX_AHEAD_CHECK`. -/
def MAX_AHEAD_CHECK : Nat := 10

/-- `MoveBack`. -/
structure MoveBack where
  size : Nat
  moveback : Nat
deriving DecidableEq, Repr

/-- `LzssByte`. -/
inductive LzssByte where
  | encoded (length offset : Nat)
  | encTwoSample (length : Nat) (sample : TwoSample)
  | uncoded (byte : Nat)
deriving DecidableEq, Repr

/-- `Bufs`: the three match-finder views. -/
structure Bufs where
  ahead : List Nat
  behind : List Nat
  full : List Nat
deriving DecidableEq, Repr

/-- `SlidingDict`, with the `Read`er modelled as the not-yet-read suffix
`rest` of the input byte list (a `Cursor` reader always fills requests up
to the bytes remaining). -/
structure SlidingDict where
  window : Nat
  lookahead : Nat
  buf_size : Nat
  max_ahead : Nat
  csr : Nat
  buf : List Nat
  rest : List Nat
  more_to_read : Bool
  total_read : Nat
deriving DecidableEq, Repr

/-- `SlidingDict::MAX_PEEK`. -/
def MAX_PEEK : Nat := MAX_AHEAD_CHECK

/-- `SlidingDict::new` for a byte-list reader. -/
def SlidingDict.new (input : List Nat) (settings : LzssSettings) : SlidingDict :=
  let window := settings.window_size
  let lookahead := settings.max_encoded
  let buf_size := window + lookahead
  let max_ahead := lookahead + MAX_PEEK
  let total_read := min input.length max_ahead
  { window, lookahead, buf_size, max_ahead
    csr := 0
    buf := input.take max_ahead
    rest := input.drop max_ahead
    more_to_read := max_ahead ≤ total_read
    total_read }

/-- `SlidingDict::ahead`. -/
def SlidingDict.ahead (d : SlidingDict) : List Nat :=
  (d.buf.take (min d.buf.length d.buf_size)).drop d.csr

/-- `SlidingDict::offset_csr`. -/
def SlidingDict.offset_csr (d : SlidingDict) (n : Nat) : Bufs :=
  let offset_end := min d.buf.length (d.buf_size + n)
  let w_end := d.csr + n
  let w_start := w_end - d.window
  { ahead := (d.buf.take offset_end).drop w_end
    behind := (d.buf.take w_end).drop w_start
    full := (d.buf.take offset_end).drop w_start }

/-- `SlidingDict::next_uncoded_byte`. -/
def SlidingDict.next_uncoded_byte (d : SlidingDict) : Option Nat :=
  d.ahead.head?

/-- `SlidingDict::remaining`. -/
def SlidingDict.remaining (d : SlidingDict) : Nat :=
  d.ahead.length

/-- `SlidingDict::advance_by` for the byte-list reader: drain the excess
off the front, advance the cursor, refill `n` bytes from `rest` while
`more_to_read`. -/
def SlidingDict.advance_by (d : SlidingDict) (n : Nat) : SlidingDict :=
  let p := d.csr + n
  let new_csr := min p d.window
  let excess := p - d.window
  let buf1 := d.buf.drop excess
  if d.more_to_read then
    let bytes_read := min n d.rest.length
    { d with
      csr := new_csr
      buf := buf1 ++ d.rest.take n
      rest := d.rest.drop n
      total_read := d.total_read + bytes_read
      more_to_read := if bytes_read < n ∨ bytes_read = 0 then false else d.more_to_read }
  else
    { d with csr := new_csr, buf := buf1 }

/-- Length of the longest common prefix of two byte lists
(`iter().zip(..).take_while(|(s, d)| s == d).count()`). -/
def lcpLen : List Nat → List Nat → Nat
  | a :: as_, b :: bs => if a = b then lcpLen as_ bs + 1 else 0
  | _, _ => 0

/-- `brute_find_match`: try every window start, keep the longest match of
at least the minimum length, preferring the closest offset on ties. -/
def brute_find_match (bufs : Bufs) (settings : LzssSettings) : Option MoveBack :=
  let window_size := bufs.behind.length
  let longest_match := settings.max_encoded
  let shortest_match := settings.max_uncoded + 1
  (List.range window_size).foldl
    (fun best i =>
      let length := min (lcpLen (bufs.full.drop i) bufs.ahead) longest_match
      if shortest_match ≤ length then
        let cur : MoveBack := ⟨length, window_size - i⟩
        match best with
        | some b => if b.size > cur.size ∨ b.moveback < cur.moveback then some b else some cur
        | none => some cur
      else best)
    none

/-- `LookAhead`. -/
inductive LookAhead where
  | matched (skipped : List Nat) (m : MoveBack)
  | uncoded
deriving DecidableEq, Repr

/-- The `scan`/`last` loop of `look_for_nearby_best_match`, generic in the
match finder.  `s` is the current skip distance, `best` the best accepted
size so far, `last` the last accepted `(skip, match)`.  The scan stops at
the first skip whose closure yields no qualifying match.  Fuel: one unit
per skip; `bound` suffices. -/
def nearbyGo (finder : Bufs → LzssSettings → Option MoveBack)
    (dict : SlidingDict) (settings : LzssSettings) (bound : Nat) :
    Nat → Nat → Nat → Option (Nat × MoveBack) → Option (Nat × MoveBack)
  | 0, _, _, last => last
  | fuel + 1, s, best, last =>
    if s < bound then
      match finder (dict.offset_csr s) settings with
      | some m =>
        if m.size > settings.max_uncoded ∧ m.size > best then
          nearbyGo finder dict settings bound fuel (s + 1) m.size (some (s, m))
        else last
      | none => last
    else last

/-- `look_for_nearby_best_match` (lzss.rs lines 509–546). -/
def look_for_nearby_best_match (dict : SlidingDict) (settings : LzssSettings)
    (finder : Bufs → LzssSettings → Option MoveBack) : LookAhead :=
  -- the scan runs over `ahead().iter().enumerate().take(MAX_AHEAD_CHECK)`,
  -- i.e. skip distances below `min MAX_AHEAD_CHECK dict.ahead.length`
  match nearbyGo finder dict settings (min MAX_AHEAD_CHECK dict.ahead.length)
      (min MAX_AHEAD_CHECK dict.ahead.length + 1) 0 0 none with
  | some (o, m) => .matched (dict.ahead.take o) m
  | none => .uncoded

/-! ## `src/encode/huffman.rs` -/

/-- `HuffCode`: a Huffman code of `size` bits, MSB-first in `code`.
(`push` panics at 32 bits in Rust; the trees here are far shallower, so
that check is not modelled.) -/
structure HuffCode where
  code : Nat
  size : Nat
deriving DecidableEq, Repr

def HuffCode.new : HuffCode := ⟨0, 0⟩

/-- `HuffCode::extend`/`push`. -/
def HuffCode.extend (c : HuffCode) (bit : Bool) : HuffCode :=
  ⟨2 * c.code + bit.toNat, c.size + 1⟩

/-- `CodeMap`: `HashMap<BitSize, (BitSize, HuffCode)>`, modelled as an
association list where the most recent insert shadows older entries. -/
abbrev CodeMap := List (Nat × Nat × HuffCode)

def cmInsert (m : CodeMap) (k : Nat) (v : Nat × HuffCode) : CodeMap :=
  (k, v) :: m

def cmLookup (m : CodeMap) (k : Nat) : Option (Nat × HuffCode) :=
  (m.find? (fun e => e.1 = k)).map (·.2)

/-- `TreeNode` (huffman.rs lines 210–225). -/
inductive TreeNode where
  | leaf (size freq : Nat)
  | combinedLeaf (size freq : Nat) (lesser : List Nat)
  | node (freq : Nat) (left right : TreeNode)
deriving DecidableEq, Repr

/-- `TreeNode::freq`. -/
def TreeNode.freq : TreeNode → Nat
  | .leaf _ f => f
  | .combinedLeaf _ f _ => f
  | .node f _ _ => f

/-- `TreeNode::size`. -/
def TreeNode.sizeOpt : TreeNode → Option Nat
  | .leaf s _ => some s
  | .combinedLeaf s _ _ => some s
  | .node _ _ _ => none

/-- `TreeNode::lessers`. -/
def TreeNode.lessers : TreeNode → Option (List Nat)
  | .combinedLeaf _ _ l => some l
  | _ => none

/-- `order_leaves`: `(higher, lower)` by bit size, `none` if either
operand is an internal node. -/
def order_leaves (l r : TreeNode) : Option (TreeNode × TreeNode) :=
  match l.sizeOpt, r.sizeOpt with
  | some ls, some rs => if rs ≤ ls then some (l, r) else some (r, l)
  | _, _ => none

/-- `pair_lesser_sizes` (huffman.rs lines 323–345); the net-bit-savings
arithmetic is `i64` arithmetic, embedded in `Int`. -/
def pair_lesser_sizes (l r : TreeNode) : Option TreeNode :=
  (order_leaves l r).bind fun (higher, lower) =>
    let hs := (higher.sizeOpt).getD 0
    let ls := (lower.sizeOpt).getD 0
    let hf := higher.freq
    let lf := lower.freq
    let bit_diff : Int := (hs - ls : Nat)
    let bits_gained : Int := hf
    let bits_lost : Int := (bit_diff - 1) * lf
    if 0 ≤ bits_gained - bits_lost then
      let hl := (higher.lessers).getD []
      let ll := (lower.lessers).getD []
      some (.combinedLeaf hs (hf + lf) (ls :: (hl ++ ll)))
    else none

/-- `TreeNode::combine`. -/
def TreeNode.combine (l r : TreeNode) : TreeNode :=
  (pair_lesser_sizes l r).getD (.node (l.freq + r.freq) l r)

/-- `TreeNode::generate_code`: walk assigning prefix codes, entering the
headline size and every absorbed lesser size under the same code. -/
def TreeNode.generateCode : TreeNode → HuffCode → CodeMap → CodeMap
  | .leaf size _, pfx, map => cmInsert map size (size, pfx)
  | .combinedLeaf size _ lesser, pfx, map =>
    lesser.foldl (fun m s => cmInsert m s (size, pfx))
      (cmInsert map size (size, pfx))
  | .node _ left right, pfx, map =>
    right.generateCode (pfx.extend true) (left.generateCode (pfx.extend false) map)

/-- `Tree::generate_code_map`. -/
def generateCodeMap (t : TreeNode) : CodeMap :=
  t.generateCode HuffCode.new []

/-- `TreeNode::flatten`: post-order into the entry arena, returning the
extended arena and the index of the produced entry. -/
def TreeNode.flatten : TreeNode → List TreeEntry → List TreeEntry × Nat
  | .leaf size _, arr => (arr ++ [.leaf size], arr.length)
  | .combinedLeaf size _ _, arr => (arr ++ [.leaf size], arr.length)
  | .node _ left right, arr =>
    let (arr1, li) := left.flatten arr
    let (arr2, ri) := right.flatten arr1
    (arr2 ++ [.node li ri], arr2.length)

/-- `impl Into<VpkTree> for Tree`. -/
def TreeNode.toVpkTree (t : TreeNode) : VpkTree :=
  ⟨(t.flatten []).1⟩

/-! ### Tree-string lexing and parsing (`lex_treestr` / `parse_treestr`) -/

/-- `Token`. -/
inductive TreeTok where
  | openParen
  | closeParen
  | comma
  | whitespace
  | number (n : Nat)
deriving DecidableEq, Repr

/-- `Token::as_str`, as a tag (0 = "(", 1 = ")", 2 = ",",
3 = "whitespace", 4 = "number"). -/
def TreeTok.tag : TreeTok → Nat
  | .openParen => 0
  | .closeParen => 1
  | .comma => 2
  | .whitespace => 3
  | .number _ => 4

/-- `LexToken`. -/
structure LexTok where
  pos : Nat
  tok : TreeTok
deriving DecidableEq, Repr

/-- Decimal value of a digit run. -/
def digitsToNat (cs : List Char) : Nat :=
  cs.foldl (fun a c => 10 * a + (c.toNat - '0'.toNat)) 0

/-- Loop of `lex_treestr`; `total` is the input length so that
`get_pos = total - remaining`.  Whitespace tokens are consumed but (as in
the source) filtered from the output.  Fuel: one unit per iteration; each
iteration consumes at least one character, so `cs.length + 1` suffices. -/
def lexGo : Nat → Nat → List Char → Except TreeParseErr (List LexTok)
  | 0, _, _ => .ok []
  | _ + 1, _, [] => .ok []
  | fuel + 1, total, c :: cs =>
    let pos := total - (c :: cs).length
    if c = '(' then
      (lexGo fuel total cs).map (⟨pos, .openParen⟩ :: ·)
    else if c = ')' then
      (lexGo fuel total cs).map (⟨pos, .closeParen⟩ :: ·)
    else if c = ',' then
      (lexGo fuel total cs).map (⟨pos, .comma⟩ :: ·)
    else if c.isWhitespace then
      let n := ((c :: cs).takeWhile Char.isWhitespace).length
      lexGo fuel total ((c :: cs).drop n)
    else if c.isDigit then
      let run := (c :: cs).takeWhile Char.isDigit
      let v := digitsToNat run
      -- `parse::<u8>` fails (ParseIntError) when the numeral overflows a u8
      if v ≤ 255 then
        (lexGo fuel total ((c :: cs).drop run.length)).map (⟨pos, .number v⟩ :: ·)
      else .error (.lexNum pos)
    else .error (.lexUnexp c pos)

/-- `lex_treestr`. -/
def lex_treestr (s : List Char) : Except TreeParseErr (List LexTok) :=
  lexGo (s.length + 1) s.length s

/-- `parse_node`: recursive-descent over the token stream.  Fuel: one
unit per recursive call; each call consumes at least one token before
recursing, so `ts.length + 1` suffices. -/
def parseNodeGo : Nat → List LexTok → Except TreeParseErr (TreeNode × List LexTok)
  | 0, _ => .error .parseUnexpEnd
  | fuel + 1, ts =>
    match ts with
    | [] => .error .parseUnexpEnd
    | ⟨_, .number size⟩ :: rest => .ok (.leaf size 0, rest)
    | ⟨_, .openParen⟩ :: rest =>
      match parseNodeGo fuel rest with
      | .error e => .error e
      | .ok (left, rest1) =>
        match rest1 with
        | ⟨_, .comma⟩ :: rest2 =>
          match parseNodeGo fuel rest2 with
          | .error e => .error e
          | .ok (right, rest3) =>
            match rest3 with
            | ⟨_, .closeParen⟩ :: rest4 => .ok (.node 0 left right, rest4)
            | t :: _ => .error (.parseUnexp t.tok.tag t.pos)
            | [] => .error .parseUnexpEnd
        | t :: _ => .error (.parseUnexp t.tok.tag t.pos)
        | [] => .error .parseUnexpEnd
    | t :: _ => .error (.parseUnexp t.tok.tag t.pos)

/-- `parse_treestr` (huffman.rs lines 413–418): lex, then parse one node
(trailing tokens are not rejected, as in the source). -/
def parse_treestr (s : List Char) : Except TreeParseErr TreeNode :=
  match lex_treestr s with
  | .error e => .error e
  | .ok lexed =>
    match parseNodeGo (lexed.length + 1) lexed with
    | .error e => .error e
    | .ok (root, _) => .ok root

/-! ### `MapTree` and `fill_missing` -/

/-- `MapTree`. -/
structure MapTree where
  map : CodeMap
  tree : VpkTree
deriving DecidableEq, Repr

def MapTree.get (mt : MapTree) (bitsize : Nat) : Option (Nat × HuffCode) :=
  cmLookup mt.map bitsize

/-- `impl FromStr for MapTree`. -/
def MapTree.fromStr (s : List Char) : Except TreeParseErr MapTree :=
  match parse_treestr s with
  | .error e => .error e
  | .ok t => .ok ⟨generateCodeMap t, t.toVpkTree⟩

/-- The `while check <= max` search inside `fill_missing`.  Fuel: one
unit per candidate size; `maxK + 1 - check` suffices. -/
def fillSearch (map : CodeMap) : Nat → Nat → Nat → Option (Nat × HuffCode)
  | 0, _, _ => none
  | fuel + 1, check, maxK =>
    if check ≤ maxK then
      match cmLookup map check with
      | some v => some v
      | none => fillSearch map fuel (check + 1) maxK
    else none

/-- `MapTree::fill_missing` over the observed bit sizes.  `found` is the
histogram's key set; Rust iterates it in `HashMap` order, which is
unspecified — we take the keys in the given list order (the callers below
pass them sorted; the resulting map is order-independent because a filled
key is never smaller than the present key that serves it).  `none` models
the `panic!` when an observed size exceeds the largest size in the tree,
and the `expect` when the tree has no sizes at all. -/
def MapTree.fill_missing (mt : MapTree) (found : List Nat) : Option MapTree :=
  match (mt.map.map (·.1)).max? with
  | none => none
  | some maxK =>
    found.foldl
      (fun acc bitsize =>
        acc.bind fun mt' =>
          if maxK < bitsize then none
          else
            match fillSearch mt'.map (maxK + 1 - bitsize) bitsize maxK with
            | some v => some { mt' with map := cmInsert mt'.map bitsize v }
            | none => some mt')
      (some mt)

/-! ### `LzssPass` and the compression driver -/

/-- `*map.entry(k).or_insert(0) += 1` on a histogram, modelled as an
association list in first-insertion order (Rust's `HashMap` holds the
same multiset of entries in unspecified order). -/
def bumpFreq : List (Nat × Nat) → Nat → List (Nat × Nat)
  | [], k => [(k, 1)]
  | (k', f) :: rest, k =>
    if k' = k then (k', f + 1) :: rest else (k', f) :: bumpFreq rest k

/-- `LzssPass`. -/
structure LzssPass where
  buf : List LzssByte
  decompressed_size : Option Nat
  size_bitfreq : List (Nat × Nat)
  moveback_bitfreq : List (Nat × Nat)
deriving DecidableEq, Repr

def LzssPass.empty : LzssPass := ⟨[], none, [], []⟩

/-- `LzssPass::add_uncoded`. -/
def LzssPass.add_uncoded (p : LzssPass) (byte : Nat) : LzssPass :=
  { p with buf := p.buf ++ [.uncoded byte] }

/-- `LzssPass::add`: count the bit widths, then push. -/
def LzssPass.add (p : LzssPass) (byte : LzssByte) : LzssPass :=
  let p' :=
    match byte with
    | .encoded size offset =>
      { p with
        size_bitfreq := bumpFreq p.size_bitfreq (count_needed_bits size)
        moveback_bitfreq := bumpFreq p.moveback_bitfreq (count_needed_bits offset) }
    | .encTwoSample size sample =>
      let p1 := { p with size_bitfreq := bumpFreq p.size_bitfreq (count_needed_bits size) }
      match sample with
      | .one o =>
        { p1 with moveback_bitfreq := bumpFreq p1.moveback_bitfreq (count_needed_bits o) }
      | .two first second =>
        { p1 with
          moveback_bitfreq :=
            bumpFreq (bumpFreq p1.moveback_bitfreq (count_needed_bits first))
              (count_needed_bits second) }
    | .uncoded _ => p
  { p' with buf := p'.buf ++ [byte] }

/-- `add_match`: the skipped literals, then the encoded back-reference;
returns how many input bytes were covered. -/
def add_match (mat : MoveBack) (skipped : List Nat) (method : VpkMethod)
    (output : LzssPass) : LzssPass × Nat :=
  let total_bytes := mat.size + skipped.length
  let output1 := skipped.foldl LzssPass.add_uncoded output
  let encoded :=
    match method with
    | .oneSample => LzssByte.encoded mat.size mat.moveback
    | .twoSample => LzssByte.encTwoSample mat.size (TwoSample.ofOffset mat.moveback)
  (output1.add encoded, total_bytes)

/-- Main loop of `compress_rdr`.  Fuel: one unit per iteration; every
iteration advances the dictionary by at least one byte, so
`input.length + 1` suffices. -/
def compressGo (settings : LzssSettings) (method : VpkMethod)
    (finder : Bufs → LzssSettings → Option MoveBack) :
    Nat → SlidingDict → LzssPass → SlidingDict × LzssPass
  | 0, dict, pass => (dict, pass)
  | fuel + 1, dict, pass =>
    if 0 < dict.remaining then
      match look_for_nearby_best_match dict settings finder with
      | .matched skipped m =>
        let (pass', n) := add_match m skipped method pass
        compressGo settings method finder fuel (dict.advance_by n) pass'
      | .uncoded =>
        match dict.next_uncoded_byte with
        | some b =>
          compressGo settings method finder fuel (dict.advance_by 1) (pass.add_uncoded b)
        | none => (dict, pass)  -- `unwrap` panic; unreachable: remaining > 0
    else (dict, pass)

/-- `compress_rdr` for a byte-list reader. -/
def compress_rdr (input : List Nat) (settings : LzssSettings) (method : VpkMethod)
    (finder : Bufs → LzssSettings → Option MoveBack) : Except VpkError LzssPass :=
  let dict := SlidingDict.new input settings
  let (dict', pass) := compressGo settings method finder (input.length + 1) dict .empty
  if dict'.total_read < 2 ^ 32 then
    .ok { pass with decompressed_size := some dict'.total_read }
  else .error .inputTooBig

/-! ### `write_file` (encode.rs lines 267–326) -/

/-- `write_encoded_val`: the Huffman code for the value's bit width, then
the value itself in the mapped width.  `none` models the `unwrap` panic
when the width is missing from the map. -/
def write_encoded_val (mapt : MapTree) (val : Nat) : Option (List Bool) :=
  let needed_bits := count_needed_bits val
  (mapt.get needed_bits).map fun (encoded_bits, code) =>
    natToBits code.size code.code ++ natToBits encoded_bits val

/-- Bits of one `(val, map)` list written through `write_encoded_val`. -/
def writeVals (mapt : MapTree) : List Nat → Option (List Bool)
  | [] => some []
  | v :: vs =>
    match write_encoded_val mapt v, writeVals mapt vs with
    | some bs, some rest => some (bs ++ rest)
    | _, _ => none

/-- The token loop of `write_file`: `0`+byte for a literal; `1`, offset
component(s), then length for a back-reference. -/
def writeBody (offsets lengths : MapTree) : List LzssByte → Option (List Bool)
  | [] => some []
  | code :: rest =>
    let this :=
      match code with
      | .uncoded byte => some (false :: natToBits 8 byte)
      | .encoded length offset =>
        match write_encoded_val offsets offset, write_encoded_val lengths length with
        | some ob, some lb => some (true :: (ob ++ lb))
        | _, _ => none
      | .encTwoSample length sample =>
        match writeVals offsets sample.wire, write_encoded_val lengths length with
        | some ob, some lb => some (true :: (ob ++ lb))
        | _, _ => none
    match this, writeBody offsets lengths rest with
    | some bs, some bs' => some (bs ++ bs')
    | _, _ => none

/-- The nine header bytes written by `VpkHeader::write`. -/
def VpkHeader.writeBytes (h : VpkHeader) : List Nat :=
  vpkMagic ++
    [h.size / 16777216 % 256, h.size / 65536 % 256, h.size / 256 % 256, h.size % 256] ++
    [match h.method with | .oneSample => 0 | .twoSample => 1]

/-- `write_file`: header, both trees, every token, byte-aligned.  `none`
models the panics (`decompressed_size.unwrap`, missing code map entry). -/
def write_file (method : VpkMethod) (encoded_data : LzssPass)
    (offsets lengths : MapTree) : Option (List Nat) :=
  match encoded_data.decompressed_size with
  | none => none
  | some size =>
    (writeBody offsets lengths encoded_data.buf).map fun body =>
      packBits (bytesToBits (VpkHeader.writeBytes ⟨size, method⟩) ++
        offsets.tree.writeBits ++ lengths.tree.writeBits ++ body)

/-! ### `EncodedMaps::new` and `do_encode` with user-supplied trees -/

/-- Insertion into a sorted list (ascending). -/
def insertSorted (x : Nat) : List Nat → List Nat
  | [] => [x]
  | y :: ys => if x ≤ y then x :: y :: ys else y :: insertSorted x ys

/-- The keys of a histogram, sorted ascending — a fixed stand-in for
Rust's unspecified `HashMap` key order (see `MapTree.fill_missing`). -/
def histKeys (h : List (Nat × Nat)) : List Nat :=
  (h.map (·.1)).foldr insertSorted []

/-- `EncodedMaps::new` when both trees are user-supplied: parse each and
fill the observed bit sizes in. -/
def encodedMapsUser (offStr lenStr : List Char) (p1 : LzssPass) :
    DRes (MapTree × MapTree) :=
  match MapTree.fromStr offStr with
  | .error e => .err (.badUserTree e)
  | .ok offT =>
    match offT.fill_missing (histKeys p1.moveback_bitfreq) with
    | none => .panic
    | some offT' =>
      match MapTree.fromStr lenStr with
      | .error e => .err (.badUserTree e)
      | .ok lenT =>
        match lenT.fill_missing (histKeys p1.size_bitfreq) with
        | none => .panic
        | some lenT' => .ok (offT', lenT')

/-- `do_encode` for a byte-list input with both Huffman trees supplied as
tree strings (the configuration of the C4 scenario). -/
def doEncodeUser (input : List Nat) (settings : LzssSettings) (method : VpkMethod)
    (finder : Bufs → LzssSettings → Option MoveBack) (offStr lenStr : List Char) :
    DRes (List Nat) :=
  match compress_rdr input settings method finder with
  | .error e => .err e
  | .ok lzss =>
    match encodedMapsUser offStr lenStr lzss with
    | .err e => .err e
    | .panic => .panic
    | .ok (offT, lenT) =>
      match write_file method lzss offT lenT with
      | none => .panic
      | some bytes => .ok bytes

/-! ## Concrete artifacts used by the decode claims -/

/-- An artifact (header size 2, OneSample; offset tree = leaf 1, length
tree = leaf 2) whose single back-reference of length 3 overshoots the
recorded size: one literal `A`, then a back-reference (offset 1,
length 3). -/
def overshootArtifact : List Nat :=
  [118, 112, 107, 48, 0, 0, 0, 2, 0] ++
    packBits ([false] ++ natToBits 8 1 ++ [true] ++
      [false] ++ natToBits 8 2 ++ [true] ++
      [false] ++ natToBits 8 65 ++ [true, true, true, true])

/-- An artifact (header size 1, OneSample) whose offset tree is a single
leaf of payload width 0, so its back-reference decodes to offset 0. -/
def zeroOffsetArtifact : List Nat :=
  [118, 112, 107, 48, 0, 0, 0, 1, 0] ++
    packBits ([false] ++ natToBits 8 0 ++ [true] ++
      [false] ++ natToBits 8 2 ++ [true] ++
      [true] ++ natToBits 2 1)

/-- A TwoSample artifact (header size 1) whose offset tree is a single
leaf of payload width 0, so the first offset component is `u = 0 < 3`,
the second is `v = 0`, and `(u + 1 + 4·v) - 8` underflows. -/
def underflowArtifact : List Nat :=
  [118, 112, 107, 48, 0, 0, 0, 1, 1] ++
    packBits ([false] ++ natToBits 8 0 ++ [true] ++
      [false] ++ natToBits 8 2 ++ [true] ++
      [true])

/-! ## C2 — the two-sample offset transform round-trips -/

/-- **C2.**  For every `offset ≥ 1`, with `v = offset + 8`, `q = v/4`,
`r = v mod 4`: if `r = 0` the encoder emits the single component `q`
(which is not `< 3`, so the decoder's single-sample branch applies and
computes `4q − 8`); otherwise it emits `(r − 1, q)` in that order with
`r − 1 < 3` (so the decoder reads the second component and computes
`(r − 1) + 1 + 4q − 8`); in both cases the decoder's reconstruction of
the wire components yields exactly `offset`. -/
theorem two_sample_transform_round_trips (offset : Nat) (h : 1 ≤ offset) :
    ((offset + 8) % 4 = 0 →
      TwoSample.ofOffset offset = .one ((offset + 8) / 4) ∧
      ¬ (offset + 8) / 4 < 3 ∧
      4 * ((offset + 8) / 4) - 8 = offset) ∧
    ((offset + 8) % 4 ≠ 0 →
      TwoSample.ofOffset offset = .two ((offset + 8) % 4 - 1) ((offset + 8) / 4) ∧
      (offset + 8) % 4 - 1 < 3 ∧
      ((offset + 8) % 4 - 1 + 1 + 4 * ((offset + 8) / 4)) - 8 = offset) ∧
    twoSampleReconstruct (TwoSample.ofOffset offset).wire = some offset := by
  have hdm := Nat.div_add_mod (offset + 8) 4
  have hm : (offset + 8) % 4 < 4 := Nat.mod_lt _ (by omega)
  refine ⟨fun hr => ⟨?_, by omega, by omega⟩, fun hr => ⟨?_, by omega, by omega⟩, ?_⟩
  · simp [TwoSample.ofOffset, twoSampleLimit, hr]
  · simp [TwoSample.ofOffset, twoSampleLimit, hr]
  · by_cases hr : (offset + 8) % 4 = 0
    · simp only [TwoSample.ofOffset, twoSampleLimit, hr, ne_eq, not_true_eq_false,
        if_false, TwoSample.wire, twoSampleReconstruct]
      have : ¬ (offset + 8) / 4 < 3 := by omega
      simp [this]
      omega
    · simp only [TwoSample.ofOffset, twoSampleLimit, ne_eq, hr, not_false_eq_true,
        if_true, TwoSample.wire, twoSampleReconstruct]
      have : (offset + 8) % 4 - 1 < 3 := by omega
      simp [this]
      omega

/-- Witness for C2 at `offset = 5` (two components) — the hypothesis
`1 ≤ 5` is discharged concretely. -/
theorem two_sample_transform_round_trips_witness :
    twoSampleReconstruct (TwoSample.ofOffset 5).wire = some 5 :=
  (two_sample_transform_round_trips 5 (by decide)).2.2

/-! ## C8 — the leaf-pair merge rule -/

/-- **C8.**  When the Huffman builder combines two nodes: if both carry
sizes (leaves or combined leaves), order them as `(higher, lower)` with
bit widths `hs ≥ ls` and frequencies `hf`, `lf`; the result is a
`CombinedLeaf` of headline size `hs`, frequency `hf + lf`, and lesser
list `ls` followed by both operands' absorbed lesser sizes exactly when
`hf − (hs − ls − 1)·lf ≥ 0`, and an ordinary internal node of summed
frequency otherwise; if either operand is an internal node the result is
always that internal node. -/
theorem combine_merges_leaf_pairs (l r : TreeNode) :
    match order_leaves l r with
    | some (higher, lower) =>
      lower.sizeOpt.getD 0 ≤ higher.sizeOpt.getD 0 ∧
      TreeNode.combine l r =
        (if 0 ≤ (higher.freq : Int) -
              ((higher.sizeOpt.getD 0 : Int) - (lower.sizeOpt.getD 0 : Int) - 1) *
                (lower.freq : Int) then
          TreeNode.combinedLeaf (higher.sizeOpt.getD 0) (higher.freq + lower.freq)
            (lower.sizeOpt.getD 0 ::
              ((higher.lessers.getD []) ++ (lower.lessers.getD [])))
        else .node (l.freq + r.freq) l r)
    | none =>
      (l.sizeOpt = none ∨ r.sizeOpt = none) ∧
      TreeNode.combine l r = .node (l.freq + r.freq) l r := by
  have key : ∀ higher lower : TreeNode,
      order_leaves l r = some (higher, lower) →
      lower.sizeOpt.getD 0 ≤ higher.sizeOpt.getD 0 ∧
      (∃ hs ls, higher.sizeOpt = some hs ∧ lower.sizeOpt = some ls) ∧
      (higher = l ∧ lower = r ∨ higher = r ∧ lower = l) := by
    intro higher lower h
    unfold order_leaves at h
    cases hl : l.sizeOpt with
    | none => simp [hl] at h
    | some ls' =>
      cases hr : r.sizeOpt with
      | none => simp [hl, hr] at h
      | some rs' =>
        simp only [hl, hr] at h
        by_cases hc : rs' ≤ ls'
        · simp only [hc, if_true, Option.some_inj, Prod.mk.injEq] at h
          refine ⟨?_, ⟨ls', rs', ?_⟩, .inl ⟨h.1.symm, h.2.symm⟩⟩
          · rw [← h.1, ← h.2, hl, hr]; simpa
          · rw [← h.1, ← h.2, hl, hr]; exact ⟨rfl, rfl⟩
        · simp only [hc, if_false, Option.some_inj, Prod.mk.injEq] at h
          refine ⟨?_, ⟨rs', ls', ?_⟩, .inr ⟨h.1.symm, h.2.symm⟩⟩
          · rw [← h.1, ← h.2, hl, hr]; simp; omega
          · rw [← h.1, ← h.2, hl, hr]; exact ⟨rfl, rfl⟩
  cases ho : order_leaves l r with
  | none =>
    refine ⟨?_, ?_⟩
    · unfold order_leaves at ho
      cases hl : l.sizeOpt with
      | none => exact .inl rfl
      | some ls' =>
        cases hr : r.sizeOpt with
        | none => exact .inr rfl
        | some rs' => simp [hl, hr] at ho; split at ho <;> simp_all
    · unfold TreeNode.combine pair_lesser_sizes
      rw [ho]
      rfl
  | some p =>
    obtain ⟨higher, lower⟩ := p
    obtain ⟨hle, ⟨hs, ls, hhs, hls⟩, _⟩ := key higher lower ho
    refine ⟨hle, ?_⟩
    unfold TreeNode.combine pair_lesser_sizes
    rw [ho, Option.some_bind]
    simp only [hhs, hls, Option.getD_some] at hle ⊢
    have hcast : ((hs - ls : Nat) : Int) = (hs : Int) - (ls : Int) := by omega
    by_cases hcond : 0 ≤ (higher.freq : Int) - ((hs : Int) - (ls : Int) - 1) * (lower.freq : Int)
    · rw [if_pos (by rw [hcast]; omega), if_pos hcond]
      simp
    · rw [if_neg (by rw [hcast]; omega), if_neg hcond]
      simp

/-! ## C3 — decode output length versus the recorded size -/

/-- Case helper: the ubiquitous `match` on a `DRes` propagating `err`
and `panic` yields `ok` only through its `ok` arm. -/
theorem dres_match_ok {α β : Type} (r : DRes α) (f : α → DRes β) (b : β)
    (h : (match r with
      | .ok a => f a
      | .err e => .err e
      | .panic => .panic) = .ok b) :
    ∃ a, r = .ok a ∧ f a = .ok b := by
  cases r <;> simp_all

/-- The decode loop only returns `ok` once the produced length has
reached the recorded size (it may exceed it: the copy loop never
truncates). -/
theorem decodeLoop_ok_ge (offsets lengths : VpkTree) (method : VpkMethod)
    (outputSize : Nat) :
    ∀ fuel bits out out',
      decodeLoop offsets lengths method outputSize fuel bits out = .ok out' →
      outputSize ≤ out'.length := by
  intro fuel
  induction fuel with
  | zero => intro bits out out' h; exact absurd h (by simp [decodeLoop])
  | succ n ih =>
    intro bits out out' h
    unfold decodeLoop at h
    by_cases hlt : out.length < outputSize
    · rw [if_pos hlt] at h
      repeat' split at h
      all_goals first
        | exact ih _ _ _ h
        | exact absurd h (by simp)
    · rw [if_neg hlt] at h
      cases h
      omega

/-- **C3 (amended).**  On any artifact on which decode returns
successfully, the returned vector is at least `decompressed_size` bytes
long; a final back-reference that overruns the recorded size makes it
strictly longer, because the copy loop pushes all `length` bytes before
the loop condition is re-checked. -/
theorem decode_ok_length_ge_header_size (artifact : List Nat)
    (header : VpkHeader) (rest : List Bool) (out : List Nat)
    (hh : VpkHeader.fromBits (bytesToBits artifact) = .ok (header, rest))
    (hd : doDecode artifact = .ok out) :
    header.size ≤ out.length := by
  simp only [doDecode, hh] at hd
  split at hd
  · split at hd
    · exact decodeLoop_ok_ge _ _ _ _ _ _ _ _ hd
    · exact absurd hd (by simp)
  · exact absurd hd (by simp)

/-- Witness for C3 (amended) on `overshootArtifact` (recorded size 2,
actual output 4 bytes). -/
theorem decode_ok_length_ge_header_size_witness : (2 : Nat) ≤ [65, 65, 65, 65].length :=
  decode_ok_length_ge_header_size overshootArtifact ⟨2, .oneSample⟩
    ((bytesToBits overshootArtifact).drop 72) [65, 65, 65, 65] (by decide) (by decide)

/-- **C3 counterexample.**  `overshootArtifact` records a decompressed
size of 2, yet decode returns successfully with 4 bytes: a back-reference
whose length runs past the recorded size makes the output longer. -/
theorem decode_output_can_exceed_header_size :
    doDecode overshootArtifact = .ok [65, 65, 65, 65] ∧
    VpkHeader.fromBits (bytesToBits overshootArtifact) =
      .ok (⟨2, .oneSample⟩, (bytesToBits overshootArtifact).drop 72) ∧
    ([65, 65, 65, 65] : List Nat).length ≠ 2 := by
  refine ⟨by decide, by decide, by decide⟩

/-! ## C5 — the BadLookBack guard -/

/-- **C5.**  During decode, if a back-reference's computed offset
strictly exceeds the number of output bytes produced so far, the loop
fails immediately — before even reading the length — with `BadLookBack`
carrying that offset and the produced count. -/
theorem bad_lookback_on_excessive_offset (offsets lengths : VpkTree)
    (method : VpkMethod) (size fuel : Nat) (bits0 bits1 bits2 : List Bool)
    (out : List Nat) (u0 mb : Nat)
    (hrun : out.length < size)
    (hv : offsets.readValue bits0 = .ok (u0, bits1))
    (hmb : computeMoveBack method offsets u0 bits1 = .ok (mb, bits2))
    (hgt : out.length < mb) :
    decodeLoop offsets lengths method size (fuel + 1) (true :: bits0) out =
      .err (.badLookBack mb out.length) := by
  unfold decodeLoop
  rw [if_pos hrun]
  simp only [readBit, hv, hmb]
  rw [if_pos hgt]

/-- Witness for C5: an offset tree with a single 3-bit leaf, a
back-reference declaring offset 5 after only the 3 bytes `A B C` have
been produced — decode fails with `BadLookBack(5, 3)`. -/
theorem bad_lookback_on_excessive_offset_witness :
    decodeLoop ⟨[.leaf 3]⟩ ⟨[.leaf 2]⟩ .oneSample 10 6
      [true, true, false, true] [65, 66, 67] = .err (.badLookBack 5 3) :=
  bad_lookback_on_excessive_offset ⟨[.leaf 3]⟩ ⟨[.leaf 2]⟩ .oneSample 10 5
    [true, false, true] [] [] [65, 66, 67] 5 5 (by decide) (by decide) (by decide)
    (by decide)

/-! ## C9 — offset 0 is not rejected and panics -/

/-- **C9.**  Decode does not enforce `offset ≥ 1`: on
`zeroOffsetArtifact`, whose offset tree is a single leaf of payload
width 0, the back-reference decodes to offset 0 with length 1; the
`BadLookBack` guard (which fires only for `offset > produced`) passes,
and the copy loop then indexes the output at its current length — an
out-of-bounds access, so decode panics instead of returning an error. -/
theorem decode_panics_on_zero_offset : doDecode zeroOffsetArtifact = .panic := by
  decide

/-! ## C10 — two-sample reconstruction underflow -/

/-- **C10.**  In TwoSample decode the reconstruction `(u + 1 + 4·v) − 8`
is an unguarded `usize` subtraction; on `underflowArtifact` the crafted
components are `u = 0 < 3` and `v = 0`, so `u + 1 + 4·v = 1 < 8` and the
subtraction underflows — with overflow checks (the debug default) decode
panics instead of returning an error. -/
theorem decode_panics_on_two_sample_underflow :
    doDecode underflowArtifact = .panic := by
  decide

/-! ## C6 — the nearby-lookahead acceptance rule -/

/-- "The finder's match `m` was accepted at skip distance `s`": it
exceeds `max_uncoded`, lies within the scanned range, is exactly what the
finder returned at that skip, and strictly exceeds every match accepted
at a smaller skip (the scan reaches skip `s` only by accepting all
smaller skips, each strictly growing the best size). -/
def acceptedAt (finder : Bufs → LzssSettings → Option MoveBack)
    (dict : SlidingDict) (settings : LzssSettings) (bound s : Nat)
    (m : MoveBack) : Prop :=
  settings.max_uncoded < m.size ∧ s < bound ∧
  finder (dict.offset_csr s) settings = some m ∧
  ∀ s' < s, ∃ m', finder (dict.offset_csr s') settings = some m' ∧
    settings.max_uncoded < m'.size ∧ m'.size < m.size

/-- Soundness of the scan loop: any returned `(skip, match)` pair was
accepted, provided the loop state is consistent. -/
theorem nearbyGo_sound (finder : Bufs → LzssSettings → Option MoveBack)
    (dict : SlidingDict) (settings : LzssSettings) (bound : Nat) :
    ∀ fuel s best last sf mf,
      nearbyGo finder dict settings bound fuel s best last = some (sf, mf) →
      (last = none → s = 0 ∧ best = 0) →
      (∀ s₀ m₀, last = some (s₀, m₀) →
        s = s₀ + 1 ∧ best = m₀.size ∧ acceptedAt finder dict settings bound s₀ m₀) →
      acceptedAt finder dict settings bound sf mf := by
  intro fuel
  induction fuel with
  | zero =>
    intro s best last sf mf h _ hsome
    exact (hsome sf mf h).2.2
  | succ n ih =>
    intro s best last sf mf h hnone hsome
    unfold nearbyGo at h
    by_cases hs : s < bound
    · rw [if_pos hs] at h
      rcases hf : finder (dict.offset_csr s) settings with _ | m <;> simp only [hf] at h
      · exact (hsome sf mf h).2.2
      · by_cases hacc : m.size > settings.max_uncoded ∧ m.size > best
        · rw [if_pos hacc] at h
          refine ih (s + 1) m.size (some (s, m)) sf mf h (by simp) ?_
          intro s₀ m₀ he
          cases he
          refine ⟨rfl, rfl, hacc.1, hs, hf, ?_⟩
          intro s' hs'
          rcases hl : last with _ | ⟨s₁, m₁⟩
          · obtain ⟨hzero, _⟩ := hnone hl
            omega
          · obtain ⟨hss, hbb, hAcc⟩ := hsome s₁ m₁ hl
            by_cases hlt : s' < s₁
            · obtain ⟨m', hm', hgt, hlt'⟩ := hAcc.2.2.2 s' hlt
              exact ⟨m', hm', hgt, by omega⟩
            · have : s' = s₁ := by omega
              subst this
              exact ⟨m₁, hAcc.2.2.1, hAcc.1, by omega⟩
        · rw [if_neg hacc] at h
          exact (hsome sf mf h).2.2
    · rw [if_neg hs] at h
      exact (hsome sf mf h).2.2

/-- **C6 (amended).**  In the nearby-lookahead wrapper, a match returned
by the underlying finder is accepted only if its length strictly exceeds
`max_uncoded` (default 2 — that is, length ≥ the minimum match length 3,
not length > 3) and strictly exceeds every match accepted at a smaller
skip; and whenever no skip in range yields a match above `max_uncoded`, a
single literal is emitted. -/
theorem nearby_accepts_only_above_max_uncoded
    (finder : Bufs → LzssSettings → Option MoveBack)
    (dict : SlidingDict) (settings : LzssSettings) :
    (∀ skipped m, look_for_nearby_best_match dict settings finder = .matched skipped m →
      settings.max_uncoded < m.size ∧
      ∃ s, acceptedAt finder dict settings (min MAX_AHEAD_CHECK dict.ahead.length) s m ∧
        skipped = dict.ahead.take s) ∧
    ((∀ s, s < min MAX_AHEAD_CHECK dict.ahead.length →
        ∀ m', finder (dict.offset_csr s) settings = some m' →
          m'.size ≤ settings.max_uncoded) →
      look_for_nearby_best_match dict settings finder = .uncoded) := by
  constructor
  · intro skipped m h
    unfold look_for_nearby_best_match at h
    rcases hg : nearbyGo finder dict settings (min MAX_AHEAD_CHECK dict.ahead.length)
        (min MAX_AHEAD_CHECK dict.ahead.length + 1) 0 0 none with _ | ⟨sf, mf⟩ <;>
      rw [hg] at h
    · exact absurd h (by simp)
    · have hacc := nearbyGo_sound finder dict settings _ _ _ _ _ _ _ hg
        (fun _ => ⟨rfl, rfl⟩) (by intro _ _ he; cases he)
      cases h
      exact ⟨hacc.1, sf, hacc, rfl⟩
  · intro hno
    unfold look_for_nearby_best_match
    rcases hb : min MAX_AHEAD_CHECK dict.ahead.length with _ | b
    · simp [nearbyGo, hb]
    · unfold nearbyGo
      rw [if_pos (by omega)]
      rcases hf : finder (dict.offset_csr 0) settings with _ | m
      · rfl
      · have hle := hno 0 (by omega) m hf
        have hni : ¬ (m.size > settings.max_uncoded ∧ m.size > 0) := by omega
        simp [hni]

/-- Witness for C6: on `ABCABC` advanced past the first three literals,
the brute finder's length-3 match (equal to the minimum match length 3,
merely above `max_uncoded = 2`) is accepted; and on the no-repeat input
`abcdefgh` every skip is matchless, so a single literal is emitted. -/
theorem nearby_accepts_only_above_max_uncoded_witness :
    (LzssSettings.default.max_uncoded < 3 ∧
      ∃ s, acceptedAt brute_find_match
        ((((SlidingDict.new [65, 66, 67, 65, 66, 67] .default).advance_by 1).advance_by
          1).advance_by 1) .default
        (min MAX_AHEAD_CHECK
          ((((SlidingDict.new [65, 66, 67, 65, 66, 67] .default).advance_by 1).advance_by
            1).advance_by 1).ahead.length) s ⟨3, 3⟩ ∧
        ([] : List Nat) =
          ((((SlidingDict.new [65, 66, 67, 65, 66, 67] .default).advance_by 1).advance_by
            1).advance_by 1).ahead.take s) ∧
    look_for_nearby_best_match (SlidingDict.new [97, 98, 99, 100, 101, 102, 103, 104] .default)
      .default brute_find_match = .uncoded :=
  ⟨(nearby_accepts_only_above_max_uncoded brute_find_match _ .default).1 [] ⟨3, 3⟩
      (by decide),
    (nearby_accepts_only_above_max_uncoded brute_find_match _ .default).2
      (by decide)⟩

/-- **C6 counterexample.**  On `ABCABC` after three literals, the wrapper
accepts a match of length 3 — equal to, not strictly greater than, the
min-match length 3 — so "accepted only if length > min_match_length
(default 3)" is false of the code. -/
theorem nearby_accepts_length_equal_min_match :
    look_for_nearby_best_match
      ((((SlidingDict.new [65, 66, 67, 65, 66, 67] .default).advance_by 1).advance_by
        1).advance_by 1) .default brute_find_match = .matched [] ⟨3, 3⟩ ∧
    ¬ (3 : Nat) > 3 := by
  exact ⟨by decide, by decide⟩

/-! ## C4 — the "YAAAAAAAAAAAAAA" scenario -/

instance {ε α : Type} [DecidableEq ε] [DecidableEq α] : DecidableEq (Except ε α)
  | .ok a, .ok b =>
    if h : a = b then isTrue (by rw [h])
    else isFalse (by intro hh; cases hh; exact h rfl)
  | .ok _, .error _ => isFalse (by intro h; cases h)
  | .error _, .ok _ => isFalse (by intro h; cases h)
  | .error e, .error f =>
    if h : e = f then isTrue (by rw [h])
    else isFalse (by intro hh; cases hh; exact h rfl)

/-- The 15-byte input `"YAAAAAAAAAAAAAA"`. -/
def c4Input : List Nat := [89, 65, 65, 65, 65, 65, 65, 65, 65, 65, 65, 65, 65, 65, 65]

/-- The user tree string `"(1, (4, 7))"` for both offsets and lengths. -/
def c4TreeStr : List Char := "(1, (4, 7))".toList

/-- The body bits the pipeline writes for the C4 scenario (the token
loop of `write_file`, after LZSS and user-tree code-map construction). -/
def c4BodyBits : Option (List Bool) :=
  match compress_rdr c4Input .default .oneSample brute_find_match with
  | .ok lzss =>
    match encodedMapsUser c4TreeStr c4TreeStr lzss with
    | .ok (offT, lenT) => writeBody offT lenT lzss.buf
    | _ => none
  | .error _ => none

/-- The body bits the claim asserts:
`0 01011001 0 01000001 1 0 1 11 0001101` (length 13 written as code `11`
plus 7 payload bits). -/
def c4ClaimedBody : List Bool :=
  [false, false, true, false, true, true, false, false, true,
   false, false, true, false, false, false, false, false, true,
   true, false, true,
   true, true, false, false, false, true, true, false, true]

/-- The body bits the code actually writes:
`0 01011001 0 01000001 1 0 1 10 1101` — bit width of 13 is 4, the tree
`(1,(4,7))` maps width 4 to code `10` with a 4-bit payload, so the
length is written as code `10` plus `1101`, not code `11` plus 7 bits. -/
def c4ActualBody : List Bool :=
  [false, false, true, false, true, true, false, false, true,
   false, false, true, false, false, false, false, false, true,
   true, false, true,
   true, false, true, true, false, true]

set_option maxRecDepth 10000 in
/-- **C4 counterexample.**  Encoding `"YAAAAAAAAAAAAAA"` (OneSample,
offset and length trees `(1,(4,7))`) does not produce the claimed body
bits: length 13 is written via the width-4 leaf (code `10`, 4 payload
bits), not the width-7 leaf. -/
theorem c4_body_bits_differ :
    c4BodyBits = some c4ActualBody ∧ c4BodyBits ≠ some c4ClaimedBody := by
  exact ⟨by decide, by decide⟩

set_option maxRecDepth 10000 in
/-- **C4 (amended).**  The scenario produces the LZSS token stream
`[Literal 'Y', Literal 'A', BackRef(length 13, offset 1)]` with histogram
entries width 4 (length) and width 1 (offset), the header bytes
`76 70 6B 30 00 00 00 0F 00`, and body bits
`0 01011001 0 01000001 1 0 1 10 1101` (offset written as code `0` plus
1 payload bit, length 13 as code `10` plus 4 payload bits); the full
encoder output is the 20 bytes listed. -/
theorem c4_scenario_output :
    compress_rdr c4Input .default .oneSample brute_find_match =
      .ok ⟨[.uncoded 89, .uncoded 65, .encoded 13 1], some 15, [(4, 1)], [(1, 1)]⟩ ∧
    c4BodyBits = some c4ActualBody ∧
    doEncodeUser c4Input .default .oneSample brute_find_match c4TreeStr c4TreeStr =
      .ok ([118, 112, 107, 48, 0, 0, 0, 15, 0] ++
        [0, 129, 0, 252, 2, 4, 3, 242, 201, 6, 218]) := by
  refine ⟨by decide, by decide, by decide⟩

/-! ## C7 — textual tree round-trip: rendering (`impl fmt::Display`) -/

/-- The decimal digit characters emitted by `write!("{}", val)`. -/
def digitChar : Nat → Char
  | 0 => '0' | 1 => '1' | 2 => '2' | 3 => '3' | 4 => '4'
  | 5 => '5' | 6 => '6' | 7 => '7' | 8 => '8' | _ => '9'

/-- Decimal numeral of `n`, most significant digit first.  Fuel: one
unit per digit; `n + 1` suffices. -/
def decimalDigitsGo : Nat → Nat → List Char
  | 0, _ => []
  | fuel + 1, n =>
    if n < 10 then [digitChar n]
    else decimalDigitsGo fuel (n / 10) ++ [digitChar (n % 10)]

def decimalDigits (n : Nat) : List Char :=
  decimalDigitsGo (n + 1) n

/-- `VpkTree::_format_entry`: leaf → decimal numeral, node →
`(L, R)`.  Fuel: one unit per tree level; children indices are strictly
smaller than the parent's in parsed/flattened arenas, so
`entries.length` suffices.  (An out-of-range index would be a Vec panic
in Rust; it is unreachable on such arenas.) -/
def fmtEntryGo (entries : List TreeEntry) : Nat → Nat → List Char
  | 0, _ => []
  | fuel + 1, i =>
    match entries[i]? with
    | some (.leaf v) => decimalDigits v
    | some (.node left right) =>
      '(' :: fmtEntryGo entries fuel left ++ [',', ' '] ++
        fmtEntryGo entries fuel right ++ [')']
    | none => []

/-- `impl fmt::Display for VpkTree` (format.rs lines 273–281): the empty
tree renders as `()`, otherwise the root (last entry) is formatted. -/
def VpkTree.render (t : VpkTree) : List Char :=
  if t.entries.isEmpty then ['(', ')']
  else fmtEntryGo t.entries t.entries.length (t.entries.length - 1)

/-- A `TreeNode` made only of plain leaves and nodes (no combined
leaves) whose leaf payloads fit in a `u8`. -/
def TreeNode.plainB : TreeNode → Bool
  | .leaf s _ => s ≤ 255
  | .combinedLeaf _ _ _ => false
  | .node _ l r => l.plainB && r.plainB

/-- The same tree with all frequencies zeroed — exactly what
`parse_treestr` reconstructs from the rendering. -/
def TreeNode.zeroFreq : TreeNode → TreeNode
  | .leaf s _ => .leaf s 0
  | .combinedLeaf s _ les => .combinedLeaf s 0 les
  | .node _ l r => .node 0 l.zeroFreq r.zeroFreq

/-- Number of arena entries `flatten` produces for a tree. -/
def TreeNode.entryCount : TreeNode → Nat
  | .leaf _ _ => 1
  | .combinedLeaf _ _ _ => 1
  | .node _ l r => l.entryCount + r.entryCount + 1

/-- The rendering of a `TreeNode`, structurally (what `_format_entry`
produces on its flattened arena). -/
def renderNode : TreeNode → List Char
  | .leaf s _ => decimalDigits s
  | .combinedLeaf s _ _ => decimalDigits s
  | .node _ l r => '(' :: renderNode l ++ [',', ' '] ++ renderNode r ++ [')']

/-- Token streams that spell a given tree (positions are irrelevant to
the parser's success). -/
inductive TokMatch : TreeNode → List LexTok → Prop where
  | leaf (s f p : Nat) : TokMatch (.leaf s f) [⟨p, .number s⟩]
  | node (fr : Nat) (l r : TreeNode) (ts₁ ts₂ : List LexTok) (p q w : Nat) :
      TokMatch l ts₁ → TokMatch r ts₂ →
      TokMatch (.node fr l r)
        (⟨p, .openParen⟩ :: ts₁ ++ ⟨q, .comma⟩ :: ts₂ ++ [⟨w, .closeParen⟩])

/-! ### Numeral lemmas -/

theorem digitChar_props (d : Nat) (h : d < 10) :
    (digitChar d).isDigit = true ∧ digitChar d ≠ '(' ∧ digitChar d ≠ ')' ∧
    digitChar d ≠ ',' ∧ (digitChar d).isWhitespace = false ∧
    (digitChar d).toNat = 48 + d := by
  interval_cases d <;> exact ⟨by decide, by decide, by decide, by decide, by decide, by decide⟩

theorem decimalDigitsGo_mem (fuel n : Nat) :
    ∀ c ∈ decimalDigitsGo fuel n, ∃ d, d < 10 ∧ c = digitChar d := by
  induction fuel generalizing n with
  | zero => intro c hc; simp [decimalDigitsGo] at hc
  | succ f ih =>
    intro c hc
    unfold decimalDigitsGo at hc
    by_cases h10 : n < 10
    · rw [if_pos h10] at hc
      simp at hc
      exact ⟨n, h10, hc⟩
    · rw [if_neg h10] at hc
      rcases List.mem_append.1 hc with h | h
      · exact ih (n / 10) c h
      · simp at h
        exact ⟨n % 10, Nat.mod_lt _ (by omega), h⟩

theorem decimalDigitsGo_ne_nil (fuel n : Nat) (h : n < fuel) :
    decimalDigitsGo fuel n ≠ [] := by
  cases fuel with
  | zero => omega
  | succ f =>
    unfold decimalDigitsGo
    by_cases h10 : n < 10
    · simp [h10]
    · rw [if_neg h10]; simp

theorem digitsToNat_append_one (xs : List Char) (c : Char) :
    digitsToNat (xs ++ [c]) = 10 * digitsToNat xs + (c.toNat - '0'.toNat) := by
  unfold digitsToNat
  rw [List.foldl_append]
  rfl

theorem digitsToNat_decimalDigitsGo (fuel n : Nat) (h : n < fuel) :
    digitsToNat (decimalDigitsGo fuel n) = n := by
  induction fuel generalizing n with
  | zero => omega
  | succ f ih =>
    unfold decimalDigitsGo
    by_cases h10 : n < 10
    · rw [if_pos h10]
      show 10 * 0 + ((digitChar n).toNat - '0'.toNat) = n
      rw [(digitChar_props n h10).2.2.2.2.2]
      show 10 * 0 + (48 + n - 48) = n
      omega
    · rw [if_neg h10, digitsToNat_append_one,
        ih (n / 10) (by omega),
        (digitChar_props (n % 10) (Nat.mod_lt _ (by omega))).2.2.2.2.2]
      show 10 * (n / 10) + (48 + n % 10 - 48) = n
      omega

theorem digitsToNat_decimalDigits (n : Nat) : digitsToNat (decimalDigits n) = n :=
  digitsToNat_decimalDigitsGo (n + 1) n (by omega)

/-! ### Lexer lemmas -/

theorem takeWhile_append_all {p : Char → Bool} (xs ys : List Char)
    (h : ∀ x ∈ xs, p x = true) :
    (xs ++ ys).takeWhile p = xs ++ ys.takeWhile p := by
  induction xs with
  | nil => rfl
  | cons a as ih =>
    have ha := h a (by simp)
    simp only [List.cons_append, List.takeWhile_cons, ha, if_true]
    rw [ih (fun x hx => h x (by simp [hx]))]

theorem takeWhile_head_false {p : Char → Bool} (ys : List Char)
    (h : ∀ c cs', ys = c :: cs' → p c = false) :
    ys.takeWhile p = [] := by
  cases ys with
  | nil => rfl
  | cons c cs' => simp [List.takeWhile_cons, h c cs' rfl]

/-- The lexer's result does not depend on the fuel, as long as the fuel
exceeds the number of remaining characters. -/
theorem lexGo_fuel_irrel :
    ∀ (len : Nat) (cs : List Char) (total fuel : Nat),
      cs.length ≤ len → cs.length < fuel →
      lexGo fuel total cs = lexGo (cs.length + 1) total cs := by
  intro len
  induction len with
  | zero =>
    intro cs total fuel h1 h2
    have : cs = [] := List.eq_nil_of_length_eq_zero (by omega)
    subst this
    cases fuel with
    | zero => omega
    | succ f => rfl
  | succ n ih =>
    intro cs total fuel h1 h2
    cases cs with
    | nil =>
      cases fuel with
      | zero => omega
      | succ f => rfl
    | cons c cs' =>
      cases fuel with
      | zero => omega
      | succ f =>
        have hl1 : cs'.length ≤ n := by simp at h1; omega
        have hl2 : cs'.length < f := by simp at h2; omega
        have hlc : (c :: cs').length = cs'.length + 1 := by simp
        show lexGo (f + 1) total (c :: cs') = lexGo (cs'.length + 1 + 1) total (c :: cs')
        unfold lexGo
        by_cases hc1 : c = '('
        · simp only [hc1, if_true]
          rw [ih cs' total f hl1 (by omega)]
        · simp only [hc1, if_false]
          by_cases hc2 : c = ')'
          · simp only [hc2, if_true]
            rw [ih cs' total f hl1 (by omega)]
          · simp only [hc2, if_false]
            by_cases hc3 : c = ','
            · simp only [hc3, if_true]
              rw [ih cs' total f hl1 (by omega)]
            · simp only [hc3, if_false]
              by_cases hc4 : c.isWhitespace
              · simp only [hc4, if_true]
                have hrun : 1 ≤ ((c :: cs').takeWhile Char.isWhitespace).length := by
                  simp [List.takeWhile_cons, hc4]
                have hdl : ((c :: cs').drop
                    ((c :: cs').takeWhile Char.isWhitespace).length).length
                    = cs'.length + 1 - ((c :: cs').takeWhile Char.isWhitespace).length := by
                  simp
                have hws1 := ih ((c :: cs').drop ((c :: cs').takeWhile Char.isWhitespace).length)
                  total f (by rw [hdl]; omega) (by rw [hdl]; omega)
                have hws2 := ih ((c :: cs').drop ((c :: cs').takeWhile Char.isWhitespace).length)
                  total (cs'.length + 1) (by rw [hdl]; omega) (by rw [hdl]; omega)
                rw [hws1, hws2]
              · simp only [hc4, if_false]
                by_cases hc5 : c.isDigit
                · simp only [hc5, if_true]
                  have hrun : 1 ≤ ((c :: cs').takeWhile Char.isDigit).length := by
                    simp [List.takeWhile_cons, hc5]
                  have hdl : ((c :: cs').drop
                      ((c :: cs').takeWhile Char.isDigit).length).length
                      = cs'.length + 1 - ((c :: cs').takeWhile Char.isDigit).length := by
                    simp
                  by_cases hv : digitsToNat ((c :: cs').takeWhile Char.isDigit) ≤ 255
                  · simp only [hv, if_true]
                    have hd1 := ih ((c :: cs').drop ((c :: cs').takeWhile Char.isDigit).length)
                      total f (by rw [hdl]; omega) (by rw [hdl]; omega)
                    have hd2 := ih ((c :: cs').drop ((c :: cs').takeWhile Char.isDigit).length)
                      total (cs'.length + 1) (by rw [hdl]; omega) (by rw [hdl]; omega)
                    rw [hd1, hd2]
                    simp
                  · simp only [hv, if_false]
                    simp
                · simp only [hc5, if_false]
                  simp

theorem exceptMap_map {ε α β γ : Type} (x : Except ε α) (f : α → β) (g : β → γ) :
    (x.map f).map g = x.map (fun a => g (f a)) := by
  cases x <;> rfl

/-- One lexer step over `'('`. -/
theorem lexGo_open (total fuel : Nat) (rest : List Char) (hfuel : rest.length < fuel) :
    lexGo (fuel + 1) total ('(' :: rest) =
      (lexGo (rest.length + 1) total rest).map
        (⟨total - ('(' :: rest).length, .openParen⟩ :: ·) := by
  conv_lhs => unfold lexGo
  rw [if_pos rfl, lexGo_fuel_irrel rest.length rest total fuel (by omega) hfuel]

/-- One lexer step over `')'`. -/
theorem lexGo_close (total fuel : Nat) (rest : List Char) (hfuel : rest.length < fuel) :
    lexGo (fuel + 1) total (')' :: rest) =
      (lexGo (rest.length + 1) total rest).map
        (⟨total - (')' :: rest).length, .closeParen⟩ :: ·) := by
  conv_lhs => unfold lexGo
  rw [if_neg (by decide), if_pos rfl,
    lexGo_fuel_irrel rest.length rest total fuel (by omega) hfuel]

/-- One lexer step over `','`. -/
theorem lexGo_comma (total fuel : Nat) (rest : List Char) (hfuel : rest.length < fuel) :
    lexGo (fuel + 1) total (',' :: rest) =
      (lexGo (rest.length + 1) total rest).map
        (⟨total - (',' :: rest).length, .comma⟩ :: ·) := by
  conv_lhs => unfold lexGo
  rw [if_neg (by decide), if_neg (by decide), if_pos rfl,
    lexGo_fuel_irrel rest.length rest total fuel (by omega) hfuel]

/-- One lexer step over a single space followed by a non-whitespace
character: the whitespace run is consumed and filtered out. -/
theorem lexGo_space (total fuel : Nat) (rest : List Char)
    (hfuel : rest.length < fuel)
    (hrest : ∀ c cs', rest = c :: cs' → c.isWhitespace = false) :
    lexGo (fuel + 1) total (' ' :: rest) = lexGo (rest.length + 1) total rest := by
  conv_lhs => unfold lexGo
  rw [if_neg (by decide), if_neg (by decide), if_neg (by decide), if_pos (by decide)]
  have hrun : (' ' :: rest).takeWhile Char.isWhitespace = [' '] := by
    rw [show (' ' :: rest) = [' '] ++ rest from rfl,
      takeWhile_append_all [' '] rest (by intro x hx; simp at hx; rw [hx]; decide),
      takeWhile_head_false rest hrest]
    rfl
  rw [hrun]
  show lexGo fuel total ((' ' :: rest).drop 1) = _
  rw [List.drop_one, List.tail_cons,
    lexGo_fuel_irrel rest.length rest total fuel (by omega) hfuel]

/-- One lexer step over a run of decimal digits whose value fits a `u8`,
followed by a non-digit: a single `Number` token. -/
theorem lexGo_digit_run (total fuel : Nat) (ds rest : List Char)
    (hne : ds ≠ []) (hall : ∀ c ∈ ds, ∃ d, d < 10 ∧ c = digitChar d)
    (hrest : ∀ c cs', rest = c :: cs' → c.isDigit = false)
    (hv : digitsToNat ds ≤ 255)
    (hfuel : (ds ++ rest).length ≤ fuel) :
    lexGo (fuel + 1) total (ds ++ rest) =
      (lexGo (rest.length + 1) total rest).map
        (⟨total - (ds ++ rest).length, .number (digitsToNat ds)⟩ :: ·) := by
  rcases ds with _ | ⟨c₀, dtl⟩
  · exact absurd rfl hne
  · obtain ⟨d, hd, hcd⟩ := hall c₀ (by simp)
    obtain ⟨hdig, hnp, hnq, hnc, hnw, -⟩ := digitChar_props d hd
    rw [List.cons_append]
    conv_lhs => unfold lexGo
    rw [if_neg (by rw [hcd]; exact hnp), if_neg (by rw [hcd]; exact hnq),
      if_neg (by rw [hcd]; exact hnc), if_neg (by rw [hcd]; simp [hnw]),
      if_pos (by rw [hcd]; exact hdig)]
    have hrun : (c₀ :: (dtl ++ rest)).takeWhile Char.isDigit = c₀ :: dtl := by
      rw [show c₀ :: (dtl ++ rest) = (c₀ :: dtl) ++ rest from rfl,
        takeWhile_append_all (c₀ :: dtl) rest ?_, takeWhile_head_false rest hrest,
        List.append_nil]
      intro x hx
      obtain ⟨d', hd', hcd'⟩ := hall x hx
      rw [hcd']
      exact (digitChar_props d' hd').1
    rw [hrun, if_pos hv]
    have hdrop : (c₀ :: (dtl ++ rest)).drop (c₀ :: dtl).length = rest := by
      rw [show c₀ :: (dtl ++ rest) = (c₀ :: dtl) ++ rest from rfl]
      simp
    rw [hdrop, lexGo_fuel_irrel rest.length rest total fuel (by omega)
      (by simp at hfuel; omega)]

theorem decimalDigits_ne_nil (n : Nat) : decimalDigits n ≠ [] :=
  decimalDigitsGo_ne_nil (n + 1) n (by omega)

theorem renderNode_head_not_ws (T : TreeNode) :
    ∀ c cs', renderNode T = c :: cs' → c.isWhitespace = false := by
  cases T with
  | leaf s fr =>
    intro c cs' h
    have hc : c ∈ decimalDigits s := by rw [show renderNode (.leaf s fr) = decimalDigits s from rfl] at h; rw [h]; simp
    obtain ⟨d, hd, hcd⟩ := decimalDigitsGo_mem _ _ c hc
    rw [hcd]
    exact (digitChar_props d hd).2.2.2.2.1
  | combinedLeaf s fr les =>
    intro c cs' h
    have hc : c ∈ decimalDigits s := by
      rw [show renderNode (.combinedLeaf s fr les) = decimalDigits s from rfl] at h
      rw [h]; simp
    obtain ⟨d, hd, hcd⟩ := decimalDigitsGo_mem _ _ c hc
    rw [hcd]
    exact (digitChar_props d hd).2.2.2.2.1
  | node fr l r =>
    intro c cs' h
    simp only [renderNode, List.cons_append] at h
    injection h with h1 h2
    rw [← h1]
    decide

/-- Lexing the rendering of a plain tree, followed by any remainder that
does not begin with a digit, produces a token stream spelling the tree
followed by the lexing of the remainder. -/
theorem lex_renderNode (T : TreeNode) : T.plainB = true →
    ∀ (total : Nat) (rest : List Char),
      (∀ c cs', rest = c :: cs' → c.isDigit = false) →
      ∃ ts, TokMatch T ts ∧
        lexGo ((renderNode T ++ rest).length + 1) total (renderNode T ++ rest) =
          (lexGo (rest.length + 1) total rest).map (ts ++ ·) := by
  induction T with
  | leaf s fr =>
    intro hT total rest hrest
    refine ⟨[⟨total - (decimalDigits s ++ rest).length, .number s⟩],
      TokMatch.leaf s fr _, ?_⟩
    have hds : digitsToNat (decimalDigits s) = s := digitsToNat_decimalDigits s
    have hs255 : s ≤ 255 := by simpa [TreeNode.plainB] using hT
    have h := lexGo_digit_run total ((decimalDigits s ++ rest).length)
      (decimalDigits s) rest (decimalDigits_ne_nil s)
      (fun c hc => decimalDigitsGo_mem _ _ c hc) hrest
      (by rw [hds]; exact hs255) (le_refl _)
    rw [show renderNode (TreeNode.leaf s fr) = decimalDigits s from rfl, h, hds]
    rfl
  | combinedLeaf s fr les =>
    intro hT
    exact absurd hT (by simp [TreeNode.plainB])
  | node fr l r ihl ihr =>
    intro hT total rest hrest
    have hTl : l.plainB = true := by
      simp only [TreeNode.plainB, Bool.and_eq_true] at hT; exact hT.1
    have hTr : r.plainB = true := by
      simp only [TreeNode.plainB, Bool.and_eq_true] at hT; exact hT.2
    obtain ⟨ts₂, hm₂, hlex₂⟩ := ihr hTr total (')' :: rest)
      (by intro c cs' h; cases h; decide)
    obtain ⟨ts₁, hm₁, hlex₁⟩ := ihl hTl total
      (',' :: (' ' :: (renderNode r ++ (')' :: rest))))
      (by intro c cs' h; cases h; decide)
    have hE : renderNode (TreeNode.node fr l r) ++ rest =
        '(' :: (renderNode l ++ (',' :: (' ' :: (renderNode r ++ (')' :: rest))))) := by
      simp [renderNode]
    refine ⟨⟨total - ('(' :: (renderNode l ++
        (',' :: (' ' :: (renderNode r ++ (')' :: rest)))))).length, .openParen⟩ ::
        ts₁ ++ ⟨total - ((',' :: (' ' :: (renderNode r ++ (')' :: rest))))).length,
          .comma⟩ :: ts₂ ++
        [⟨total - ((')' :: rest)).length, .closeParen⟩],
      TokMatch.node fr l r ts₁ ts₂ _ _ _ hm₁ hm₂, ?_⟩
    rw [hE]
    rw [lexGo_open total _ _ (by simp)]
    rw [hlex₁]
    rw [show (',' :: (' ' :: (renderNode r ++ (')' :: rest)))).length =
      (' ' :: (renderNode r ++ (')' :: rest))).length + 1 from by simp]
    rw [lexGo_comma total _ _ (by simp)]
    rw [show (' ' :: (renderNode r ++ (')' :: rest))).length =
      (renderNode r ++ (')' :: rest)).length + 1 from by simp]
    have hnws : ∀ c cs', renderNode r ++ (')' :: rest) = c :: cs' →
        c.isWhitespace = false := by
      intro c cs' h
      rcases hr : renderNode r with _ | ⟨c0, ctl⟩
      · rw [hr, List.nil_append] at h
        injection h with h1 h2
        rw [← h1]
        decide
      · rw [hr, List.cons_append] at h
        injection h with h1 h2
        rw [← h1]
        exact renderNode_head_not_ws r c0 ctl hr
    rw [lexGo_space total _ _ (by simp) hnws]
    rw [hlex₂]
    rw [show ((')' :: rest)).length = rest.length + 1 from by simp]
    rw [lexGo_close total _ _ (by simp)]
    rw [exceptMap_map, exceptMap_map, exceptMap_map, exceptMap_map]
    congr 1
    funext x
    simp

/-- Parsing a token stream that spells a tree reconstructs the tree with
zeroed frequencies, leaving the remaining tokens untouched. -/
theorem parse_tokMatch {T : TreeNode} {ts : List LexTok} (hm : TokMatch T ts) :
    ∀ (fuel : Nat) (rest : List LexTok), ts.length < fuel →
      parseNodeGo fuel (ts ++ rest) = .ok (T.zeroFreq, rest) := by
  induction hm with
  | leaf s f p =>
    intro fuel rest hfuel
    cases fuel with
    | zero => omega
    | succ n => rfl
  | node fr l r ts₁ ts₂ p q w hm₁ hm₂ ih₁ ih₂ =>
    intro fuel rest hfuel
    cases fuel with
    | zero => omega
    | succ n =>
      have hlen : (⟨p, .openParen⟩ :: ts₁ ++ ⟨q, .comma⟩ :: ts₂ ++
          [⟨w, .closeParen⟩] : List LexTok).length = ts₁.length + ts₂.length + 3 := by
        simp only [List.length_append, List.length_cons, List.length_nil]
        omega
      have hsplit : ((⟨p, .openParen⟩ :: ts₁ ++ ⟨q, .comma⟩ :: ts₂ ++
          [⟨w, .closeParen⟩] : List LexTok) ++ rest) =
          ⟨p, .openParen⟩ :: (ts₁ ++ (⟨q, .comma⟩ :: (ts₂ ++ (⟨w, .closeParen⟩ :: rest)))) := by
        simp
      rw [hsplit]
      have h₁ := ih₁ n (⟨q, .comma⟩ :: (ts₂ ++ (⟨w, .closeParen⟩ :: rest)))
        (by rw [hlen] at hfuel; omega)
      have h₂ := ih₂ n (⟨w, .closeParen⟩ :: rest) (by rw [hlen] at hfuel; omega)
      simp only [parseNodeGo, h₁, h₂, TreeNode.zeroFreq]

theorem flatten_leaf_eq (s f : Nat) (arr : List TreeEntry) :
    (TreeNode.leaf s f).flatten arr = (arr ++ [.leaf s], arr.length) := rfl

theorem flatten_comb_eq (s f : Nat) (les : List Nat) (arr : List TreeEntry) :
    (TreeNode.combinedLeaf s f les).flatten arr = (arr ++ [.leaf s], arr.length) := rfl

theorem flatten_node_eq (fr : Nat) (l r : TreeNode) (arr : List TreeEntry) :
    (TreeNode.node fr l r).flatten arr =
      ((r.flatten (l.flatten arr).1).1 ++
          [.node (l.flatten arr).2 (r.flatten (l.flatten arr).1).2],
        (r.flatten (l.flatten arr).1).1.length) := rfl

theorem flatten_prefix (T : TreeNode) :
    ∀ arr : List TreeEntry, ∃ ext, (T.flatten arr).1 = arr ++ ext := by
  induction T with
  | leaf s f => intro arr; exact ⟨[.leaf s], rfl⟩
  | combinedLeaf s f les => intro arr; exact ⟨[.leaf s], rfl⟩
  | node fr l r ihl ihr =>
    intro arr
    obtain ⟨e1, h1⟩ := ihl arr
    obtain ⟨e2, h2⟩ := ihr (l.flatten arr).1
    refine ⟨e1 ++ e2 ++ [.node (l.flatten arr).2 (r.flatten (l.flatten arr).1).2], ?_⟩
    rw [flatten_node_eq]
    show (r.flatten (l.flatten arr).1).1 ++ _ = _
    rw [h2, h1]
    simp

/-- The entry produced last sits at the returned index. -/
theorem list_get_append_middle {α : Type} (xs : List α) (e : α) (ext : List α) :
    ((xs ++ [e]) ++ ext)[xs.length]? = some e := by
  rw [List.append_assoc, List.getElem?_append_right (by omega)]
  simp

/-- Formatting a flattened tree from its root index reproduces the
structural rendering, in any extended arena. -/
theorem fmt_flatten (T : TreeNode) :
    ∀ (arr ext : List TreeEntry) (fuel : Nat), T.entryCount ≤ fuel →
      fmtEntryGo ((T.flatten arr).1 ++ ext) fuel (T.flatten arr).2 = renderNode T := by
  induction T with
  | leaf s f =>
    intro arr ext fuel hf
    cases fuel with
    | zero => simp [TreeNode.entryCount] at hf
    | succ n =>
      rw [flatten_leaf_eq]
      show fmtEntryGo ((arr ++ [.leaf s]) ++ ext) (n + 1) arr.length = _
      unfold fmtEntryGo
      rw [list_get_append_middle]
      rfl
  | combinedLeaf s f les =>
    intro arr ext fuel hf
    cases fuel with
    | zero => simp [TreeNode.entryCount] at hf
    | succ n =>
      rw [flatten_comb_eq]
      show fmtEntryGo ((arr ++ [.leaf s]) ++ ext) (n + 1) arr.length = _
      unfold fmtEntryGo
      rw [list_get_append_middle]
      rfl
  | node fr l r ihl ihr =>
    intro arr ext fuel hf
    cases fuel with
    | zero => simp [TreeNode.entryCount] at hf
    | succ n =>
      rw [flatten_node_eq]
      show fmtEntryGo (((r.flatten (l.flatten arr).1).1 ++
          [.node (l.flatten arr).2 (r.flatten (l.flatten arr).1).2]) ++ ext) (n + 1)
          (r.flatten (l.flatten arr).1).1.length = _
      unfold fmtEntryGo
      rw [list_get_append_middle]
      show ('(' :: fmtEntryGo (((r.flatten (l.flatten arr).1).1 ++
          [TreeEntry.node (l.flatten arr).2 (r.flatten (l.flatten arr).1).2]) ++ ext) n
            ((l.flatten arr).2) ++ [',', ' '] ++
          fmtEntryGo (((r.flatten (l.flatten arr).1).1 ++
          [TreeEntry.node (l.flatten arr).2 (r.flatten (l.flatten arr).1).2]) ++ ext) n
            ((r.flatten (l.flatten arr).1).2) ++ [')']) = _
      have hcount : l.entryCount + r.entryCount + 1 ≤ n + 1 := by
        simpa [TreeNode.entryCount] using hf
      obtain ⟨e2, h2⟩ := flatten_prefix r (l.flatten arr).1
      have harena : ((r.flatten (l.flatten arr).1).1 ++
          [TreeEntry.node (l.flatten arr).2 (r.flatten (l.flatten arr).1).2]) ++ ext =
          (l.flatten arr).1 ++ (e2 ++
            ([TreeEntry.node (l.flatten arr).2 (r.flatten (l.flatten arr).1).2] ++ ext)) := by
        rw [h2]
        simp
      have hL := ihl arr (e2 ++
        ([TreeEntry.node (l.flatten arr).2 (r.flatten (l.flatten arr).1).2] ++ ext)) n
        (by omega)
      have hR := ihr (l.flatten arr).1
        ([TreeEntry.node (l.flatten arr).2 (r.flatten (l.flatten arr).1).2] ++ ext) n
        (by omega)
      rw [harena, hL, ← harena]
      rw [show ((r.flatten (l.flatten arr).1).1 ++
          [TreeEntry.node (l.flatten arr).2 (r.flatten (l.flatten arr).1).2]) ++ ext =
          (r.flatten (l.flatten arr).1).1 ++
            ([TreeEntry.node (l.flatten arr).2 (r.flatten (l.flatten arr).1).2] ++ ext) from by
        simp]
      rw [hR]
      rfl

theorem flatten_length (T : TreeNode) :
    ∀ arr : List TreeEntry, (T.flatten arr).1.length = arr.length + T.entryCount := by
  induction T with
  | leaf s f => intro arr; rw [flatten_leaf_eq]; simp [TreeNode.entryCount]
  | combinedLeaf s f les => intro arr; rw [flatten_comb_eq]; simp [TreeNode.entryCount]
  | node fr l r ihl ihr =>
    intro arr
    rw [flatten_node_eq]
    show ((r.flatten (l.flatten arr).1).1 ++ _).length = _
    rw [List.length_append, ihr, ihl]
    simp [TreeNode.entryCount]
    omega

theorem entryCount_pos (T : TreeNode) : 1 ≤ T.entryCount := by
  cases T <;> simp [TreeNode.entryCount]

theorem flatten_idx (T : TreeNode) (arr : List TreeEntry) :
    (T.flatten arr).2 = (T.flatten arr).1.length - 1 := by
  cases T with
  | leaf s f => rw [flatten_leaf_eq]; simp
  | combinedLeaf s f les => rw [flatten_comb_eq]; simp
  | node fr l r => rw [flatten_node_eq]; simp

/-- The `Display` rendering of a flattened tree is its structural
rendering. -/
theorem render_toVpkTree (T : TreeNode) :
    VpkTree.render T.toVpkTree = renderNode T := by
  unfold VpkTree.render TreeNode.toVpkTree
  have hlen : (T.flatten []).1.length = T.entryCount := by
    rw [flatten_length]; simp
  have hpos := entryCount_pos T
  rw [if_neg (by simp; intro h; rw [h] at hlen; simp at hlen; omega)]
  show fmtEntryGo (T.flatten []).1 (T.flatten []).1.length ((T.flatten []).1.length - 1) = _
  rw [← flatten_idx]
  have := fmt_flatten T [] [] (T.flatten []).1.length (by omega)
  rw [List.append_nil] at this
  exact this

/-- Parsing the structural rendering of a plain tree succeeds and
reconstructs the tree with zeroed frequencies. -/
theorem parse_render_plain (T : TreeNode) (hT : T.plainB = true) :
    parse_treestr (renderNode T) = .ok T.zeroFreq := by
  obtain ⟨ts, hm, hlex⟩ := lex_renderNode T hT (renderNode T).length []
    (by intro c cs' h; cases h)
  rw [List.append_nil] at hlex
  have hlex' : lexGo ((renderNode T).length + 1) (renderNode T).length (renderNode T) =
      .ok ts := by
    rw [hlex]
    show Except.ok (ts ++ []) = _
    rw [List.append_nil]
  unfold parse_treestr lex_treestr
  rw [hlex']
  have hp := parse_tokMatch hm (ts.length + 1) [] (by omega)
  rw [List.append_nil] at hp
  show (match parseNodeGo (ts.length + 1) ts with
    | Except.error e => Except.error e
    | Except.ok (root, _) => Except.ok root) = Except.ok T.zeroFreq
  rw [hp]

/-- `generate_code` never reads frequencies. -/
theorem generateCode_zeroFreq (T : TreeNode) :
    ∀ (pfx : HuffCode) (m : CodeMap),
      T.zeroFreq.generateCode pfx m = T.generateCode pfx m := by
  induction T with
  | leaf s f => intro pfx m; rfl
  | combinedLeaf s f les => intro pfx m; rfl
  | node fr l r ihl ihr =>
    intro pfx m
    show (r.zeroFreq).generateCode _ ((l.zeroFreq).generateCode _ m) = _
    rw [ihl, ihr]
    rfl

/-- **C7 (amended).**  For every nonempty in-memory tree of plain leaves
(sizes fitting a `u8`), parsing the textual rendering succeeds and yields
a tree (frequencies zeroed) whose generated code map is exactly the code
map of the original; the empty tree, by contrast, renders as `()`, which
fails to parse (see the counterexample). -/
theorem tree_render_parse_round_trip (T : TreeNode) (hT : T.plainB = true) :
    parse_treestr (VpkTree.render T.toVpkTree) = .ok T.zeroFreq ∧
    generateCodeMap T.zeroFreq = generateCodeMap T := by
  constructor
  · rw [render_toVpkTree]
    exact parse_render_plain T hT
  · unfold generateCodeMap
    rw [generateCode_zeroFreq]

/-- Witness for C7 (amended) at the tree `(1, (4, 7))` with nonzero
frequencies. -/
theorem tree_render_parse_round_trip_witness :
    parse_treestr (VpkTree.render (TreeNode.node 5 (.leaf 1 7)
        (.node 3 (.leaf 4 2) (.leaf 7 1))).toVpkTree) =
      .ok (TreeNode.node 0 (.leaf 1 0) (.node 0 (.leaf 4 0) (.leaf 7 0))) ∧
    generateCodeMap (TreeNode.node 5 (.leaf 1 7)
        (.node 3 (.leaf 4 2) (.leaf 7 1))).zeroFreq =
      generateCodeMap (TreeNode.node 5 (.leaf 1 7) (.node 3 (.leaf 4 2) (.leaf 7 1))) :=
  tree_render_parse_round_trip
    (TreeNode.node 5 (.leaf 1 7) (.node 3 (.leaf 4 2) (.leaf 7 1))) (by decide)

/-- **C7 counterexample.**  The empty tree is legal and renders as `()`,
but parsing `()` fails with `ParseUnexp` at the closing parenthesis —
so `parse(render(T))` does not succeed for every in-memory tree. -/
theorem empty_tree_render_fails_to_parse :
    VpkTree.render VpkTree.empty = ['(', ')'] ∧
    parse_treestr (VpkTree.render VpkTree.empty) = .error (.parseUnexp 1 1) := by
  exact ⟨by decide, by decide⟩

/-! ## C1 — bit-stream inverse lemmas -/

theorem natToBits_length (w v : Nat) : (natToBits w v).length = w := by
  induction w generalizing v with
  | zero => rfl
  | succ n ih => simp [natToBits, ih]

theorem bitsToNat_foldl_acc (bs : List Bool) :
    ∀ a, bs.foldl (fun a b => 2 * a + b.toNat) a = a * 2 ^ bs.length + bitsToNat bs := by
  induction bs with
  | nil => intro a; simp [bitsToNat]
  | cons b bs ih =>
    intro a
    show bs.foldl _ (2 * a + b.toNat) = _
    rw [ih (2 * a + b.toNat)]
    rw [show bitsToNat (b :: bs) = bs.foldl (fun a b => 2 * a + b.toNat) (2 * 0 + b.toNat)
      from rfl]
    rw [ih (2 * 0 + b.toNat)]
    simp [List.length_cons, pow_succ]
    ring

theorem bitsToNat_append (xs ys : List Bool) :
    bitsToNat (xs ++ ys) = bitsToNat xs * 2 ^ ys.length + bitsToNat ys := by
  show (xs ++ ys).foldl _ 0 = _
  rw [List.foldl_append, bitsToNat_foldl_acc]
  rfl

theorem bitsToNat_cons (b : Bool) (bs : List Bool) :
    bitsToNat (b :: bs) = b.toNat * 2 ^ bs.length + bitsToNat bs := by
  rw [show b :: bs = [b] ++ bs from rfl, bitsToNat_append]
  simp [bitsToNat]

theorem bitsToNat_natToBits_mod (w v : Nat) :
    bitsToNat (natToBits w v) = v % 2 ^ w := by
  induction w generalizing v with
  | zero => simp [natToBits, bitsToNat, Nat.mod_one]
  | succ n ih =>
    rw [show natToBits (n + 1) v = v.testBit n :: natToBits n v from rfl,
      bitsToNat_cons, natToBits_length, ih, Nat.toNat_testBit, pow_succ, Nat.mod_mul]
    ring

theorem bitsToNat_natToBits (w v : Nat) (h : v < 2 ^ w) :
    bitsToNat (natToBits w v) = v := by
  rw [bitsToNat_natToBits_mod, Nat.mod_eq_of_lt h]

theorem bitsToNat_lt (bs : List Bool) : bitsToNat bs < 2 ^ bs.length := by
  induction bs with
  | nil => simp [bitsToNat]
  | cons b bs ih =>
    rw [bitsToNat_cons]
    have : b.toNat ≤ 1 := by cases b <;> simp
    calc b.toNat * 2 ^ bs.length + bitsToNat bs
        < b.toNat * 2 ^ bs.length + 2 ^ bs.length := by omega
      _ ≤ 2 ^ (b :: bs).length := by
          simp only [List.length_cons, pow_succ]
          nlinarith [Nat.pos_pow_of_pos bs.length (show 0 < 2 by omega)]

/-- `read(n)` undoes `write(n, v)` for values that fit. -/
theorem readN_natToBits (w v : Nat) (h : v < 2 ^ w) (rest : List Bool) :
    readN w (natToBits w v ++ rest) = some (v, rest) := by
  unfold readN
  rw [if_pos (by rw [List.length_append, natToBits_length]; omega)]
  rw [List.take_append_of_le_length (by rw [natToBits_length]),
    List.drop_append_of_le_length (by rw [natToBits_length])]
  rw [show (natToBits w v).take w = natToBits w v from by
      rw [List.take_of_length_le (by rw [natToBits_length])],
    show (natToBits w v).drop w = [] from by
      rw [List.drop_of_length_le (by rw [natToBits_length])]]
  rw [bitsToNat_natToBits w v h]
  simp

theorem natToBits_mod (w v : Nat) : natToBits w (v % 2 ^ w) = natToBits w v := by
  induction w generalizing v with
  | zero => rfl
  | succ n ih =>
    show (v % 2 ^ (n + 1)).testBit n :: natToBits n (v % 2 ^ (n + 1)) =
      v.testBit n :: natToBits n v
    have ht : (v % 2 ^ (n + 1)).testBit n = v.testBit n := by
      rw [Nat.testBit_mod_two_pow]
      simp
    have hm : v % 2 ^ (n + 1) % 2 ^ n = v % 2 ^ n :=
      Nat.mod_mod_of_dvd v ⟨2, by ring⟩
    rw [ht, ← ih (v % 2 ^ (n + 1)), hm, ih v]

theorem natToBits_bitsToNat (l : List Bool) : natToBits l.length (bitsToNat l) = l := by
  induction l with
  | nil => rfl
  | cons b bs ih =>
    show (bitsToNat (b :: bs)).testBit bs.length :: natToBits bs.length (bitsToNat (b :: bs)) =
      b :: bs
    rw [bitsToNat_cons]
    have hlt := bitsToNat_lt bs
    have ht : (b.toNat * 2 ^ bs.length + bitsToNat bs).testBit bs.length = b := by
      have hdiv : (b.toNat * 2 ^ bs.length + bitsToNat bs) / 2 ^ bs.length % 2 = b.toNat := by
        rw [Nat.mul_comm b.toNat, Nat.mul_add_div (Nat.pos_pow_of_pos _ (by omega)),
          Nat.div_eq_of_lt hlt, Nat.add_zero]
        cases b <;> rfl
      rw [Nat.testBit, Nat.shiftRight_eq_div_pow]
      rcases b with _ | _ <;> simp_all
    have hm : (b.toNat * 2 ^ bs.length + bitsToNat bs) % 2 ^ bs.length = bitsToNat bs := by
      rw [Nat.mul_comm, Nat.mul_add_mod]
      exact Nat.mod_eq_of_lt hlt
    rw [ht, ← natToBits_mod, hm, ih]

theorem packBitsGo_bytesToBits (bytes : List Nat) :
    ∀ fuel, (∀ b ∈ bytes, b < 256) → (bytesToBits bytes).length ≤ fuel →
      packBitsGo fuel (bytesToBits bytes) = bytes := by
  induction bytes with
  | nil =>
    intro fuel _ _
    cases fuel <;> rfl
  | cons b bs ih =>
    intro fuel hb hf
    obtain ⟨c, cs, hA⟩ : ∃ c cs, natToBits 8 b = c :: cs := ⟨_, _, rfl⟩
    have hcs : cs.length = 7 := by
      have := natToBits_length 8 b
      rw [hA] at this
      simpa using this
    have hbits : bytesToBits (b :: bs) = (c :: cs) ++ bytesToBits bs := by
      show natToBits 8 b ++ bytesToBits bs = _
      rw [hA]
    have hlen : (bytesToBits (b :: bs)).length = 8 + (bytesToBits bs).length := by
      rw [hbits]
      simp [hcs]
      omega
    cases fuel with
    | zero => rw [hlen] at hf; omega
    | succ f =>
      rw [hbits, List.cons_append]
      show bitsToNat ((c :: (cs ++ bytesToBits bs)).take 8 ++
          List.replicate (8 - (c :: (cs ++ bytesToBits bs)).length) false) ::
        packBitsGo f ((cs ++ bytesToBits bs).drop 7) = b :: bs
      have h1 : (c :: (cs ++ bytesToBits bs)).take 8 = c :: cs := by
        rw [← List.cons_append]
        exact List.take_left' (by simp [hcs])
      have h2 : (8 - (c :: (cs ++ bytesToBits bs)).length) = 0 := by
        simp [hcs]
      have h3 : (cs ++ bytesToBits bs).drop 7 = bytesToBits bs :=
        List.drop_left' hcs
      rw [h1, h2, h3, List.replicate_zero, List.append_nil, ← hA,
        bitsToNat_natToBits 8 b (by exact hb b (by simp)),
        ih f (fun x hx => hb x (by simp [hx])) (by rw [hlen] at hf; omega)]

/-- Packing a byte stream's bits recovers the bytes. -/
theorem packBits_bytesToBits (bytes : List Nat) (hb : ∀ b ∈ bytes, b < 256) :
    packBits (bytesToBits bytes) = bytes :=
  packBitsGo_bytesToBits bytes _ hb (le_refl _)

theorem bytesToBits_packBitsGo (len : Nat) :
    ∀ bits : List Bool, bits.length ≤ len → ∀ fuel, bits.length ≤ fuel →
      bytesToBits (packBitsGo fuel bits) =
        bits ++ List.replicate ((8 - bits.length % 8) % 8) false := by
  induction len with
  | zero =>
    intro bits h1 fuel h2
    have : bits = [] := List.eq_nil_of_length_eq_zero (by omega)
    subst this
    cases fuel <;> simp [packBitsGo, bytesToBits]
  | succ n ih =>
    intro bits h1 fuel h2
    rcases bits with _ | ⟨b, rest⟩
    · cases fuel <;> simp [packBitsGo, bytesToBits]
    · cases fuel with
      | zero => simp at h2
      | succ f =>
        show bytesToBits (bitsToNat ((b :: rest).take 8 ++
            List.replicate (8 - (b :: rest).length) false) ::
          packBitsGo f (rest.drop 7)) = _
        rw [show bytesToBits (bitsToNat ((b :: rest).take 8 ++
            List.replicate (8 - (b :: rest).length) false) ::
            packBitsGo f (rest.drop 7)) =
          natToBits 8 (bitsToNat ((b :: rest).take 8 ++
            List.replicate (8 - (b :: rest).length) false)) ++
            bytesToBits (packBitsGo f (rest.drop 7)) from rfl]
        have hcl : ((b :: rest).take 8 ++
            List.replicate (8 - (b :: rest).length) false).length = 8 := by
          simp [List.length_take]
          omega
        have key : ∀ l : List Bool, l.length = 8 →
            natToBits 8 (bitsToNat l) = l := by
          intro l hl
          rw [← hl, natToBits_bitsToNat]
        rw [key _ hcl]
        by_cases hge : 8 ≤ (b :: rest).length
        · have hz : 8 - (b :: rest).length = 0 := by omega
          have hdrop : rest.drop 7 = (b :: rest).drop 8 := rfl
          rw [hz, List.replicate_zero, List.append_nil, hdrop,
            ih ((b :: rest).drop 8) (by simp at h1 ⊢; omega) f (by simp at h2 ⊢; omega)]
          rw [← List.append_assoc, List.take_append_drop]
          have hmod : ((b :: rest).drop 8).length % 8 = (b :: rest).length % 8 := by
            rw [List.length_drop]
            omega
          rw [hmod]
        · have htake : (b :: rest).take 8 = b :: rest :=
            List.take_of_length_le (by omega)
          have hdrop : rest.drop 7 = [] := by
            rw [List.drop_eq_nil_iff]
            simp at hge ⊢
            omega
          rw [htake, hdrop, show packBitsGo f [] = [] from by cases f <;> rfl,
            show bytesToBits [] = [] from rfl, List.append_nil]
          congr 2
          have hlt8 : (b :: rest).length < 8 := by omega
          have hpos : 0 < (b :: rest).length := by simp
          rw [Nat.mod_eq_of_lt hlt8, Nat.mod_eq_of_lt (by omega)]

/-- Unpacking a packed bit stream yields the bits plus zero padding to a
byte boundary. -/
theorem bytesToBits_packBits (bits : List Bool) :
    bytesToBits (packBits bits) =
      bits ++ List.replicate ((8 - bits.length % 8) % 8) false :=
  bytesToBits_packBitsGo bits.length bits (le_refl _) bits.length (le_refl _)

/-! ### C1 — the rest of the encoder surface: KMP match finders and the
default (histogram-built) Huffman trees -/

/-- Inner `while` of `compute_lps` (lzss.rs lines 662–664): chase failure
links while the character mismatches.  All indexing is in range on the
states the algorithm reaches (see `lpsGo_spec`), where `getD` agrees with
the source's direct indexing.  Fuel: `prefix_idx` strictly decreases, so
`prefix_idx + 1` suffices. -/
def lpsInner (pattern lps : List Nat) (ch : Nat) : Nat → Nat → Nat
  | 0, pfx => pfx
  | fuel + 1, pfx =>
    if 0 < pfx ∧ pattern.getD pfx 0 ≠ ch then
      lpsInner pattern lps ch fuel (lps.getD (pfx - 1) 0)
    else pfx

/-- The `for (i, &ch) in pattern.iter().enumerate().skip(1)` loop of
`compute_lps`, recursing over the remaining characters. -/
def lpsGo (pattern : List Nat) : List Nat → Nat → List Nat → Nat → List Nat
  | [], _, lps, _ => lps
  | ch :: rest, i, lps, pfx =>
    let pfx1 := lpsInner pattern lps ch (pfx + 1) pfx
    if pattern.getD pfx1 0 = ch then
      lpsGo pattern rest (i + 1) (lps.set i (pfx1 + 1)) (pfx1 + 1)
    else
      lpsGo pattern rest (i + 1) lps pfx1

/-- `compute_lps` (lzss.rs lines 657–673). -/
def compute_lps (pattern : List Nat) : List Nat :=
  lpsGo pattern (pattern.drop 1) 1 (List.replicate pattern.length 0) 0

/-- `lps_partial_skip` (lzss.rs lines 646–654): index of the last zero in
the slice, `0` if there is none. -/
def lps_partial_skip (limited : List Nat) : Nat :=
  match limited.enum.reverse.find? (fun p => p.2 = 0) with
  | some p => p.1
  | none => 0

/-- The `while` loop of `find_kmp` (lzss.rs lines 597–640).  The two
`usize` subtractions `max - pat_idx` and `target_idx - pat_idx` cannot
underflow on reachable states (`pat_idx ≤ target_idx` and
`pat_idx < max` are loop invariants, see `kmpGo_sound`), so the
truncating `Nat` subtraction coincides with the source.  Fuel:
`target_idx + (target_idx - pat_idx)` increases by at least one per
iteration while `target_idx < window_size`, so `2 * window_size + 1`
suffices. -/
def kmpGo (full ahead lps : List Nat) (window_size pattern_size mx : Nat)
    (check_rl : Bool) : Nat → Nat → Nat → Option MoveBack → Option MoveBack
  | 0, _, _, best => best
  | fuel + 1, target_idx, pat_idx, best =>
    if pat_idx < pattern_size ∧ target_idx < window_size then
      let newly_matched :=
        min (lcpLen (full.drop target_idx) (ahead.drop pat_idx)) (mx - pat_idx)
      let match_size := newly_matched + pat_idx
      let best1 :=
        match best with
        | some b =>
          if b.size > match_size then some b
          else some ⟨match_size, window_size - (target_idx - pat_idx)⟩
        | none => some ⟨match_size, window_size - (target_idx - pat_idx)⟩
      let lps_idx := match_size - 1
      if check_rl then
        let nearest_miss := lps_partial_skip (lps.take lps_idx)
        kmpGo full ahead lps window_size pattern_size mx check_rl fuel
          (target_idx + (nearest_miss + 1)) 0 best1
      else
        let advance := if pat_idx = 0 then max match_size 1 else newly_matched
        kmpGo full ahead lps window_size pattern_size mx check_rl fuel
          (target_idx + advance) (lps.getD lps_idx 0) best1
    else best

/-- `find_kmp` (lzss.rs lines 584–643). -/
def find_kmp (bufs : Bufs) (mx : Nat) (check_rl : Bool) : Option MoveBack :=
  let lps := compute_lps bufs.ahead
  let window_size := bufs.behind.length
  let pattern_size := bufs.ahead.length
  kmpGo bufs.full bufs.ahead lps window_size pattern_size mx check_rl
    (2 * window_size + 1) 0 0 none

/-- `impl MatchFinder for NaiveBrute`. -/
def naiveBruteFinder (bufs : Bufs) (settings : LzssSettings) : Option MoveBack :=
  brute_find_match bufs settings

/-- `impl MatchFinder for KmpStandard`. -/
def kmpStandardFinder (bufs : Bufs) (settings : LzssSettings) : Option MoveBack :=
  find_kmp bufs settings.max_encoded false

/-- `impl MatchFinder for KmpLookAhead`. -/
def kmpLookAheadFinder (bufs : Bufs) (settings : LzssSettings) : Option MoveBack :=
  find_kmp bufs settings.max_encoded true

/-- `LzssBackend`. -/
inductive LzssBackend where
  | brute
  | kmp
  | kmpAhead
deriving DecidableEq, Repr

/-- The `match backend` dispatch of `compress_rdr` (lzss.rs lines
194–198). -/
def LzssBackend.finder : LzssBackend → (Bufs → LzssSettings → Option MoveBack)
  | .brute => naiveBruteFinder
  | .kmp => kmpStandardFinder
  | .kmpAhead => kmpLookAheadFinder

/-- Pop from the deterministic model of `BinaryHeap<TreeNode>` under the
reversed (min-`freq`) order: remove the leftmost node of minimal
frequency.  Rust leaves the pop order of equal-frequency nodes
unspecified (as it does the `HashMap` iteration order feeding
`from_found_codes`); the model fixes both — first-insertion histogram
order and leftmost-minimum pop — one of the behaviours the source may
exhibit. -/
def popMin : List TreeNode → Option (TreeNode × List TreeNode)
  | [] => none
  | n :: rest =>
    match popMin rest with
    | none => some (n, [])
    | some (m, rest') =>
      if n.freq ≤ m.freq then some (n, rest) else some (m, n :: rest')

/-- The `while heap.len() >= 2` loop of `Tree::from_heap` (huffman.rs
lines 141–157), followed by the final pop.  The combined node is pushed
at the front.  Fuel: each iteration shrinks the heap by one, so
`heap.length` suffices. -/
def fromHeapGo : Nat → List TreeNode → Option TreeNode
  | 0, _ => none
  | _ + 1, [] => none
  | _ + 1, [n] => some n
  | fuel + 1, n1 :: n2 :: rest =>
    match popMin (n1 :: n2 :: rest) with
    | none => none
    | some (l, rest1) =>
      match popMin rest1 with
      | none => none
      | some (r, rest2) => fromHeapGo fuel (TreeNode.combine l r :: rest2)

/-- `Tree::from_heap`: `None` on the empty heap. -/
def from_heap (heap : List TreeNode) : Option TreeNode :=
  fromHeapGo (heap.length + 1) heap

/-- `Tree::from_found_codes` (huffman.rs lines 165–171): one leaf per
histogram entry (histogram in first-insertion order, see `popMin`). -/
def from_found_codes (hist : List (Nat × Nat)) : Option TreeNode :=
  from_heap (hist.map fun e => TreeNode.leaf e.1 e.2)

/-- `impl From<Option<Tree>> for MapTree` (huffman.rs lines 114–122). -/
def mapTreeOfTreeOpt : Option TreeNode → MapTree
  | some t => ⟨generateCodeMap t, t.toVpkTree⟩
  | none => ⟨[], VpkTree.empty⟩

/-- `EncodedMaps::new` with no user trees: build both maps from the
bit-width histograms of the LZSS pass. -/
def encodedMapsDefault (p1 : LzssPass) : MapTree × MapTree :=
  (mapTreeOfTreeOpt (from_found_codes p1.moveback_bitfreq),
   mapTreeOfTreeOpt (from_found_codes p1.size_bitfreq))

/-- `do_encode` (encode.rs lines 241–265) for a byte-list input with no
user trees: compress, build the default Huffman maps, write the file.
`.panic` models the `unwrap`s inside `write_file`. -/
def doEncode (input : List Nat) (settings : LzssSettings) (method : VpkMethod)
    (finder : Bufs → LzssSettings → Option MoveBack) : DRes (List Nat) :=
  match compress_rdr input settings method finder with
  | .error e => .err e
  | .ok lzss =>
    match encodedMapsDefault lzss with
    | (offT, lenT) =>
      match write_file method lzss offT lenT with
      | none => .panic
      | some bytes => .ok bytes

/-- `encode` / `EncoderBuilder::encode_to_vec` with the builder defaults
(default `LzssSettings`) at the given method and match-finder backend. -/
def encodeBytes (input : List Nat) (method : VpkMethod)
    (backend : LzssBackend) : DRes (List Nat) :=
  doEncode input LzssSettings.default method backend.finder

/-! ### C1 — stage A/B: `count_needed_bits` and the header round trip -/

theorem countNeededBitsGo_lt (fuel : Nat) : ∀ v : Nat, v < 2 ^ fuel →
    v < 2 ^ countNeededBitsGo fuel v := by
  induction fuel with
  | zero =>
    intro v h
    simpa [countNeededBitsGo] using h
  | succ f ih =>
    intro v h
    rw [countNeededBitsGo]
    split
    · simp_all
    · have h2 : 2 ^ (f + 1) = 2 * 2 ^ f := by rw [pow_succ]; ring
      have hdiv := ih (v / 2) (by omega)
      have h3 : 2 ^ (countNeededBitsGo f (v / 2) + 1) =
          2 * 2 ^ countNeededBitsGo f (v / 2) := by rw [pow_succ]; ring
      omega

theorem count_needed_bits_lt (v : Nat) (h : v < 2 ^ 64) :
    v < 2 ^ count_needed_bits v :=
  countNeededBitsGo_lt 64 v h

theorem bytesToBits_append (a b : List Nat) :
    bytesToBits (a ++ b) = bytesToBits a ++ bytesToBits b := by
  simp [bytesToBits]

theorem bytesToBits_length (a : List Nat) :
    (bytesToBits a).length = 8 * a.length := by
  induction a with
  | nil => rfl
  | cons x xs ih =>
    simp only [bytesToBits, List.flatMap_cons, List.length_append] at *
    rw [ih, natToBits_length]
    simp
    ring

theorem writeBytes_bytes_lt (h : VpkHeader) : ∀ b ∈ h.writeBytes, b < 256 := by
  intro b hb
  cases hm : h.method <;>
  · rw [VpkHeader.writeBytes, hm] at hb
    simp [vpkMagic] at hb
    rcases hb with hb | hb | hb | hb | hb | hb | hb | hb | hb <;> omega

theorem writeBytes_length (h : VpkHeader) : h.writeBytes.length = 9 := by
  simp [VpkHeader.writeBytes, vpkMagic]

theorem fromArray_shape0 (a b c d : Nat) :
    VpkHeader.fromArray ([118, 112, 107, 48] ++ [a, b, c, d] ++ [0]) =
      .ok ⟨16777216 * a + 65536 * b + 256 * c + d, .oneSample⟩ := by
  rw [VpkHeader.fromArray]
  simp only [List.append_assoc, List.cons_append, List.nil_append]
  rw [show (118 :: 112 :: 107 :: 48 :: a :: b :: c :: d :: [(0 : Nat)]).take 4 =
    vpkMagic from rfl]
  rw [if_pos (by decide), if_pos rfl]
  rw [show (118 :: 112 :: 107 :: 48 :: a :: b :: c :: d :: [(0 : Nat)])[4]! = a from rfl,
    show (118 :: 112 :: 107 :: 48 :: a :: b :: c :: d :: [(0 : Nat)])[5]! = b from rfl,
    show (118 :: 112 :: 107 :: 48 :: a :: b :: c :: d :: [(0 : Nat)])[6]! = c from rfl,
    show (118 :: 112 :: 107 :: 48 :: a :: b :: c :: d :: [(0 : Nat)])[7]! = d from rfl,
    show (118 :: 112 :: 107 :: 48 :: a :: b :: c :: d :: [(0 : Nat)])[8]! = 0 from rfl]

theorem fromArray_shape1 (a b c d : Nat) :
    VpkHeader.fromArray ([118, 112, 107, 48] ++ [a, b, c, d] ++ [1]) =
      .ok ⟨16777216 * a + 65536 * b + 256 * c + d, .twoSample⟩ := by
  rw [VpkHeader.fromArray]
  simp only [List.append_assoc, List.cons_append, List.nil_append]
  rw [show (118 :: 112 :: 107 :: 48 :: a :: b :: c :: d :: [(1 : Nat)]).take 4 =
    vpkMagic from rfl]
  rw [if_pos (by decide), if_pos rfl]
  rw [show (118 :: 112 :: 107 :: 48 :: a :: b :: c :: d :: [(1 : Nat)])[4]! = a from rfl,
    show (118 :: 112 :: 107 :: 48 :: a :: b :: c :: d :: [(1 : Nat)])[5]! = b from rfl,
    show (118 :: 112 :: 107 :: 48 :: a :: b :: c :: d :: [(1 : Nat)])[6]! = c from rfl,
    show (118 :: 112 :: 107 :: 48 :: a :: b :: c :: d :: [(1 : Nat)])[7]! = d from rfl,
    show (118 :: 112 :: 107 :: 48 :: a :: b :: c :: d :: [(1 : Nat)])[8]! = 1 from rfl]

/-- Reading back the nine header bytes yields the header (stage B). -/
theorem header_round_trip (h : VpkHeader) (hsz : h.size < 2 ^ 32)
    (rest : List Bool) :
    VpkHeader.fromBits (bytesToBits h.writeBytes ++ rest) = .ok (h, rest) := by
  have hlen : (bytesToBits h.writeBytes).length = 72 := by
    rw [bytesToBits_length, writeBytes_length]
  rw [VpkHeader.fromBits]
  rw [if_pos (by rw [List.length_append, hlen]; omega)]
  have htake : (bytesToBits h.writeBytes ++ rest).take 72 = bytesToBits h.writeBytes := by
    rw [← hlen, List.take_left]
  have hdrop : (bytesToBits h.writeBytes ++ rest).drop 72 = rest := by
    rw [← hlen, List.drop_left]
  rw [htake, hdrop, packBits_bytesToBits _ (writeBytes_bytes_lt h)]
  obtain ⟨sz, me⟩ := h
  have harr : VpkHeader.fromArray (VpkHeader.writeBytes ⟨sz, me⟩) = .ok ⟨sz, me⟩ := by
    cases me with
    | oneSample =>
      have hw : VpkHeader.writeBytes ⟨sz, .oneSample⟩ = [118, 112, 107, 48] ++
          [sz / 16777216 % 256, sz / 65536 % 256, sz / 256 % 256, sz % 256] ++
          [0] := rfl
      rw [hw, fromArray_shape0]
      exact congrArg (fun x => DRes.ok (VpkHeader.mk x VpkMethod.oneSample))
        (by have hsz2 : sz < 2 ^ 32 := hsz; omega)
    | twoSample =>
      have hw : VpkHeader.writeBytes ⟨sz, .twoSample⟩ = [118, 112, 107, 48] ++
          [sz / 16777216 % 256, sz / 65536 % 256, sz / 256 % 256, sz % 256] ++
          [1] := rfl
      rw [hw, fromArray_shape1]
      exact congrArg (fun x => DRes.ok (VpkHeader.mk x VpkMethod.twoSample))
        (by have hsz2 : sz < 2 ^ 32 := hsz; omega)
  rw [harr]

/-! ### C1 — stage C: tree serialization round trip -/

/-- The bits `VpkTree::write` emits for one arena entry. -/
def entryBits : TreeEntry → List Bool
  | .leaf v => false :: natToBits 8 v
  | .node _ _ => [true]

/-- The body bits (sans terminator) `VpkTree::write` emits for a
flattened `TreeNode`. -/
def TreeNode.bits : TreeNode → List Bool
  | .leaf s _ => false :: natToBits 8 s
  | .combinedLeaf s _ _ => false :: natToBits 8 s
  | .node _ l r => l.bits ++ r.bits ++ [true]

/-- The headline sizes of a tree's leaves. -/
def TreeNode.sizes : TreeNode → List Nat
  | .leaf s _ => [s]
  | .combinedLeaf s _ _ => [s]
  | .node _ l r => l.sizes ++ r.sizes

theorem writeBits_eq (t : VpkTree) :
    t.writeBits = t.entries.flatMap entryBits ++ [true] := rfl

theorem flatMap_flatten (T : TreeNode) :
    ∀ arr : List TreeEntry,
      (T.flatten arr).1.flatMap entryBits = arr.flatMap entryBits ++ T.bits := by
  induction T with
  | leaf s f =>
    intro arr
    rw [flatten_leaf_eq]
    simp [entryBits, TreeNode.bits]
  | combinedLeaf s f les =>
    intro arr
    rw [flatten_comb_eq]
    simp [entryBits, TreeNode.bits]
  | node fr l r ihl ihr =>
    intro arr
    rw [flatten_node_eq]
    show ((r.flatten (l.flatten arr).1).1 ++ _).flatMap entryBits = _
    rw [List.flatMap_append, ihr, ihl]
    simp [entryBits, TreeNode.bits]

theorem toVpkTree_writeBits (T : TreeNode) :
    T.toVpkTree.writeBits = T.bits ++ [true] := by
  rw [writeBits_eq, TreeNode.toVpkTree]
  show (T.flatten []).1.flatMap entryBits ++ [true] = _
  rw [flatMap_flatten T []]
  rfl

theorem bits_length_ge (T : TreeNode) : T.entryCount ≤ T.bits.length := by
  induction T with
  | leaf s f => simp [TreeNode.entryCount, TreeNode.bits, natToBits_length]
  | combinedLeaf s f les => simp [TreeNode.entryCount, TreeNode.bits, natToBits_length]
  | node fr l r ihl ihr =>
    simp only [TreeNode.entryCount, TreeNode.bits, List.length_append, List.length_cons,
      List.length_nil]
    omega

/-- Parsing the serialized entries of a flattened tree extends the parse
arena exactly as `flatten` does and pushes the root's index (stage C). -/
theorem treeFromBitsGo_steps (T : TreeNode) :
    (∀ s ∈ T.sizes, s < 256) →
    ∀ (entries : List TreeEntry) (stack : List Nat) (rest : List Bool) (fuel : Nat),
      treeFromBitsGo (T.entryCount + fuel) entries stack (T.bits ++ rest) =
        treeFromBitsGo fuel (T.flatten entries).1 ((T.flatten entries).2 :: stack) rest := by
  induction T with
  | leaf s f =>
    intro hs entries stack rest fuel
    rw [show TreeNode.entryCount (.leaf s f) + fuel = fuel + 1 from by
      simp [TreeNode.entryCount]; omega]
    rw [treeFromBitsGo]
    show (match readN 8 (natToBits 8 s ++ rest) with
      | none => none
      | some (v, rest') =>
        treeFromBitsGo fuel (entries ++ [TreeEntry.leaf v]) (entries.length :: stack) rest') = _
    rw [readN_natToBits 8 s (hs s (by simp [TreeNode.sizes])) rest]
    rw [flatten_leaf_eq]
  | combinedLeaf s f les =>
    intro hs entries stack rest fuel
    rw [show TreeNode.entryCount (.combinedLeaf s f les) + fuel = fuel + 1 from by
      simp [TreeNode.entryCount]; omega]
    rw [treeFromBitsGo]
    show (match readN 8 (natToBits 8 s ++ rest) with
      | none => none
      | some (v, rest') =>
        treeFromBitsGo fuel (entries ++ [TreeEntry.leaf v]) (entries.length :: stack) rest') = _
    rw [readN_natToBits 8 s (hs s (by simp [TreeNode.sizes])) rest]
    rw [flatten_comb_eq]
  | node fr l r ihl ihr =>
    intro hs entries stack rest fuel
    have hsl : ∀ s ∈ l.sizes, s < 256 := fun s h => hs s (by simp [TreeNode.sizes]; exact .inl h)
    have hsr : ∀ s ∈ r.sizes, s < 256 := fun s h => hs s (by simp [TreeNode.sizes]; exact .inr h)
    rw [show TreeNode.entryCount (.node fr l r) + fuel =
        l.entryCount + (r.entryCount + (fuel + 1)) from by
      simp [TreeNode.entryCount]; omega]
    rw [show TreeNode.bits (.node fr l r) ++ rest =
        l.bits ++ (r.bits ++ ([true] ++ rest)) from by
      simp [TreeNode.bits]]
    rw [ihl hsl, ihr hsr]
    rw [treeFromBitsGo]
    show (if ((r.flatten (l.flatten entries).1).2 :: (l.flatten entries).2 :: stack).length < 2
        then some (⟨(r.flatten (l.flatten entries).1).1⟩, rest)
        else treeFromBitsGo fuel
          ((r.flatten (l.flatten entries).1).1 ++
            [TreeEntry.node (l.flatten entries).2 (r.flatten (l.flatten entries).1).2])
          ((r.flatten (l.flatten entries).1).1.length :: stack) rest) = _
    rw [if_neg (by simp)]
    rw [flatten_node_eq]

/-- Parsing the serialized form of a flattened tree yields it back. -/
theorem fromBits_toVpkTree (T : TreeNode) (hT : ∀ s ∈ T.sizes, s < 256)
    (rest : List Bool) :
    VpkTree.fromBits (T.toVpkTree.writeBits ++ rest) = some (T.toVpkTree, rest) := by
  rw [toVpkTree_writeBits, VpkTree.fromBits]
  have hge := bits_length_ge T
  rw [List.append_assoc]
  have hlen : (T.bits ++ ([true] ++ rest)).length + 1 =
      T.entryCount + ((T.bits.length + rest.length + 2) - T.entryCount) := by
    simp only [List.length_append, List.length_cons, List.length_nil]
    omega
  rw [hlen, treeFromBitsGo_steps T hT]
  obtain ⟨f, hf⟩ : ∃ f, (T.bits.length + rest.length + 2) - T.entryCount = f + 1 :=
    ⟨T.bits.length + rest.length + 1 - T.entryCount, by omega⟩
  rw [hf, List.singleton_append, treeFromBitsGo]
  simp only [readBit]
  rw [if_pos (by simp)]
  rfl

/-- Parsing the serialized form of the empty tree (a lone `1` bit). -/
theorem fromBits_empty (rest : List Bool) :
    VpkTree.fromBits (VpkTree.empty.writeBits ++ rest) = some (VpkTree.empty, rest) := by
  rw [show VpkTree.empty.writeBits = [true] from rfl, VpkTree.fromBits]
  rfl

/-! ### C1 — stage D: consistency of the generated code map with the
flattened tree -/

/-- The bit string of a Huffman code (MSB first). -/
def codeBits (c : HuffCode) : List Bool := natToBits c.size c.code

/-- `good T`: every absorbed lesser size is bounded by its headline
size. -/
def TreeNode.good : TreeNode → Prop
  | .leaf _ _ => True
  | .combinedLeaf s _ les => ∀ x ∈ les, x ≤ s
  | .node _ l r => l.good ∧ r.good

/-- All bit widths a node accounts for. -/
def TreeNode.covers : TreeNode → List Nat
  | .leaf s _ => [s]
  | .combinedLeaf s _ les => s :: les
  | .node _ l r => l.covers ++ r.covers

theorem codeBits_new : codeBits HuffCode.new = [] := rfl

theorem codeBits_extend (c : HuffCode) (b : Bool) :
    codeBits (c.extend b) = codeBits c ++ [b] := by
  have hlen : (codeBits c ++ [b]).length = c.size + 1 := by
    simp [codeBits, natToBits_length]
  have hval : bitsToNat (codeBits c ++ [b]) = 2 * (c.code % 2 ^ c.size) + b.toNat := by
    rw [bitsToNat_append, codeBits, bitsToNat_natToBits_mod]
    rw [show bitsToNat [b] = b.toNat from by cases b <;> rfl,
      show ([b] : List Bool).length = 1 from rfl, pow_one]
    ring
  have h1 : codeBits (c.extend b) = natToBits (c.size + 1) (2 * c.code + b.toNat) := rfl
  rw [h1, ← natToBits_mod]
  have hmod : (2 * c.code + b.toNat) % 2 ^ (c.size + 1) =
      2 * (c.code % 2 ^ c.size) + b.toNat := by
    have hb : b.toNat < 2 := by cases b <;> simp
    have hdm := Nat.div_add_mod c.code (2 ^ c.size)
    have hlt : c.code % 2 ^ c.size < 2 ^ c.size :=
      Nat.mod_lt _ (Nat.pos_pow_of_pos _ (by norm_num))
    rw [pow_succ, Nat.mul_comm (2 ^ c.size) 2]
    calc (2 * c.code + b.toNat) % (2 * 2 ^ c.size)
        = (2 * (c.code % 2 ^ c.size) + b.toNat +
            (c.code / 2 ^ c.size) * (2 * 2 ^ c.size)) % (2 * 2 ^ c.size) := by
          congr 1
          have hmul : (c.code / 2 ^ c.size) * (2 * 2 ^ c.size) =
              2 * (2 ^ c.size * (c.code / 2 ^ c.size)) := by ring
          omega
      _ = (2 * (c.code % 2 ^ c.size) + b.toNat) % (2 * 2 ^ c.size) :=
          Nat.add_mul_mod_self_right _ _ _
      _ = 2 * (c.code % 2 ^ c.size) + b.toNat := Nat.mod_eq_of_lt (by omega)
  rw [hmod, ← hval, ← hlen, natToBits_bitsToNat]

theorem cmLookup_insert (m : CodeMap) (k : Nat) (v : Nat × HuffCode) (w : Nat) :
    cmLookup (cmInsert m k v) w = if k = w then some v else cmLookup m w := by
  rw [cmInsert, cmLookup, List.find?]
  split
  · rename_i heq
    rw [if_pos (by simpa using heq)]
    rfl
  · rename_i heq
    rw [if_neg (by simpa using heq)]
    rfl

/-- Lookup after the `CombinedLeaf` fold: either one of the new entries
(all carrying the same value) or the старое map. -/
theorem cmLookup_fold_insert (val : Nat × HuffCode) (les : List Nat) :
    ∀ (m₀ : CodeMap) (w : Nat) (r : Nat × HuffCode),
      cmLookup (les.foldl (fun m' s => cmInsert m' s (val.1, val.2)) m₀) w = some r →
      r = val ∨ cmLookup m₀ w = some r := by
  induction les with
  | nil => intro m₀ w r h; exact .inr h
  | cons x xs ih =>
    intro m₀ w r h
    rcases ih _ _ _ h with h1 | h1
    · exact .inl h1
    · rw [cmLookup_insert] at h1
      split at h1
      · left
        cases h1
        rfl
      · exact .inr h1

theorem cmLookup_fold_insert_mem (val : Nat × HuffCode) (les : List Nat) :
    ∀ (m₀ : CodeMap) (w : Nat), w ∈ les ∨ (cmLookup m₀ w).isSome →
      (cmLookup (les.foldl (fun m' s => cmInsert m' s (val.1, val.2)) m₀) w).isSome := by
  induction les with
  | nil =>
    intro m₀ w h
    rcases h with h | h
    · cases h
    · exact h
  | cons x xs ih =>
    intro m₀ w h
    apply ih
    rcases h with h | h
    · rcases List.mem_cons.mp h with h | h
      · right
        rw [cmLookup_insert, if_pos h.symm]
        rfl
      · exact .inl h
    · right
      rw [cmLookup_insert]
      split
      · rfl
      · exact h

/-- `generate_code` only adds entries: present lookups stay present. -/
theorem generateCode_mono (T : TreeNode) :
    ∀ (pfx : HuffCode) (m : CodeMap) (w : Nat), (cmLookup m w).isSome →
      (cmLookup (T.generateCode pfx m) w).isSome := by
  induction T with
  | leaf s f =>
    intro pfx m w h
    rw [TreeNode.generateCode, cmLookup_insert]
    split
    · rfl
    · exact h
  | combinedLeaf s f les =>
    intro pfx m w h
    rw [TreeNode.generateCode]
    apply cmLookup_fold_insert_mem (s, pfx)
    right
    rw [cmLookup_insert]
    split
    · rfl
    · exact h
  | node fr l r ihl ihr =>
    intro pfx m w h
    rw [TreeNode.generateCode]
    exact ihr _ _ _ (ihl _ _ _ h)

/-- Every covered width is present in the generated map. -/
theorem generateCode_coverage (T : TreeNode) :
    ∀ (pfx : HuffCode) (m : CodeMap) (w : Nat), w ∈ T.covers →
      (cmLookup (T.generateCode pfx m) w).isSome := by
  induction T with
  | leaf s f =>
    intro pfx m w hw
    rw [TreeNode.covers] at hw
    rcases List.mem_singleton.mp hw with rfl
    rw [TreeNode.generateCode, cmLookup_insert, if_pos rfl]
    rfl
  | combinedLeaf s f les =>
    intro pfx m w hw
    rw [TreeNode.covers] at hw
    rw [TreeNode.generateCode]
    apply cmLookup_fold_insert_mem (s, pfx)
    rcases List.mem_cons.mp hw with rfl | hw
    · right
      rw [cmLookup_insert, if_pos rfl]
      rfl
    · exact .inl hw
  | node fr l r ihl ihr =>
    intro pfx m w hw
    rw [TreeNode.covers] at hw
    rw [TreeNode.generateCode]
    rcases List.mem_append.mp hw with hw | hw
    · exact generateCode_mono r _ _ _ (ihl _ _ _ hw)
    · exact ihr _ _ _ hw

/-- Lookup after the `CombinedLeaf` fold, remembering which key hit. -/
theorem cm_fold_lookup (val : Nat × HuffCode) (les : List Nat) :
    ∀ (m₀ : CodeMap) (w : Nat) (r : Nat × HuffCode),
      cmLookup (les.foldl (fun m' s => cmInsert m' s (val.1, val.2)) m₀) w = some r →
      (r = val ∧ w ∈ les) ∨ cmLookup m₀ w = some r := by
  induction les with
  | nil => intro m₀ w r h; exact .inr h
  | cons x xs ih =>
    intro m₀ w r h
    rcases ih _ _ _ h with ⟨h1, h2⟩ | h1
    · exact .inl ⟨h1, List.mem_cons_of_mem x h2⟩
    · rw [cmLookup_insert] at h1
      split at h1
      · rename_i heq
        left
        cases h1
        exact ⟨rfl, heq ▸ List.mem_cons_self x xs⟩
      · exact .inr h1

/-- Any entry the generated code map returns for width `w` names a stored
width `W ≥ w` and a code that routes `read_value` to the leaf holding
`W`, after which the `W`-bit payload is read back verbatim (stage D core).
The walk is stated on the arena of `T` flattened after `pre`, extended by
any `post`. -/
theorem generateCode_walk (T : TreeNode) :
    T.good →
    ∀ (pre post : List TreeEntry) (pfx : HuffCode) (m : CodeMap) (w W : Nat)
      (c : HuffCode),
      cmLookup (T.generateCode pfx m) w = some (W, c) →
      cmLookup m w = some (W, c) ∨
      (w ≤ W ∧ ∃ p, codeBits c = codeBits pfx ++ p ∧
        ∀ (v : Nat) (rest : List Bool) (fuel : Nat), v < 2 ^ W → T.entryCount ≤ fuel →
          readValueGo ((T.flatten pre).1 ++ post) fuel (T.flatten pre).2
            (p ++ (natToBits W v ++ rest)) = .ok (v, rest)) := by
  induction T with
  | leaf s f =>
    intro _ pre post pfx m w W c hl
    rw [TreeNode.generateCode, cmLookup_insert] at hl
    split at hl
    · rename_i heq
      obtain ⟨rfl, rfl⟩ : s = W ∧ pfx = c := by simpa using hl
      right
      refine ⟨le_of_eq heq.symm, [], by simp, ?_⟩
      intro v rest fuel hv hfuel
      obtain ⟨f2, rfl⟩ : ∃ f2, fuel = f2 + 1 :=
        ⟨fuel - 1, by simp [TreeNode.entryCount] at hfuel; omega⟩
      simp only [flatten_leaf_eq]
      rw [readValueGo, list_get_append_middle pre (.leaf s) post]
      show DRes.ofOption .io (readN s ([] ++ (natToBits s v ++ rest))) = .ok (v, rest)
      rw [List.nil_append, readN_natToBits s v hv rest]
      rfl
    · exact .inl hl
  | combinedLeaf s f les =>
    intro hg pre post pfx m w W c hl
    rw [TreeNode.generateCode] at hl
    have hwalk : ∀ (v : Nat) (rest : List Bool) (fuel : Nat), v < 2 ^ s →
        TreeNode.entryCount (.combinedLeaf s f les) ≤ fuel →
        readValueGo (((TreeNode.combinedLeaf s f les).flatten pre).1 ++ post) fuel
          ((TreeNode.combinedLeaf s f les).flatten pre).2
          ([] ++ (natToBits s v ++ rest)) = .ok (v, rest) := by
      intro v rest fuel hv hfuel
      obtain ⟨f2, rfl⟩ : ∃ f2, fuel = f2 + 1 :=
        ⟨fuel - 1, by simp [TreeNode.entryCount] at hfuel; omega⟩
      simp only [flatten_comb_eq]
      rw [readValueGo, list_get_append_middle pre (.leaf s) post]
      show DRes.ofOption .io (readN s ([] ++ (natToBits s v ++ rest))) = .ok (v, rest)
      rw [List.nil_append, readN_natToBits s v hv rest]
      rfl
    rcases cm_fold_lookup (s, pfx) les _ _ _ hl with ⟨hr, hmem⟩ | h1
    · obtain ⟨rfl, rfl⟩ : s = W ∧ pfx = c := by
        constructor <;> · cases hr; rfl
      exact .inr ⟨hg w hmem, [], by simp, hwalk⟩
    · rw [cmLookup_insert] at h1
      split at h1
      · rename_i heq
        obtain ⟨rfl, rfl⟩ : s = W ∧ pfx = c := by simpa using h1
        exact .inr ⟨le_of_eq heq.symm, [], by simp, hwalk⟩
      · exact .inl h1
  | node fr l r ihl ihr =>
    intro hg pre post pfx m w W c hl
    rw [TreeNode.generateCode] at hl
    obtain ⟨extR, hextR⟩ := flatten_prefix r (l.flatten pre).1
    have harena : ((TreeNode.node fr l r).flatten pre).1 ++ post =
        (r.flatten (l.flatten pre).1).1 ++
          ([TreeEntry.node (l.flatten pre).2 (r.flatten (l.flatten pre).1).2] ++ post) := by
      rw [flatten_node_eq]
      show ((r.flatten (l.flatten pre).1).1 ++ _) ++ post = _
      rw [List.append_assoc]
    have harenaL : ((TreeNode.node fr l r).flatten pre).1 ++ post =
        (l.flatten pre).1 ++
          ((extR ++ [TreeEntry.node (l.flatten pre).2 (r.flatten (l.flatten pre).1).2]) ++
            post) := by
      rw [harena, hextR]
      simp
    have hroot : ((TreeNode.node fr l r).flatten pre).2 =
        (r.flatten (l.flatten pre).1).1.length := by
      rw [flatten_node_eq]
    have hnodeGet : (((TreeNode.node fr l r).flatten pre).1 ++ post)[
        (r.flatten (l.flatten pre).1).1.length]? =
        some (TreeEntry.node (l.flatten pre).2 (r.flatten (l.flatten pre).1).2) := by
      rw [flatten_node_eq]
      show (((r.flatten (l.flatten pre).1).1 ++ [_]) ++ post)[_]? = _
      exact list_get_append_middle _ _ _
    rcases ihr hg.2 (l.flatten pre).1
        ([TreeEntry.node (l.flatten pre).2 (r.flatten (l.flatten pre).1).2] ++ post)
        (pfx.extend true) _ w W c hl with h1 | ⟨hle, p, hp, hwalk⟩
    · rcases ihl hg.1 pre
          ((extR ++ [TreeEntry.node (l.flatten pre).2 (r.flatten (l.flatten pre).1).2]) ++
            post)
          (pfx.extend false) m w W c h1 with h2 | ⟨hle, p, hp, hwalk⟩
      · exact .inl h2
      · right
        refine ⟨hle, false :: p, by rw [hp, codeBits_extend]; simp, ?_⟩
        intro v rest fuel hv hfuel
        obtain ⟨f2, rfl⟩ : ∃ f2, fuel = f2 + 1 :=
          ⟨fuel - 1, by simp [TreeNode.entryCount] at hfuel; omega⟩
        rw [hroot, readValueGo, hnodeGet]
        show readValueGo _ f2 (l.flatten pre).2 (p ++ (natToBits W v ++ rest)) = _
        rw [harenaL]
        exact hwalk v rest f2 hv (by simp [TreeNode.entryCount] at hfuel; omega)
    · right
      refine ⟨hle, true :: p, by rw [hp, codeBits_extend]; simp, ?_⟩
      intro v rest fuel hv hfuel
      obtain ⟨f2, rfl⟩ : ∃ f2, fuel = f2 + 1 :=
        ⟨fuel - 1, by simp [TreeNode.entryCount] at hfuel; omega⟩
      rw [hroot, readValueGo, hnodeGet]
      show readValueGo _ f2 (r.flatten (l.flatten pre).1).2 (p ++ (natToBits W v ++ rest)) = _
      rw [harena]
      exact hwalk v rest f2 hv (by simp [TreeNode.entryCount] at hfuel; omega)

/-- Top-level code-map/tree consistency for a flattened `TreeNode`. -/
theorem mapTree_lookup_spec (T : TreeNode) (hg : T.good) (w W : Nat) (c : HuffCode)
    (hl : cmLookup (generateCodeMap T) w = some (W, c)) :
    w ≤ W ∧ ∀ (v : Nat) (rest : List Bool), v < 2 ^ W →
      T.toVpkTree.readValue (codeBits c ++ (natToBits W v ++ rest)) = .ok (v, rest) := by
  rcases generateCode_walk T hg [] [] HuffCode.new [] w W c hl with h | ⟨hle, p, hp, hwalk⟩
  · simp [cmLookup] at h
  · refine ⟨hle, ?_⟩
    intro v rest hv
    have hlen : T.toVpkTree.entries.length = T.entryCount := by
      show (T.flatten []).1.length = _
      rw [flatten_length]
      simp
    rw [VpkTree.readValue, if_neg (by rw [hlen]; have := entryCount_pos T; omega)]
    have hc : codeBits c = p := by rw [hp, codeBits_new, List.nil_append]
    rw [hc, hlen]
    have harena : T.toVpkTree.entries = (T.flatten []).1 ++ [] := by
      rw [List.append_nil]
      rfl
    have hidx : T.entryCount - 1 = (T.flatten []).2 := by
      rw [flatten_idx, flatten_length]
      simp
    rw [harena, hidx]
    exact hwalk v rest T.entryCount hv (le_refl _)

/-! ### C1 — stage E: the binary heap build -/

theorem popMin_none : ∀ heap : List TreeNode, popMin heap = none → heap = [] := by
  intro heap h
  cases heap with
  | nil => rfl
  | cons x xs =>
    rw [popMin] at h
    cases hx : popMin xs with
    | none => simp only [hx] at h; simp at h
    | some p =>
      obtain ⟨m, rest'⟩ := p
      simp only [hx] at h
      by_cases hc : x.freq ≤ m.freq
      · rw [if_pos hc] at h; cases h
      · rw [if_neg hc] at h; cases h

theorem popMin_perm : ∀ (heap : List TreeNode) (n : TreeNode) (rest : List TreeNode),
    popMin heap = some (n, rest) → heap.Perm (n :: rest) := by
  intro heap
  induction heap with
  | nil => intro n rest h; cases h
  | cons x xs ih =>
    intro n rest h
    rw [popMin] at h
    cases hx : popMin xs with
    | none =>
      simp only [hx] at h
      cases h
      rw [popMin_none xs hx]
    | some p =>
      obtain ⟨m, rest'⟩ := p
      simp only [hx] at h
      by_cases hc : x.freq ≤ m.freq
      · rw [if_pos hc] at h
        cases h
        exact List.Perm.refl _
      · rw [if_neg hc] at h
        cases h
        exact ((ih _ _ hx).cons x).trans (List.Perm.swap _ _ _)

/-- The reachable lessers of a leaf-like node are bounded by its size. -/
theorem lessers_le (T : TreeNode) (s0 : Nat) (hg : T.good) (hs : T.sizeOpt = some s0) :
    ∀ x ∈ T.lessers.getD [], x ≤ s0 := by
  cases T with
  | leaf s f => intro x hx; cases hx
  | combinedLeaf s f les =>
    intro x hx
    cases hs
    exact hg x hx
  | node fr l r => cases hs

theorem covers_eq (T : TreeNode) (s0 : Nat) (hs : T.sizeOpt = some s0) (w : Nat) :
    w ∈ T.covers ↔ w = s0 ∨ w ∈ T.lessers.getD [] := by
  cases T with
  | leaf s f =>
    cases hs
    simp [TreeNode.covers, TreeNode.lessers]
  | combinedLeaf s f les =>
    cases hs
    simp [TreeNode.covers, TreeNode.lessers]
  | node fr l r => cases hs

theorem order_leaves_spec (l r higher lower : TreeNode)
    (ho : order_leaves l r = some (higher, lower)) :
    ((higher = l ∧ lower = r) ∨ (higher = r ∧ lower = l)) ∧
      ∃ hs ls, higher.sizeOpt = some hs ∧ lower.sizeOpt = some ls ∧ ls ≤ hs := by
  rw [order_leaves] at ho
  cases hls : l.sizeOpt with
  | none => rw [hls] at ho; cases ho
  | some a =>
    cases hrs : r.sizeOpt with
    | none => rw [hls, hrs] at ho; cases ho
    | some b =>
      simp only [hls, hrs] at ho
      by_cases hba : b ≤ a
      · rw [if_pos hba] at ho
        cases ho
        exact ⟨.inl ⟨rfl, rfl⟩, a, b, hls, hrs, hba⟩
      · rw [if_neg hba] at ho
        cases ho
        exact ⟨.inr ⟨rfl, rfl⟩, b, a, hrs, hls, by omega⟩

theorem pair_covers (l r t : TreeNode) (hp : pair_lesser_sizes l r = some t)
    (hgl : l.good) (hgr : r.good) :
    t.good ∧ ∀ w, w ∈ t.covers ↔ w ∈ l.covers ∨ w ∈ r.covers := by
  rw [pair_lesser_sizes] at hp
  cases ho : order_leaves l r with
  | none => simp only [ho, Option.none_bind] at hp; cases hp
  | some pr =>
    obtain ⟨higher, lower⟩ := pr
    obtain ⟨hassign, hs, ls, hhs, hls, hlsle⟩ := order_leaves_spec l r higher lower ho
    simp only [ho, Option.some_bind] at hp
    split at hp
    · cases hp
      have hghigher : higher.good := by rcases hassign with ⟨rfl, _⟩ | ⟨rfl, _⟩ <;> assumption
      have hglower : lower.good := by
        rcases hassign with ⟨_, rfl⟩ | ⟨_, rfl⟩ <;> assumption
      have hhg : (higher.sizeOpt).getD 0 = hs := by rw [hhs]; rfl
      have hlg : (lower.sizeOpt).getD 0 = ls := by rw [hls]; rfl
      rw [hhg, hlg]
      constructor
      · intro x hx
        rcases List.mem_cons.mp hx with rfl | hx
        · exact hlsle
        · rcases List.mem_append.mp hx with hx | hx
          · exact lessers_le higher hs hghigher hhs x hx
          · exact le_trans (lessers_le lower ls hglower hls x hx) hlsle
      · intro w
        have hcov : w ∈ l.covers ∨ w ∈ r.covers ↔
            w ∈ higher.covers ∨ w ∈ lower.covers := by
          rcases hassign with ⟨rfl, rfl⟩ | ⟨rfl, rfl⟩
          · rfl
          · exact or_comm
        rw [hcov, covers_eq higher hs hhs, covers_eq lower ls hls]
        show w ∈ hs :: (ls :: (_ ++ _)) ↔ _
        simp only [List.mem_cons, List.mem_append]
        tauto
    · cases hp

theorem combine_props (l r : TreeNode) (hgl : l.good) (hgr : r.good) :
    (TreeNode.combine l r).good ∧
      ∀ w, w ∈ (TreeNode.combine l r).covers ↔ w ∈ l.covers ∨ w ∈ r.covers := by
  rw [TreeNode.combine]
  cases hp : pair_lesser_sizes l r with
  | none =>
    constructor
    · exact ⟨hgl, hgr⟩
    · intro w
      show w ∈ l.covers ++ r.covers ↔ _
      exact List.mem_append
  | some t => exact pair_covers l r t hp hgl hgr

/-- The heap loop preserves goodness and exactly the union of covered
widths. -/
theorem fromHeapGo_props : ∀ (fuel : Nat) (heap : List TreeNode) (t : TreeNode),
    fromHeapGo fuel heap = some t → (∀ n ∈ heap, n.good) →
    t.good ∧ ∀ w, (w ∈ t.covers ↔ ∃ n ∈ heap, w ∈ n.covers) := by
  intro fuel
  induction fuel with
  | zero => intro heap t h _; cases h
  | succ f ih =>
    intro heap t h hg
    cases heap with
    | nil => cases h
    | cons n1 tail =>
      cases tail with
      | nil =>
        cases h
        refine ⟨hg t (by simp), fun w => by simp⟩
      | cons n2 rest =>
        rw [fromHeapGo] at h
        cases hp1 : popMin (n1 :: n2 :: rest) with
        | none => exact absurd (popMin_none _ hp1) (by simp)
        | some p1 =>
          obtain ⟨l, rest1⟩ := p1
          have hperm1 := popMin_perm _ _ _ hp1
          simp only [hp1] at h
          cases hp2 : popMin rest1 with
          | none =>
            exfalso
            have : rest1 = [] := popMin_none _ hp2
            subst this
            have := hperm1.length_eq
            simp at this
          | some p2 =>
            obtain ⟨r, rest2⟩ := p2
            have hperm2 := popMin_perm _ _ _ hp2
            simp only [hp2] at h
            have hgl : l.good := hg l (hperm1.mem_iff.mpr (by simp))
            have hgr : r.good := by
              apply hg r
              apply hperm1.mem_iff.mpr
              exact List.mem_cons_of_mem l (hperm2.mem_iff.mpr (by simp))
            obtain ⟨hcg, hcc⟩ := combine_props l r hgl hgr
            have hnewg : ∀ n ∈ TreeNode.combine l r :: rest2, n.good := by
              intro n hn
              rcases List.mem_cons.mp hn with rfl | hn
              · exact hcg
              · exact hg n (hperm1.mem_iff.mpr
                  (List.mem_cons_of_mem l (hperm2.mem_iff.mpr (List.mem_cons_of_mem r hn))))
            obtain ⟨htg, htc⟩ := ih _ _ h hnewg
            refine ⟨htg, fun w => ?_⟩
            rw [htc w]
            constructor
            · rintro ⟨n, hn, hw⟩
              rcases List.mem_cons.mp hn with rfl | hn
              · rcases (hcc w).mp hw with hw | hw
                · exact ⟨l, hperm1.mem_iff.mpr (by simp), hw⟩
                · exact ⟨r, hperm1.mem_iff.mpr
                    (List.mem_cons_of_mem l (hperm2.mem_iff.mpr (by simp))), hw⟩
              · exact ⟨n, hperm1.mem_iff.mpr
                  (List.mem_cons_of_mem l (hperm2.mem_iff.mpr (List.mem_cons_of_mem r hn))), hw⟩
            · rintro ⟨n, hn, hw⟩
              have hn' : n ∈ l :: rest1 := hperm1.mem_iff.mp hn
              rcases List.mem_cons.mp hn' with heq | hn'
              · exact ⟨TreeNode.combine l r, by simp, (hcc w).mpr (.inl (heq ▸ hw))⟩
              · have hn'' : n ∈ r :: rest2 := hperm2.mem_iff.mp hn'
                rcases List.mem_cons.mp hn'' with heq | hn''
                · exact ⟨TreeNode.combine l r, by simp, (hcc w).mpr (.inr (heq ▸ hw))⟩
                · exact ⟨n, List.mem_cons_of_mem _ hn'', hw⟩

/-- A nonempty heap always yields a root, given enough fuel. -/
theorem fromHeapGo_isSome : ∀ (fuel : Nat) (heap : List TreeNode),
    heap.length ≤ fuel → heap ≠ [] → (fromHeapGo fuel heap).isSome := by
  intro fuel
  induction fuel with
  | zero =>
    intro heap h hne
    cases heap with
    | nil => exact absurd rfl hne
    | cons a b => simp at h
  | succ f ih =>
    intro heap h hne
    cases heap with
    | nil => exact absurd rfl hne
    | cons n1 tail =>
      cases tail with
      | nil => rw [fromHeapGo]; rfl
      | cons n2 rest =>
        rw [fromHeapGo]
        cases hp1 : popMin (n1 :: n2 :: rest) with
        | none => exact absurd (popMin_none _ hp1) (by simp)
        | some p1 =>
          obtain ⟨l, rest1⟩ := p1
          have hperm1 := popMin_perm _ _ _ hp1
          simp only [hp1]
          cases hp2 : popMin rest1 with
          | none =>
            exfalso
            have : rest1 = [] := popMin_none _ hp2
            subst this
            have := hperm1.length_eq
            simp at this
          | some p2 =>
            obtain ⟨r, rest2⟩ := p2
            have hperm2 := popMin_perm _ _ _ hp2
            simp only [hp2]
            apply ih
            · have h1 := hperm1.length_eq
              have h2 := hperm2.length_eq
              simp only [List.length_cons] at h1 h2 h ⊢
              omega
            · simp

theorem from_found_codes_props (hist : List (Nat × Nat)) (t : TreeNode)
    (h : from_found_codes hist = some t) :
    t.good ∧ ∀ w, (w ∈ t.covers ↔ ∃ e ∈ hist, e.1 = w) := by
  obtain ⟨hg, hc⟩ := fromHeapGo_props _ _ _ h (by
    intro n hn
    obtain ⟨e, he, rfl⟩ := List.mem_map.mp hn
    trivial)
  refine ⟨hg, fun w => ?_⟩
  rw [hc w]
  constructor
  · rintro ⟨n, hn, hw⟩
    obtain ⟨e, he, rfl⟩ := List.mem_map.mp hn
    refine ⟨e, he, ?_⟩
    have := hw
    simp [TreeNode.covers] at this
    omega
  · rintro ⟨e, he, rfl⟩
    exact ⟨.leaf e.1 e.2, List.mem_map.mpr ⟨e, he, rfl⟩, by simp [TreeNode.covers]⟩

theorem from_found_codes_isSome (hist : List (Nat × Nat)) (hne : hist ≠ []) :
    (from_found_codes hist).isSome := by
  apply fromHeapGo_isSome
  · simp
  · simpa using hne

theorem sizes_subset_covers (T : TreeNode) : ∀ s ∈ T.sizes, s ∈ T.covers := by
  induction T with
  | leaf s f => simp [TreeNode.sizes, TreeNode.covers]
  | combinedLeaf s f les => simp [TreeNode.sizes, TreeNode.covers]
  | node fr l r ihl ihr =>
    intro s hs
    rw [TreeNode.sizes] at hs
    rw [TreeNode.covers]
    rcases List.mem_append.mp hs with hs | hs
    · exact List.mem_append.mpr (.inl (ihl s hs))
    · exact List.mem_append.mpr (.inr (ihr s hs))

/-- Everything the round trip needs from one encoded map: every observed
key is mapped consistently with the tree, and the tree serializes and
parses back. -/
def MapTreeGood (mt : MapTree) (keys : List Nat) : Prop :=
  (∀ k ∈ keys, ∃ W c, mt.get k = some (W, c) ∧ k ≤ W ∧
      ∀ (v : Nat) (rest : List Bool), v < 2 ^ W →
        mt.tree.readValue (codeBits c ++ (natToBits W v ++ rest)) = .ok (v, rest)) ∧
  (∀ restBits : List Bool,
    VpkTree.fromBits (mt.tree.writeBits ++ restBits) = some (mt.tree, restBits))

/-- The default (histogram-built) map is good for the histogram's keys. -/
theorem mapTreeOfTreeOpt_good (hist : List (Nat × Nat))
    (hk : ∀ e ∈ hist, e.1 < 256) :
    MapTreeGood (mapTreeOfTreeOpt (from_found_codes hist)) (hist.map (·.1)) := by
  cases hff : from_found_codes hist with
  | none =>
    have hemp : hist = [] := by
      by_contra hne
      have := from_found_codes_isSome hist hne
      rw [hff] at this
      cases this
    subst hemp
    constructor
    · intro k hk'
      cases hk'
    · intro restBits
      exact fromBits_empty restBits
  | some T =>
    obtain ⟨hg, hc⟩ := from_found_codes_props hist T hff
    constructor
    · intro k hkmem
      have hkc : k ∈ T.covers := (hc k).mpr (by
        obtain ⟨e, he, rfl⟩ := List.mem_map.mp hkmem
        exact ⟨e, he, rfl⟩)
      have hsome : (cmLookup (generateCodeMap T) k).isSome := by
        rw [generateCodeMap]
        exact generateCode_coverage T HuffCode.new [] k hkc
      obtain ⟨⟨W, c⟩, hWc⟩ := Option.isSome_iff_exists.mp hsome
      obtain ⟨hle, hread⟩ := mapTree_lookup_spec T hg k W c hWc
      exact ⟨W, c, hWc, hle, hread⟩
    · intro restBits
      apply fromBits_toVpkTree T ?_ restBits
      intro s hs
      obtain ⟨e, he, heq⟩ := (hc s).mp (sizes_subset_covers T s hs)
      exact heq ▸ hk e he

/-! ### C1 — stage F: match-finder soundness -/

theorem lcpLen_le_left : ∀ a b : List Nat, lcpLen a b ≤ a.length := by
  intro a
  induction a with
  | nil => intro b; rw [show lcpLen [] b = 0 from rfl]; simp
  | cons x xs ih =>
    intro b
    cases b with
    | nil => rw [show lcpLen (x :: xs) [] = 0 from rfl]; simp
    | cons y ys =>
      rw [show lcpLen (x :: xs) (y :: ys) =
        if x = y then lcpLen xs ys + 1 else 0 from rfl]
      split
      · have := ih ys
        simp only [List.length_cons]
        omega
      · simp

theorem lcpLen_le_right : ∀ a b : List Nat, lcpLen a b ≤ b.length := by
  intro a
  induction a with
  | nil => intro b; rw [show lcpLen [] b = 0 from rfl]; simp
  | cons x xs ih =>
    intro b
    cases b with
    | nil => rw [show lcpLen (x :: xs) [] = 0 from rfl]; simp
    | cons y ys =>
      rw [show lcpLen (x :: xs) (y :: ys) =
        if x = y then lcpLen xs ys + 1 else 0 from rfl]
      split
      · have := ih ys
        simp only [List.length_cons]
        omega
      · simp

theorem lcpLen_spec : ∀ (a b : List Nat) (k : Nat), k < lcpLen a b → a[k]? = b[k]? := by
  intro a
  induction a with
  | nil =>
    intro b k h
    rw [show lcpLen [] b = 0 from rfl] at h
    omega
  | cons x xs ih =>
    intro b k h
    cases b with
    | nil =>
      rw [show lcpLen (x :: xs) [] = 0 from rfl] at h
      omega
    | cons y ys =>
      rw [show lcpLen (x :: xs) (y :: ys) =
        if x = y then lcpLen xs ys + 1 else 0 from rfl] at h
      split at h
      · rename_i heq
        cases k with
        | zero => simp [heq]
        | succ k' =>
          simp only [List.getElem?_cons_succ]
          exact ih ys k' (by omega)
      · omega

theorem foldl_preserve {α β : Type} (P : β → Prop) (f : β → α → β) :
    ∀ (l : List α) (acc : β), P acc → (∀ b a, a ∈ l → P b → P (f b a)) →
      P (l.foldl f acc) := by
  intro l
  induction l with
  | nil => intro acc hacc _; exact hacc
  | cons x xs ih =>
    intro acc hacc hf
    exact ih (f acc x) (hf acc x (by simp) hacc)
      (fun b a ha hb => hf b a (by simp [ha]) hb)

/-- Soundness of a match finder: any returned match is a genuine repeat
inside `full` starting `moveback` positions before the window end. -/
def FinderSound (finder : Bufs → LzssSettings → Option MoveBack) : Prop :=
  ∀ (bufs : Bufs) (settings : LzssSettings) (m : MoveBack),
    finder bufs settings = some m →
    1 ≤ m.moveback ∧ m.moveback ≤ bufs.behind.length ∧ m.size ≤ bufs.ahead.length ∧
    ∀ k < m.size, bufs.ahead[k]? = bufs.full[bufs.behind.length - m.moveback + k]?

theorem brute_find_match_sound : FinderSound naiveBruteFinder := by
  intro bufs settings m hm
  rw [naiveBruteFinder, brute_find_match] at hm
  exact foldl_preserve
    (fun best : Option MoveBack => ∀ m', best = some m' →
      1 ≤ m'.moveback ∧ m'.moveback ≤ bufs.behind.length ∧
      m'.size ≤ bufs.ahead.length ∧
      ∀ k < m'.size, bufs.ahead[k]? = bufs.full[bufs.behind.length - m'.moveback + k]?)
    _ _ _ (by intro m' h; cases h)
    (by
      intro best i hi hbest m' hm'
      have hilt : i < bufs.behind.length := List.mem_range.mp hi
      dsimp only at hm'
      set L := min (lcpLen (bufs.full.drop i) bufs.ahead) settings.max_encoded with hL
      have hLr : L ≤ lcpLen (bufs.full.drop i) bufs.ahead := by
        rw [hL]
        exact min_le_left _ _
      have hLahead : L ≤ bufs.ahead.length := le_trans hLr (lcpLen_le_right _ _)
      have hsound : ∀ k < L,
          bufs.ahead[k]? =
            bufs.full[bufs.behind.length - (bufs.behind.length - i) + k]? := by
        intro k hk
        have hsp := lcpLen_spec (bufs.full.drop i) bufs.ahead k (by omega)
        rw [List.getElem?_drop] at hsp
        rw [← hsp]
        congr 1
        omega
      by_cases hlen : settings.max_uncoded + 1 ≤ L
      · rw [if_pos hlen] at hm'
        cases best with
        | none =>
          dsimp only at hm'
          cases hm'
          exact ⟨by dsimp only; omega, by dsimp only; omega, hLahead, hsound⟩
        | some b =>
          dsimp only at hm'
          by_cases hkeep : b.size > L ∨ b.moveback < bufs.behind.length - i
          · rw [if_pos hkeep] at hm'
            cases hm'
            exact hbest m' rfl
          · rw [if_neg hkeep] at hm'
            cases hm'
            exact ⟨by dsimp only; omega, by dsimp only; omega, hLahead, hsound⟩
      · rw [if_neg hlen] at hm'
        exact hbest m' hm')
    m hm

theorem getD_some (l : List Nat) (j : Nat) (h : j < l.length) :
    l[j]? = some (l.getD j 0) := by
  rw [List.getElem?_eq_getElem h, List.getD_eq_getElem l 0 h]

/-- The failure-link property: `lps[j]` is a length of a proper prefix of
`pattern` that also ends at position `j`. -/
def LpsOk (pattern lps : List Nat) : Prop :=
  lps.length = pattern.length ∧
  ∀ j < pattern.length, lps.getD j 0 ≤ j ∧
    ∀ k < lps.getD j 0, pattern[k]? = pattern[j + 1 - lps.getD j 0 + k]?

theorem lpsInner_spec (pattern lps : List Nat) (ch : Nat) (i : Nat)
    (hspec : ∀ j < i, lps.getD j 0 ≤ j ∧
      ∀ k < lps.getD j 0, pattern[k]? = pattern[j + 1 - lps.getD j 0 + k]?) :
    ∀ (fuel pfx : Nat), pfx < fuel → pfx ≤ i →
      (∀ k < pfx, pattern[k]? = pattern[i - pfx + k]?) →
      lpsInner pattern lps ch fuel pfx ≤ pfx ∧
      (∀ k < lpsInner pattern lps ch fuel pfx,
        pattern[k]? = pattern[i - lpsInner pattern lps ch fuel pfx + k]?) ∧
      (lpsInner pattern lps ch fuel pfx = 0 ∨
        pattern.getD (lpsInner pattern lps ch fuel pfx) 0 = ch) := by
  intro fuel
  induction fuel with
  | zero => intro pfx h; omega
  | succ f ih =>
    intro pfx hfuel hpi hwin
    rw [lpsInner]
    by_cases hc : 0 < pfx ∧ pattern.getD pfx 0 ≠ ch
    · rw [if_pos hc]
      obtain ⟨hsle, hswin⟩ := hspec (pfx - 1) (by omega)
      have hwin' : ∀ k < lps.getD (pfx - 1) 0,
          pattern[k]? = pattern[i - lps.getD (pfx - 1) 0 + k]? := by
        intro k hk
        rw [hswin k hk]
        have h1 : pfx - 1 + 1 - lps.getD (pfx - 1) 0 + k < pfx := by omega
        rw [hwin _ h1]
        congr 1
        omega
      have := ih (lps.getD (pfx - 1) 0) (by omega) (by omega) hwin'
      exact ⟨by omega, this.2⟩
    · rw [if_neg hc]
      refine ⟨le_refl _, hwin, ?_⟩
      by_cases h0 : pfx = 0
      · exact .inl h0
      · right
        by_contra hne
        exact hc ⟨by omega, hne⟩

theorem lpsGo_spec (pattern : List Nat) :
    ∀ (rest : List Nat) (i : Nat) (lps : List Nat) (pfx : Nat),
      rest = pattern.drop i → 1 ≤ i →
      lps.length = pattern.length →
      (∀ j < i, lps.getD j 0 ≤ j ∧
        ∀ k < lps.getD j 0, pattern[k]? = pattern[j + 1 - lps.getD j 0 + k]?) →
      (∀ j, i ≤ j → j < pattern.length → lps.getD j 0 = 0) →
      pfx ≤ i - 1 →
      (∀ k < pfx, pattern[k]? = pattern[i - pfx + k]?) →
      LpsOk pattern (lpsGo pattern rest i lps pfx) := by
  intro rest
  induction rest with
  | nil =>
    intro i lps pfx hrest hi hlen hpast hfuture hple hwin
    rw [lpsGo]
    refine ⟨hlen, fun j hj => ?_⟩
    have hleni : pattern.length ≤ i := by
      have := congrArg List.length hrest
      simp [List.length_drop] at this
      omega
    exact hpast j (by omega)
  | cons ch rest' ih =>
    intro i lps pfx hrest hi hlen hpast hfuture hple hwin
    have hilt : i < pattern.length := by
      have := congrArg List.length hrest
      simp [List.length_drop] at this
      omega
    have hchr : pattern[i]? = some ch := by
      have h0 : (pattern.drop i)[0]? = some ch := by
        rw [← hrest]
        simp
      rwa [List.getElem?_drop, Nat.add_zero] at h0
    have hrest' : rest' = pattern.drop (i + 1) := by
      have : pattern.drop (i + 1) = (pattern.drop i).drop 1 := by
        rw [List.drop_drop, Nat.add_comm]
      rw [this, ← hrest]
      simp
    rw [lpsGo]
    have hwin1 : ∀ k < pfx, pattern[k]? = pattern[i - pfx + k]? := hwin
    obtain ⟨hle1, hwin2, hend⟩ := lpsInner_spec pattern lps ch i hpast (pfx + 1) pfx
      (by omega) (by omega) hwin1
    set pfx1 := lpsInner pattern lps ch (pfx + 1) pfx with hpfx1
    by_cases hmatch : pattern.getD pfx1 0 = ch
    · rw [if_pos hmatch]
      apply ih (i + 1) (lps.set i (pfx1 + 1)) (pfx1 + 1) hrest' (by omega)
        (by rw [List.length_set]; exact hlen)
      · -- past spec for all j < i + 1
        intro j hj
        by_cases hji : j = i
        · subst hji
          have hgetD : (lps.set j (pfx1 + 1)).getD j 0 = pfx1 + 1 := by
            rw [List.getD_eq_getElem?_getD, List.getElem?_set_self (by omega)]
            rfl
          rw [hgetD]
          refine ⟨by omega, fun k hk => ?_⟩
          by_cases hkp : k < pfx1
          · have := hwin2 k hkp
            rw [this]
            congr 1
            omega
          · have hkeq : k = pfx1 := by omega
            have hm2 : pattern[pfx1]? = some ch :=
              (getD_some pattern pfx1 (by omega)).trans (congrArg some hmatch)
            rw [show j + 1 - (pfx1 + 1) + k = j from by omega, hchr, hkeq, hm2]
        · have hgetD : (lps.set i (pfx1 + 1)).getD j 0 = lps.getD j 0 := by
            rw [List.getD_eq_getElem?_getD, List.getElem?_set_ne (by omega),
              ← List.getD_eq_getElem?_getD]
          rw [hgetD]
          exact hpast j (by omega)
      · -- future zeros
        intro j hj hjlen
        have hgetD : (lps.set i (pfx1 + 1)).getD j 0 = lps.getD j 0 := by
          rw [List.getD_eq_getElem?_getD, List.getElem?_set_ne (by omega),
            ← List.getD_eq_getElem?_getD]
        rw [hgetD]
        exact hfuture j (by omega) hjlen
      · omega
      · -- window for i + 1 with pfx1 + 1
        intro k hk
        by_cases hkp : k < pfx1
        · have := hwin2 k hkp
          rw [this]
          congr 1
          omega
        · have hkeq : k = pfx1 := by omega
          have hm2 : pattern[pfx1]? = some ch :=
            (getD_some pattern pfx1 (by omega)).trans (congrArg some hmatch)
          rw [show i + 1 - (pfx1 + 1) + k = i from by omega, hchr, hkeq, hm2]
    · rw [if_neg hmatch]
      have hpfx0 : pfx1 = 0 := by
        rcases hend with h | h
        · exact h
        · exact absurd h hmatch
      apply ih (i + 1) lps pfx1 hrest' (by omega) hlen
      · intro j hj
        by_cases hji : j = i
        · subst hji
          rw [hfuture j (le_refl _) hilt]
          exact ⟨by omega, fun k hk => by omega⟩
        · exact hpast j (by omega)
      · intro j hj hjlen
        exact hfuture j (by omega) hjlen
      · omega
      · intro k hk
        rw [hpfx0] at hk
        omega

theorem compute_lps_ok (pattern : List Nat) : LpsOk pattern (compute_lps pattern) := by
  rw [compute_lps]
  apply lpsGo_spec pattern (pattern.drop 1) 1 (List.replicate pattern.length 0) 0 rfl
    (le_refl 1) (by simp)
  · intro j hj
    have hj0 : j = 0 := by omega
    subst hj0
    constructor
    · cases pattern with
      | nil => rfl
      | cons x xs => rfl
    · intro k hk
      cases pattern with
      | nil => simp at hk
      | cons x xs => simp at hk
  · intro j hj hjlen
    rw [List.getD_eq_getElem?_getD, List.getElem?_replicate_of_lt hjlen]
    rfl
  · omega
  · intro k hk
    omega

theorem kmpGo_sound (full ahead lps : List Nat) (ws mx : Nat) (rl : Bool)
    (hlps : LpsOk ahead lps) :
    ∀ (fuel t p : Nat) (best : Option MoveBack),
      p ≤ t →
      (∀ k < p, ahead[k]? = full[t - p + k]?) →
      (∀ m, best = some m → 1 ≤ m.moveback ∧ m.moveback ≤ ws ∧
        m.size ≤ ahead.length ∧ ∀ k < m.size, ahead[k]? = full[ws - m.moveback + k]?) →
      ∀ m, kmpGo full ahead lps ws ahead.length mx rl fuel t p best = some m →
        1 ≤ m.moveback ∧ m.moveback ≤ ws ∧ m.size ≤ ahead.length ∧
        ∀ k < m.size, ahead[k]? = full[ws - m.moveback + k]? := by
  intro fuel
  induction fuel with
  | zero =>
    intro t p best _ _ hbest m hm
    rw [kmpGo] at hm
    exact hbest m hm
  | succ f ih =>
    intro t p best hpt hwin hbest m hm
    rw [kmpGo] at hm
    by_cases hcond : p < ahead.length ∧ t < ws
    · rw [if_pos hcond] at hm
      dsimp only at hm
      set nm := min (lcpLen (full.drop t) (ahead.drop p)) (mx - p) with hnm
      have hnm_lcp : nm ≤ lcpLen (full.drop t) (ahead.drop p) := min_le_left _ _
      have hms_le : nm + p ≤ ahead.length := by
        have h2 := lcpLen_le_right (full.drop t) (ahead.drop p)
        rw [List.length_drop] at h2
        omega
      have hfullwin : ∀ k < nm + p, ahead[k]? = full[t - p + k]? := by
        intro k hk
        by_cases hkp : k < p
        · exact hwin k hkp
        · have h2 : k - p < lcpLen (full.drop t) (ahead.drop p) := by omega
          have hsp := lcpLen_spec (full.drop t) (ahead.drop p) (k - p) h2
          rw [List.getElem?_drop, List.getElem?_drop] at hsp
          rw [show t - p + k = t + (k - p) from by omega, hsp]
          congr 1
          omega
      have hSoundNew : ∀ m', some (⟨nm + p, ws - (t - p)⟩ : MoveBack) = some m' →
          1 ≤ m'.moveback ∧ m'.moveback ≤ ws ∧ m'.size ≤ ahead.length ∧
          ∀ k < m'.size, ahead[k]? = full[ws - m'.moveback + k]? := by
        intro m' hm'
        cases hm'
        refine ⟨by dsimp only; omega, by dsimp only; omega, hms_le, ?_⟩
        intro k hk
        dsimp only at hk ⊢
        rw [show ws - (ws - (t - p)) = t - p from by omega]
        exact hfullwin k hk
      have hidxlt : nm + p - 1 < ahead.length := by omega
      obtain ⟨hp'le, hp'win⟩ := hlps.2 (nm + p - 1) hidxlt
      have hPTf : lps.getD (nm + p - 1) 0 ≤ t + (if p = 0 then max (nm + p) 1 else nm) := by
        by_cases hp0 : p = 0
        · rw [if_pos hp0]
          have := le_max_right (nm + p) 1
          omega
        · rw [if_neg hp0]
          omega
      have hWINf : ∀ k < lps.getD (nm + p - 1) 0,
          ahead[k]? = full[t + (if p = 0 then max (nm + p) 1 else nm) -
            lps.getD (nm + p - 1) 0 + k]? := by
        intro k hk
        have hms1 : 1 ≤ nm + p := by
          by_contra hc
          have h0 : nm + p = 0 := by omega
          rw [h0] at hp'le hk
          simp at hp'le hk
          omega
        have hw1 := hp'win k hk
        have hidx2 : nm + p - 1 + 1 - lps.getD (nm + p - 1) 0 + k < nm + p := by omega
        have hw2 := hfullwin _ hidx2
        rw [hw1, hw2]
        congr 1
        by_cases hp0 : p = 0
        · rw [if_pos hp0]
          have hmx : max (nm + p) 1 = max nm 1 := by rw [hp0, Nat.add_zero]
          rw [hmx]
          have h1 := le_max_left nm 1
          have h2 := le_max_right nm 1
          have h3 : nm = 0 ∨ max nm 1 = nm := by
            rcases Nat.eq_zero_or_pos nm with h | h
            · exact .inl h
            · right
              exact max_eq_left h
          omega
        · rw [if_neg hp0]
          omega
      have hPTt : (0 : Nat) ≤ t + (lps_partial_skip (lps.take (nm + p - 1)) + 1) :=
        Nat.zero_le _
      have hWINt : ∀ k < 0,
          ahead[k]? =
            full[t + (lps_partial_skip (lps.take (nm + p - 1)) + 1) - 0 + k]? := by
        intro k hk
        omega
      cases best with
      | none =>
        dsimp only at hm
        cases rl with
        | true =>
          rw [if_pos rfl] at hm
          exact ih _ 0 _ hPTt hWINt hSoundNew m hm
        | false =>
          rw [if_neg (by simp)] at hm
          exact ih _ _ _ hPTf hWINf hSoundNew m hm
      | some b =>
        dsimp only at hm
        by_cases hbs : b.size > nm + p
        · rw [if_pos hbs] at hm
          have hSoundKeep : ∀ m', some b = some m' →
              1 ≤ m'.moveback ∧ m'.moveback ≤ ws ∧ m'.size ≤ ahead.length ∧
              ∀ k < m'.size, ahead[k]? = full[ws - m'.moveback + k]? := by
            intro m' hm'
            cases hm'
            exact hbest _ rfl
          cases rl with
          | true =>
            rw [if_pos rfl] at hm
            exact ih _ 0 _ hPTt hWINt hSoundKeep m hm
          | false =>
            rw [if_neg (by simp)] at hm
            exact ih _ _ _ hPTf hWINf hSoundKeep m hm
        · rw [if_neg hbs] at hm
          cases rl with
          | true =>
            rw [if_pos rfl] at hm
            exact ih _ 0 _ hPTt hWINt hSoundNew m hm
          | false =>
            rw [if_neg (by simp)] at hm
            exact ih _ _ _ hPTf hWINf hSoundNew m hm
    · rw [if_neg hcond] at hm
      exact hbest m hm

theorem find_kmp_sound (bufs : Bufs) (mx : Nat) (rl : Bool) (m : MoveBack)
    (hm : find_kmp bufs mx rl = some m) :
    1 ≤ m.moveback ∧ m.moveback ≤ bufs.behind.length ∧ m.size ≤ bufs.ahead.length ∧
    ∀ k < m.size, bufs.ahead[k]? = bufs.full[bufs.behind.length - m.moveback + k]? := by
  rw [find_kmp] at hm
  exact kmpGo_sound bufs.full bufs.ahead (compute_lps bufs.ahead) bufs.behind.length
    mx rl (compute_lps_ok bufs.ahead) _ 0 0 none (le_refl 0)
    (by intro k hk; omega) (by intro m' h; cases h) m hm

theorem kmp_standard_sound : FinderSound kmpStandardFinder := by
  intro bufs settings m hm
  exact find_kmp_sound bufs settings.max_encoded false m hm

theorem kmp_lookahead_sound : FinderSound kmpLookAheadFinder := by
  intro bufs settings m hm
  exact find_kmp_sound bufs settings.max_encoded true m hm

theorem backend_finder_sound (backend : LzssBackend) : FinderSound backend.finder := by
  cases backend with
  | brute => exact brute_find_match_sound
  | kmp => exact kmp_standard_sound
  | kmpAhead => exact kmp_lookahead_sound

/-! ### C1 — stage G: the sliding dictionary against the input -/

theorem take_drop_take {α : Type} (l : List α) (s a m : Nat) :
    ((l.take a).drop s).take m = (l.take (min (s + m) a)).drop s := by
  rw [List.take_drop, List.take_take]

theorem drop_drop' {α : Type} (l : List α) (s a : Nat) :
    (l.drop s).drop a = l.drop (s + a) := by
  rw [List.drop_drop, Nat.add_comm]

theorem slice_glue {α : Type} (l : List α) (s a b : Nat) (h1 : s ≤ a) (h2 : a ≤ b) :
    (l.take a).drop s ++ (l.take b).drop a = (l.take b).drop s := by
  by_cases hc : s ≤ ((l.take b).take a).length
  · conv_rhs =>
      rw [show l.take b = (l.take b).take a ++ (l.take b).drop a from
        (List.take_append_drop a _).symm]
    rw [List.drop_append_of_le_length hc, List.take_take, min_eq_left h2]
  · rw [List.length_take, List.length_take] at hc
    have hlen : l.length < s := by omega
    have e1 : (l.take a).drop s = [] := by
      rw [List.drop_eq_nil_iff, List.length_take]
      omega
    have e2 : (l.take b).drop a = [] := by
      rw [List.drop_eq_nil_iff, List.length_take]
      omega
    have e3 : (l.take b).drop s = [] := by
      rw [List.drop_eq_nil_iff, List.length_take]
      omega
    rw [e1, e2, e3]
    rfl

theorem slice_getElem {α : Type} (l : List α) (f s k : Nat) (h : s + k < f) :
    ((l.take f).drop s)[k]? = l[s + k]? := by
  rw [List.getElem?_drop, List.getElem?_take_of_lt h]

theorem slice_length {α : Type} (l : List α) (f s : Nat) :
    ((l.take f).drop s).length = min f l.length - s := by
  rw [List.length_drop, List.length_take]

/-- The representation invariant tying a `SlidingDict` at default
settings to the input and the number of bytes consumed so far. -/
def DictInv (input : List Nat) (pos : Nat) (d : SlidingDict) : Prop :=
  d.window = 65535 ∧ d.lookahead = 255 ∧ d.buf_size = 65790 ∧ d.max_ahead = 265 ∧
  d.csr = min pos 65535 ∧
  d.buf = (input.take (min (pos + 265) input.length)).drop (pos - 65535) ∧
  d.rest = input.drop (pos + 265) ∧
  (d.more_to_read = true ↔ pos + 265 ≤ input.length) ∧
  d.total_read = min (pos + 265) input.length ∧
  pos ≤ input.length

theorem dictInv_new (input : List Nat) :
    DictInv input 0 (SlidingDict.new input LzssSettings.default) := by
  refine ⟨rfl, rfl, rfl, rfl, by simp [SlidingDict.new], ?_, rfl, ?_, ?_, by omega⟩
  · show input.take 265 = (input.take (min (0 + 265) input.length)).drop (0 - 65535)
    rw [show (0 : Nat) - 65535 = 0 from rfl, List.drop_zero,
      show (0 : Nat) + 265 = 265 from rfl]
    rcases Nat.le_total 265 input.length with h | h
    · rw [min_eq_left h]
    · rw [min_eq_right h, List.take_of_length_le h, List.take_of_length_le (by omega)]
  · show decide (265 ≤ min input.length 265) = true ↔ 0 + 265 ≤ input.length
    rw [decide_eq_true_eq]
    omega
  · show min input.length 265 = min (0 + 265) input.length
    omega

theorem take_min_len {α : Type} (l : List α) (X : Nat) :
    l.take X = l.take (min X l.length) := by
  rcases Nat.le_total X l.length with h | h
  · rw [min_eq_left h]
  · rw [min_eq_right h, List.take_of_length_le h, List.take_of_length_le (by omega)]

set_option maxRecDepth 20000 in
theorem dict_ahead_eq (input : List Nat) (pos : Nat) (d : SlidingDict)
    (hinv : DictInv input pos d) :
    d.ahead = (input.take (min (min (pos + 265) input.length)
      (pos - 65535 + 65790))).drop pos := by
  obtain ⟨hw, hl, hbs, hma, hcsr, hbuf, hrest, hmore, htot, hpos⟩ := hinv
  rw [SlidingDict.ahead, hbuf, hcsr, hbs, slice_length, take_drop_take, drop_drop']
  clear hw hl hma hcsr hbuf hrest hmore htot hbs
  exact congrArg₂ (fun a b => List.drop a (List.take b input)) (by omega) (by omega)

set_option maxRecDepth 20000 in
theorem dict_remaining_eq (input : List Nat) (pos : Nat) (d : SlidingDict)
    (hinv : DictInv input pos d) :
    d.remaining = min (min (pos + 265) input.length) (pos - 65535 + 65790) - pos := by
  rw [SlidingDict.remaining, dict_ahead_eq input pos d hinv, slice_length]
  have hpos := hinv.2.2.2.2.2.2.2.2.2
  omega

set_option maxRecDepth 20000 in
theorem dict_remaining_zero (input : List Nat) (pos : Nat) (d : SlidingDict)
    (hinv : DictInv input pos d) (h : d.remaining = 0) : pos = input.length := by
  rw [dict_remaining_eq input pos d hinv] at h
  have hpos := hinv.2.2.2.2.2.2.2.2.2
  omega

set_option maxRecDepth 20000 in
theorem dict_remaining_pos (input : List Nat) (pos : Nat) (d : SlidingDict)
    (hinv : DictInv input pos d) (h : pos < input.length) : 0 < d.remaining := by
  rw [dict_remaining_eq input pos d hinv]
  omega

set_option maxRecDepth 20000 in
theorem dict_next_byte (input : List Nat) (pos : Nat) (d : SlidingDict)
    (hinv : DictInv input pos d) (h : pos < input.length) :
    d.next_uncoded_byte = input[pos]? := by
  rw [SlidingDict.next_uncoded_byte, dict_ahead_eq input pos d hinv]
  rw [List.head?_eq_getElem?, List.getElem?_drop, List.getElem?_take_of_lt (by omega),
    Nat.add_zero]

set_option maxRecDepth 20000 in
theorem dict_offset_csr_eq (input : List Nat) (pos : Nat) (d : SlidingDict) (n : Nat)
    (hinv : DictInv input pos d) (hn : n ≤ 265) (hlen : pos + n ≤ input.length) :
    d.offset_csr n = ⟨
      (input.take (min (min (pos + 265) input.length)
        (pos - 65535 + (65790 + n)))).drop (pos + n),
      (input.take (pos + n)).drop (pos + n - 65535),
      (input.take (min (min (pos + 265) input.length)
        (pos - 65535 + (65790 + n)))).drop (pos + n - 65535)⟩ := by
  obtain ⟨hw, hl, hbs, hma, hcsr, hbuf, hrest, hmore, htot, hpos⟩ := hinv
  rw [SlidingDict.offset_csr, hbuf, hcsr, hbs, hw]
  rw [Bufs.mk.injEq, slice_length]
  clear hw hl hma hcsr hbuf hrest hmore htot hbs
  refine ⟨?_, ?_, ?_⟩
  · rw [take_drop_take, drop_drop']
    exact congrArg₂ (fun a b => List.drop a (List.take b input)) (by omega) (by omega)
  · rw [take_drop_take, drop_drop']
    exact congrArg₂ (fun a b => List.drop a (List.take b input)) (by omega) (by omega)
  · rw [take_drop_take, drop_drop']
    exact congrArg₂ (fun a b => List.drop a (List.take b input)) (by omega) (by omega)

set_option maxRecDepth 20000 in
theorem dictInv_advance (input : List Nat) (pos : Nat) (d : SlidingDict) (nn : Nat)
    (hinv : DictInv input pos d) (hnn : 1 ≤ nn) (hnn2 : nn ≤ 265)
    (hcov : pos + nn ≤ input.length) :
    DictInv input (pos + nn) (d.advance_by nn) := by
  obtain ⟨hw, hl, hbs, hma, hcsr, hbuf, hrest, hmore, htot, hpos⟩ := hinv
  rw [SlidingDict.advance_by]
  cases hmt : d.more_to_read with
  | true =>
    have hLge : pos + 265 ≤ input.length := hmore.mp hmt
    rw [if_pos rfl]
    refine ⟨hw, hl, hbs, hma, ?_, ?_, ?_, ?_, ?_, hcov⟩
    · dsimp only
      rw [hcsr, hw]
      clear hw hl hbs hma hcsr hbuf hrest hmore htot
      omega
    · dsimp only
      rw [hbuf, hrest, hw, hcsr, drop_drop', List.take_drop]
      clear hw hl hbs hma hcsr hbuf hrest hmore htot
      rw [show min (pos + 265) input.length = pos + 265 from by omega,
        slice_glue input _ _ _ (by omega) (by omega),
        take_min_len input (pos + 265 + nn)]
      exact congrArg₂ (fun a b => List.drop a (List.take b input)) (by omega) (by omega)
    · dsimp only
      rw [hrest, drop_drop']
      clear hw hl hbs hma hcsr hbuf hrest hmore htot
      exact congrArg (fun a => List.drop a input) (by omega)
    · dsimp only
      rw [hrest, List.length_drop]
      clear hw hl hbs hma hcsr hbuf hrest hmore htot
      by_cases hcnd : min nn (input.length - (pos + 265)) < nn ∨
          min nn (input.length - (pos + 265)) = 0
      · rw [if_pos hcnd]
        constructor
        · intro h
          cases h
        · intro h
          omega
      · rw [if_neg hcnd]
        constructor
        · intro _
          omega
        · intro
          rfl
    · dsimp only
      rw [hrest, List.length_drop, htot]
      clear hw hl hbs hma hcsr hbuf hrest hmore htot
      omega
  | false =>
    have hLlt : ¬(pos + 265 ≤ input.length) := by
      intro h
      have h2 := hmore.mpr h
      rw [hmt] at h2
      cases h2
    rw [if_neg (by simp)]
    refine ⟨hw, hl, hbs, hma, ?_, ?_, ?_, ?_, ?_, hcov⟩
    · dsimp only
      rw [hcsr, hw]
      clear hw hl hbs hma hcsr hbuf hrest hmore htot
      omega
    · dsimp only
      rw [hbuf, hw, hcsr, drop_drop']
      clear hw hl hbs hma hcsr hbuf hrest hmore htot
      exact congrArg₂ (fun a b => List.drop a (List.take b input)) (by omega) (by omega)
    · dsimp only
      rw [hrest]
      clear hw hl hbs hma hcsr hbuf hrest hmore htot
      have h1 : input.drop (pos + 265) = [] := by
        rw [List.drop_eq_nil_iff]
        omega
      have h2 : input.drop (pos + nn + 265) = [] := by
        rw [List.drop_eq_nil_iff]
        omega
      rw [h1, h2]
    · dsimp only
      clear hw hl hbs hma hcsr hbuf hrest hmore htot
      constructor
      · intro h
        cases h
      · intro h
        omega
    · dsimp only
      rw [htot]
      clear hw hl hbs hma hcsr hbuf hrest hmore htot
      omega


/-- The token the encoder emits for a back-reference of `size` bytes at
distance `mb`, per method. -/
def tokOf (method : VpkMethod) (size mb : Nat) : LzssByte :=
  match method with
  | .oneSample => LzssByte.encoded size mb
  | .twoSample => LzssByte.encTwoSample size (TwoSample.ofOffset mb)

/-- Token streams the encoder emits from a position, every token justified
against the input bytes. -/
inductive Toks (input : List Nat) (method : VpkMethod) : Nat → List LzssByte → Prop where
  | nil (pos : Nat) (h : pos = input.length) : Toks input method pos []
  | lit (pos : Nat) (b : Nat) (rest : List LzssByte)
      (hb : input[pos]? = some b) (h : Toks input method (pos + 1) rest) :
      Toks input method pos (.uncoded b :: rest)
  | back (pos size mb : Nat) (rest : List LzssByte)
      (h1 : 1 ≤ mb) (h2 : mb ≤ pos) (h3 : 3 ≤ size) (h4 : pos + size ≤ input.length)
      (hmatch : ∀ k < size, input[pos + k]? = input[pos - mb + k]?)
      (h : Toks input method (pos + size) rest) :
      Toks input method pos (tokOf method size mb :: rest)

theorem toks_lits (input : List Nat) (method : VpkMethod) :
    ∀ (sk : List Nat) (pos : Nat) (rest : List LzssByte),
      (∀ i < sk.length, input[pos + i]? = sk[i]?) →
      Toks input method (pos + sk.length) rest →
      Toks input method pos (sk.map LzssByte.uncoded ++ rest) := by
  intro sk
  induction sk with
  | nil =>
    intro pos rest _ h
    simpa using h
  | cons b sk' ih =>
    intro pos rest hbytes h
    rw [List.map_cons, List.cons_append]
    refine Toks.lit pos b _ ?_ ?_
    · have := hbytes 0 (by simp)
      simpa using this
    · refine ih (pos + 1) rest ?_ ?_
      · intro i hi
        have := hbytes (i + 1) (by simp; omega)
        rw [show pos + (i + 1) = pos + 1 + i from by omega] at this
        simpa using this
      · rw [show pos + 1 + sk'.length = pos + (b :: sk').length from by simp; omega]
        exact h

theorem nearby_matched_facts (finder : Bufs → LzssSettings → Option MoveBack)
    (dict : SlidingDict) (settings : LzssSettings) (skipped : List Nat) (m : MoveBack)
    (h : look_for_nearby_best_match dict settings finder = .matched skipped m) :
    ∃ o, o < min MAX_AHEAD_CHECK dict.ahead.length ∧ skipped = dict.ahead.take o ∧
      finder (dict.offset_csr o) settings = some m ∧ settings.max_uncoded < m.size := by
  rw [look_for_nearby_best_match] at h
  cases hng : nearbyGo finder dict settings (min MAX_AHEAD_CHECK dict.ahead.length)
      (min MAX_AHEAD_CHECK dict.ahead.length + 1) 0 0 none with
  | none =>
    rw [hng] at h
    exact LookAhead.noConfusion h
  | some p =>
    obtain ⟨o, mm⟩ := p
    rw [hng] at h
    rw [LookAhead.matched.injEq] at h
    obtain ⟨hsk, hm⟩ := h
    have hacc := nearbyGo_sound finder dict settings _ _ 0 0 none o mm hng
      (fun _ => ⟨rfl, rfl⟩) (fun s₀ m₀ hcontra => Option.noConfusion hcontra)
    obtain ⟨ha1, ha2, ha3, _⟩ := hacc
    exact ⟨o, ha2, hsk.symm, hm ▸ ha3, hm ▸ ha1⟩

/-! Histogram bookkeeping. -/

def histHasKey (h : List (Nat × Nat)) (k : Nat) : Prop := ∃ e ∈ h, e.1 = k

theorem bumpFreq_has : ∀ (h : List (Nat × Nat)) (k : Nat), histHasKey (bumpFreq h k) k := by
  intro h k
  induction h with
  | nil => exact ⟨(k, 1), by simp [bumpFreq]⟩
  | cons e rest ih =>
    obtain ⟨k', f⟩ := e
    rw [bumpFreq]
    by_cases hk : k' = k
    · rw [if_pos hk]
      exact ⟨(k', f + 1), by simp, hk⟩
    · rw [if_neg hk]
      obtain ⟨e', he', hk'⟩ := ih
      exact ⟨e', by simp [he'], hk'⟩

theorem bumpFreq_mono : ∀ (h : List (Nat × Nat)) (k k' : Nat),
    histHasKey h k' → histHasKey (bumpFreq h k) k' := by
  intro h k
  induction h with
  | nil =>
    intro k' hh
    obtain ⟨e, he, _⟩ := hh
    cases he
  | cons e rest ih =>
    obtain ⟨k0, f⟩ := e
    intro k' hh
    rw [bumpFreq]
    by_cases hk : k0 = k
    · rw [if_pos hk]
      obtain ⟨e', he', hk'⟩ := hh
      rcases List.mem_cons.mp he' with rfl | he'
      · exact ⟨(k0, f + 1), by simp, hk'⟩
      · exact ⟨e', by simp [he'], hk'⟩
    · rw [if_neg hk]
      obtain ⟨e', he', hk'⟩ := hh
      rcases List.mem_cons.mp he' with rfl | he'
      · exact ⟨(k0, f), by simp, hk'⟩
      · obtain ⟨e'', he'', hk''⟩ := ih k' ⟨e', he', hk'⟩
        exact ⟨e'', by simp [he''], hk''⟩

theorem bumpFreq_bound : ∀ (h : List (Nat × Nat)) (k : Nat),
    (∀ e ∈ h, e.1 < 256) → k < 256 → ∀ e ∈ bumpFreq h k, e.1 < 256 := by
  intro h k
  induction h with
  | nil =>
    intro _ hk e he
    rw [bumpFreq] at he
    rcases List.mem_singleton.mp he with rfl
    exact hk
  | cons e0 rest ih =>
    obtain ⟨k0, f⟩ := e0
    intro hb hk e he
    rw [bumpFreq] at he
    by_cases hk0 : k0 = k
    · rw [if_pos hk0] at he
      rcases List.mem_cons.mp he with rfl | he
      · exact hb (k0, f) (by simp)
      · exact hb e (by simp [he])
    · rw [if_neg hk0] at he
      rcases List.mem_cons.mp he with rfl | he
      · exact hb (k0, f) (by simp)
      · exact ih (fun e' he' => hb e' (by simp [he'])) hk e he

theorem countNeededBitsGo_le (fuel : Nat) : ∀ v : Nat, countNeededBitsGo fuel v ≤ fuel := by
  induction fuel with
  | zero => intro v; rw [countNeededBitsGo]
  | succ f ih =>
    intro v
    rw [countNeededBitsGo]
    split
    · omega
    · have := ih (v / 2)
      omega

theorem count_needed_bits_lt256 (v : Nat) : count_needed_bits v < 256 := by
  have := countNeededBitsGo_le 64 v
  rw [count_needed_bits]
  omega

/-- Per-token histogram coverage. -/
def TokCovered (sizeh mbh : List (Nat × Nat)) : LzssByte → Prop
  | .uncoded _ => True
  | .encoded size off => histHasKey sizeh (count_needed_bits size) ∧
      histHasKey mbh (count_needed_bits off)
  | .encTwoSample size sample =>
      histHasKey sizeh (count_needed_bits size) ∧
      ∀ v ∈ sample.wire, histHasKey mbh (count_needed_bits v)

theorem tokCovered_mono (sizeh mbh sizeh' mbh' : List (Nat × Nat)) (t : LzssByte)
    (hs : ∀ k, histHasKey sizeh k → histHasKey sizeh' k)
    (hm : ∀ k, histHasKey mbh k → histHasKey mbh' k) :
    TokCovered sizeh mbh t → TokCovered sizeh' mbh' t := by
  cases t with
  | uncoded b => intro _; trivial
  | encoded size off => exact fun h => ⟨hs _ h.1, hm _ h.2⟩
  | encTwoSample size sample => exact fun h => ⟨hs _ h.1, fun v hv => hm _ (h.2 v hv)⟩

/-- The pass invariant: every emitted token's widths are keys of the
histograms and all keys are byte-sized. -/
def PassOk (p : LzssPass) : Prop :=
  (∀ t ∈ p.buf, TokCovered p.size_bitfreq p.moveback_bitfreq t) ∧
  (∀ e ∈ p.size_bitfreq, e.1 < 256) ∧
  (∀ e ∈ p.moveback_bitfreq, e.1 < 256)

theorem passOk_empty : PassOk LzssPass.empty := by
  refine ⟨?_, ?_, ?_⟩ <;> intro t ht <;> cases ht

theorem passOk_add_uncoded (p : LzssPass) (b : Nat) (hp : PassOk p) :
    PassOk (p.add_uncoded b) := by
  obtain ⟨h1, h2, h3⟩ := hp
  refine ⟨?_, h2, h3⟩
  intro t ht
  rw [LzssPass.add_uncoded] at ht ⊢
  dsimp only at ht ⊢
  rcases List.mem_append.mp ht with ht | ht
  · exact h1 t ht
  · rcases List.mem_singleton.mp ht with rfl
    trivial

theorem passOk_foldl_uncoded (sk : List Nat) :
    ∀ (p : LzssPass), PassOk p → PassOk (sk.foldl LzssPass.add_uncoded p) := by
  induction sk with
  | nil => intro p hp; exact hp
  | cons b sk' ih => intro p hp; exact ih _ (passOk_add_uncoded p b hp)

theorem foldl_uncoded_fields (sk : List Nat) :
    ∀ p : LzssPass, (sk.foldl LzssPass.add_uncoded p).buf =
        p.buf ++ sk.map LzssByte.uncoded ∧
      (sk.foldl LzssPass.add_uncoded p).size_bitfreq = p.size_bitfreq ∧
      (sk.foldl LzssPass.add_uncoded p).moveback_bitfreq = p.moveback_bitfreq ∧
      (sk.foldl LzssPass.add_uncoded p).decompressed_size = p.decompressed_size := by
  induction sk with
  | nil => intro p; simp
  | cons b sk' ih =>
    intro p
    obtain ⟨i1, i2, i3, i4⟩ := ih (p.add_uncoded b)
    rw [List.foldl_cons, i1, i2, i3, i4]
    refine ⟨?_, rfl, rfl, rfl⟩
    rw [LzssPass.add_uncoded]
    simp

/-! Field equations for `LzssPass.add`, one token shape at a time. -/

theorem add_unc_buf (p : LzssPass) (b : Nat) :
    (p.add (.uncoded b)).buf = p.buf ++ [LzssByte.uncoded b] := rfl

theorem add_unc_sizeh (p : LzssPass) (b : Nat) :
    (p.add (.uncoded b)).size_bitfreq = p.size_bitfreq := rfl

theorem add_unc_mbh (p : LzssPass) (b : Nat) :
    (p.add (.uncoded b)).moveback_bitfreq = p.moveback_bitfreq := rfl

theorem add_enc_buf (p : LzssPass) (size off : Nat) :
    (p.add (.encoded size off)).buf = p.buf ++ [LzssByte.encoded size off] := rfl

theorem add_enc_sizeh (p : LzssPass) (size off : Nat) :
    (p.add (.encoded size off)).size_bitfreq =
      bumpFreq p.size_bitfreq (count_needed_bits size) := rfl

theorem add_enc_mbh (p : LzssPass) (size off : Nat) :
    (p.add (.encoded size off)).moveback_bitfreq =
      bumpFreq p.moveback_bitfreq (count_needed_bits off) := rfl

theorem add_two1_buf (p : LzssPass) (size o : Nat) :
    (p.add (.encTwoSample size (.one o))).buf =
      p.buf ++ [LzssByte.encTwoSample size (.one o)] := rfl

theorem add_two1_sizeh (p : LzssPass) (size o : Nat) :
    (p.add (.encTwoSample size (.one o))).size_bitfreq =
      bumpFreq p.size_bitfreq (count_needed_bits size) := rfl

theorem add_two1_mbh (p : LzssPass) (size o : Nat) :
    (p.add (.encTwoSample size (.one o))).moveback_bitfreq =
      bumpFreq p.moveback_bitfreq (count_needed_bits o) := rfl

theorem add_two2_buf (p : LzssPass) (size a b : Nat) :
    (p.add (.encTwoSample size (.two a b))).buf =
      p.buf ++ [LzssByte.encTwoSample size (.two a b)] := rfl

theorem add_two2_sizeh (p : LzssPass) (size a b : Nat) :
    (p.add (.encTwoSample size (.two a b))).size_bitfreq =
      bumpFreq p.size_bitfreq (count_needed_bits size) := rfl

theorem add_two2_mbh (p : LzssPass) (size a b : Nat) :
    (p.add (.encTwoSample size (.two a b))).moveback_bitfreq =
      bumpFreq (bumpFreq p.moveback_bitfreq (count_needed_bits a))
        (count_needed_bits b) := rfl

theorem add_sizeh_mono (p : LzssPass) (t : LzssByte) (k : Nat) :
    histHasKey p.size_bitfreq k → histHasKey (p.add t).size_bitfreq k := by
  intro hk
  cases t with
  | uncoded b => rw [add_unc_sizeh]; exact hk
  | encoded size off => rw [add_enc_sizeh]; exact bumpFreq_mono _ _ _ hk
  | encTwoSample size sample =>
    cases sample with
    | one o => rw [add_two1_sizeh]; exact bumpFreq_mono _ _ _ hk
    | two a b => rw [add_two2_sizeh]; exact bumpFreq_mono _ _ _ hk

theorem add_mbh_mono (p : LzssPass) (t : LzssByte) (k : Nat) :
    histHasKey p.moveback_bitfreq k → histHasKey (p.add t).moveback_bitfreq k := by
  intro hk
  cases t with
  | uncoded b => rw [add_unc_mbh]; exact hk
  | encoded size off => rw [add_enc_mbh]; exact bumpFreq_mono _ _ _ hk
  | encTwoSample size sample =>
    cases sample with
    | one o => rw [add_two1_mbh]; exact bumpFreq_mono _ _ _ hk
    | two a b => rw [add_two2_mbh]; exact bumpFreq_mono _ _ _ (bumpFreq_mono _ _ _ hk)

theorem add_buf_eq (p : LzssPass) (t : LzssByte) : (p.add t).buf = p.buf ++ [t] := by
  cases t with
  | uncoded b => exact add_unc_buf p b
  | encoded size off => exact add_enc_buf p size off
  | encTwoSample size sample =>
    cases sample with
    | one o => exact add_two1_buf p size o
    | two a b => exact add_two2_buf p size a b

theorem passOk_add (p : LzssPass) (t : LzssByte) (hp : PassOk p)
    (hcov : TokCovered (p.add t).size_bitfreq (p.add t).moveback_bitfreq t) :
    PassOk (p.add t) := by
  obtain ⟨h1, h2, h3⟩ := hp
  refine ⟨?_, ?_, ?_⟩
  · intro t' ht'
    rw [add_buf_eq] at ht'
    rcases List.mem_append.mp ht' with ht' | ht'
    · exact tokCovered_mono _ _ _ _ t' (add_sizeh_mono p t) (add_mbh_mono p t)
        (h1 t' ht')
    · rcases List.mem_singleton.mp ht' with rfl
      exact hcov
  · cases t with
    | uncoded b => rw [add_unc_sizeh]; exact h2
    | encoded size off =>
      rw [add_enc_sizeh]; exact bumpFreq_bound _ _ h2 (count_needed_bits_lt256 _)
    | encTwoSample size sample =>
      cases sample with
      | one o =>
        rw [add_two1_sizeh]; exact bumpFreq_bound _ _ h2 (count_needed_bits_lt256 _)
      | two a b =>
        rw [add_two2_sizeh]; exact bumpFreq_bound _ _ h2 (count_needed_bits_lt256 _)
  · cases t with
    | uncoded b => rw [add_unc_mbh]; exact h3
    | encoded size off =>
      rw [add_enc_mbh]; exact bumpFreq_bound _ _ h3 (count_needed_bits_lt256 _)
    | encTwoSample size sample =>
      cases sample with
      | one o =>
        rw [add_two1_mbh]; exact bumpFreq_bound _ _ h3 (count_needed_bits_lt256 _)
      | two a b =>
        rw [add_two2_mbh]
        exact bumpFreq_bound _ _
          (bumpFreq_bound _ _ h3 (count_needed_bits_lt256 _))
          (count_needed_bits_lt256 _)

theorem add_match_eq (mat : MoveBack) (skipped : List Nat) (method : VpkMethod)
    (p : LzssPass) :
    add_match mat skipped method p =
      ((skipped.foldl LzssPass.add_uncoded p).add (tokOf method mat.size mat.moveback),
        mat.size + skipped.length) := by
  cases method <;> rfl

theorem tokCovered_tokOf (p : LzssPass) (method : VpkMethod) (size mb : Nat) :
    TokCovered (p.add (tokOf method size mb)).size_bitfreq
      (p.add (tokOf method size mb)).moveback_bitfreq (tokOf method size mb) := by
  cases method with
  | oneSample =>
    show TokCovered _ _ (LzssByte.encoded size mb)
    refine ⟨?_, ?_⟩
    · rw [show tokOf VpkMethod.oneSample size mb = LzssByte.encoded size mb from rfl,
        add_enc_sizeh]
      exact bumpFreq_has _ _
    · rw [show tokOf VpkMethod.oneSample size mb = LzssByte.encoded size mb from rfl,
        add_enc_mbh]
      exact bumpFreq_has _ _
  | twoSample =>
    have htok : tokOf VpkMethod.twoSample size mb =
        LzssByte.encTwoSample size (TwoSample.ofOffset mb) := rfl
    rw [htok]
    cases hof : TwoSample.ofOffset mb with
    | one q =>
      refine ⟨?_, ?_⟩
      · rw [add_two1_sizeh]
        exact bumpFreq_has _ _
      · intro v hv
        rcases List.mem_singleton.mp hv with rfl
        rw [add_two1_mbh]
        exact bumpFreq_has _ _
    | two a b =>
      refine ⟨?_, ?_⟩
      · rw [add_two2_sizeh]
        exact bumpFreq_has _ _
      · intro v hv
        rw [add_two2_mbh]
        rcases List.mem_cons.mp hv with rfl | hv
        · exact bumpFreq_mono _ _ _ (bumpFreq_has _ _)
        · rcases List.mem_singleton.mp hv with rfl
          exact bumpFreq_has _ _

theorem add_match_spec (mat : MoveBack) (skipped : List Nat) (method : VpkMethod)
    (p : LzssPass) (hp : PassOk p) :
    (add_match mat skipped method p).1.buf =
      p.buf ++ skipped.map LzssByte.uncoded ++ [tokOf method mat.size mat.moveback] ∧
    PassOk (add_match mat skipped method p).1 := by
  rw [add_match_eq]
  obtain ⟨hbuf, _, _, _⟩ := foldl_uncoded_fields skipped p
  have hps : PassOk (skipped.foldl LzssPass.add_uncoded p) :=
    passOk_foldl_uncoded skipped p hp
  constructor
  · show ((skipped.foldl LzssPass.add_uncoded p).add _).buf = _
    rw [add_buf_eq, hbuf]
  · exact passOk_add _ _ hps (tokCovered_tokOf _ method mat.size mat.moveback)

set_option maxRecDepth 40000 in
/-- Soundness of the compression loop: with enough fuel, the pass buffer
is extended by a justified token stream covering the input from `pos` on,
the pass invariant is preserved, and the dictionary ends having read the
whole input. -/
theorem compressGo_spec (input : List Nat) (method : VpkMethod)
    (finder : Bufs → LzssSettings → Option MoveBack) (hfs : FinderSound finder) :
    ∀ (fuel : Nat) (pos : Nat) (d : SlidingDict) (pass : LzssPass),
      DictInv input pos d → PassOk pass → input.length - pos < fuel →
      ∃ toks,
        (compressGo LzssSettings.default method finder fuel d pass).2.buf =
          pass.buf ++ toks ∧
        Toks input method pos toks ∧
        PassOk (compressGo LzssSettings.default method finder fuel d pass).2 ∧
        (compressGo LzssSettings.default method finder fuel d pass).1.total_read =
          input.length := by
  intro fuel
  induction fuel with
  | zero =>
    intro pos d pass _ _ hf
    omega
  | succ f ih =>
    intro pos d pass hinv hp hf
    by_cases hpos : pos < input.length
    case neg =>
      have hple := hinv.2.2.2.2.2.2.2.2.2
      have hpe : pos = input.length := by omega
      have hrem : d.remaining = 0 := by
        rw [dict_remaining_eq input pos d hinv]
        omega
      rw [compressGo, if_neg (by omega)]
      refine ⟨[], by simp, Toks.nil pos hpe, hp, ?_⟩
      have htot := hinv.2.2.2.2.2.2.2.2.1
      rw [htot]
      omega
    case pos =>
      have hrem : 0 < d.remaining := dict_remaining_pos input pos d hinv hpos
      rw [compressGo, if_pos hrem]
      cases hlook : look_for_nearby_best_match d LzssSettings.default finder with
      | uncoded =>
        have hnb : d.next_uncoded_byte = some input[pos] := by
          rw [dict_next_byte input pos d hinv hpos, List.getElem?_eq_getElem hpos]
        simp only [hlook, hnb]
        have hadv : DictInv input (pos + 1) (d.advance_by 1) :=
          dictInv_advance input pos d 1 hinv (by omega) (by omega) (by omega)
        obtain ⟨toks, hb, ht, hpo, htr⟩ :=
          ih (pos + 1) (d.advance_by 1) (pass.add_uncoded input[pos]) hadv
            (passOk_add_uncoded pass _ hp) (by omega)
        refine ⟨LzssByte.uncoded input[pos] :: toks, ?_,
          Toks.lit pos input[pos] toks (List.getElem?_eq_getElem hpos) ht, hpo, htr⟩
        rw [hb, LzssPass.add_uncoded]
        simp
      | matched skipped m =>
        obtain ⟨o, ho, hskip, hfind, hsz⟩ :=
          nearby_matched_facts finder d LzssSettings.default skipped m hlook
        have hmu : LzssSettings.default.max_uncoded = 2 := rfl
        have hmax : MAX_AHEAD_CHECK = 10 := rfl
        have hsz3 : 3 ≤ m.size := by omega
        have hahead := dict_ahead_eq input pos d hinv
        have haheadlen : d.ahead.length =
            min (min (pos + 265) input.length) (pos - 65535 + 65790) - pos := by
          rw [hahead, slice_length]
          omega
        have ho' : o < d.ahead.length := by omega
        have hpoL : pos + o < input.length := by
          clear hahead hskip hfind hlook hrem hinv
          omega
        have hbufs := dict_offset_csr_eq input pos d o hinv (by omega) (by omega)
        rw [hbufs] at hfind
        obtain ⟨hmb1, hmb2, hsz2, hcontent⟩ := hfs _ _ _ hfind
        dsimp only at hmb2 hsz2 hcontent
        rw [slice_length] at hmb2 hsz2 hcontent
        -- abbreviations for the two slice frontiers
        have hszF : pos + o + m.size ≤
            min (min (pos + 265) input.length) (pos - 65535 + (65790 + o)) := by
          clear hahead hskip hfind hlook hrem hinv hcontent
          omega
        have hmbP : m.moveback ≤ pos + o := by
          clear hahead hskip hfind hlook hrem hinv hcontent
          omega
        have hsklen : skipped.length = o := by
          rw [hskip, List.length_take]
          omega
        have hsklits : ∀ i < skipped.length, input[pos + i]? = skipped[i]? := by
          intro i hi
          rw [hsklen] at hi
          rw [hskip, List.getElem?_take_of_lt hi, hahead,
            slice_getElem input _ _ _ (by clear hahead hskip hfind hlook hrem hinv hcontent; omega)]
        have hmatch : ∀ k < m.size,
            input[pos + o + k]? = input[pos + o - m.moveback + k]? := by
          intro k hk
          have hck := hcontent k hk
          rw [slice_getElem input _ _ k
            (by clear hahead hskip hfind hlook hrem hinv hcontent hck; omega)] at hck
          rw [slice_getElem input _ _ _
            (by clear hahead hskip hfind hlook hrem hinv hcontent hck; omega)] at hck
          rw [show pos + o - 65535 +
              (min (pos + o) input.length - (pos + o - 65535) - m.moveback + k) =
              pos + o - m.moveback + k from by
            clear hahead hskip hfind hlook hrem hinv hcontent hck; omega] at hck
          exact hck
        simp only [hlook, add_match_eq, hsklen]
        have hadv : DictInv input (pos + (m.size + o)) (d.advance_by (m.size + o)) :=
          dictInv_advance input pos d (m.size + o) hinv (by omega)
            (by clear hahead hskip hfind hlook hrem hinv hcontent; omega)
            (by clear hahead hskip hfind hlook hrem hinv hcontent; omega)
        have hppass : PassOk ((skipped.foldl LzssPass.add_uncoded pass).add
            (tokOf method m.size m.moveback)) := by
          have hps := (add_match_spec m skipped method pass hp).2
          rw [add_match_eq] at hps
          exact hps
        obtain ⟨toks, hb, ht, hpo, htr⟩ :=
          ih (pos + (m.size + o)) (d.advance_by (m.size + o))
            ((skipped.foldl LzssPass.add_uncoded pass).add
              (tokOf method m.size m.moveback)) hadv hppass
            (by clear hahead hskip hfind hlook hrem hinv hcontent; omega)
        refine ⟨skipped.map LzssByte.uncoded ++
          tokOf method m.size m.moveback :: toks, ?_, ?_, hpo, htr⟩
        · rw [hb]
          have hbf := (add_match_spec m skipped method pass hp).1
          rw [add_match_eq] at hbf
          dsimp only at hbf
          rw [hbf]
          simp
        · have htoks2 : Toks input method (pos + o + m.size) toks := by
            rw [show pos + o + m.size = pos + (m.size + o) from by omega]
            exact ht
          have hback : Toks input method (pos + o)
              (tokOf method m.size m.moveback :: toks) :=
            Toks.back (pos + o) m.size m.moveback toks hmb1 hmbP hsz3
              (by clear hahead hskip hfind hlook hrem hinv hcontent; omega)
              hmatch htoks2
          refine toks_lits input method skipped pos _ hsklits ?_
          rw [hsklen]
          exact hback

/-! ### C1 — the decode side: replaying a written body -/

theorem getElem_lt_of_some {α : Type} (l : List α) (i : Nat) (b : α)
    (h : l[i]? = some b) : i < l.length := by
  by_contra hc
  rw [List.getElem?_eq_none (by omega)] at h
  cases h

theorem mem_of_some {α : Type} (l : List α) (i : Nat) (b : α)
    (h : l[i]? = some b) : b ∈ l := by
  have hi : i < l.length := getElem_lt_of_some l i b h
  rw [List.getElem?_eq_getElem hi] at h
  cases h
  exact List.getElem_mem hi

theorem take_push {α : Type} (l : List α) (pos : Nat) (b : α)
    (h : l[pos]? = some b) : l.take pos ++ [b] = l.take (pos + 1) := by
  rw [List.take_succ, h]
  rfl

/-- `write_encoded_val` on a key the map covers: the emitted bits and how
the decoder reads them back. -/
theorem write_encoded_val_spec (mt : MapTree) (keys : List Nat)
    (hmt : MapTreeGood mt keys) (v : Nat)
    (hk : count_needed_bits v ∈ keys) :
    ∃ W c, mt.get (count_needed_bits v) = some (W, c) ∧
      count_needed_bits v ≤ W ∧
      write_encoded_val mt v = some (codeBits c ++ natToBits W v) ∧
      (v < 2 ^ 64 → ∀ rest : List Bool,
        mt.tree.readValue ((codeBits c ++ natToBits W v) ++ rest) = .ok (v, rest)) := by
  obtain ⟨W, c, hget, hle, hread⟩ := hmt.1 _ hk
  refine ⟨W, c, hget, hle, ?_, ?_⟩
  · rw [write_encoded_val]
    rw [show MapTree.get mt (count_needed_bits v) = some (W, c) from hget]
    rfl
  · intro hv rest
    rw [List.append_assoc]
    exact hread v rest (lt_of_lt_of_le (count_needed_bits_lt v hv)
      (Nat.pow_le_pow_right (by omega) hle))

/-- The key-membership facts the writer needs for one token. -/
def TokKeysIn (offKeys lenKeys : List Nat) : LzssByte → Prop
  | .uncoded _ => True
  | .encoded size off =>
      count_needed_bits size ∈ lenKeys ∧ count_needed_bits off ∈ offKeys
  | .encTwoSample size sample =>
      count_needed_bits size ∈ lenKeys ∧
      ∀ v ∈ sample.wire, count_needed_bits v ∈ offKeys

theorem tokCovered_keysIn (sizeh mbh : List (Nat × Nat)) (t : LzssByte)
    (h : TokCovered sizeh mbh t) :
    TokKeysIn (mbh.map (·.1)) (sizeh.map (·.1)) t := by
  cases t with
  | uncoded b => trivial
  | encoded size off =>
    obtain ⟨⟨e1, he1, hk1⟩, ⟨e2, he2, hk2⟩⟩ := h
    exact ⟨List.mem_map.mpr ⟨e1, he1, hk1⟩, List.mem_map.mpr ⟨e2, he2, hk2⟩⟩
  | encTwoSample size sample =>
    obtain ⟨⟨e1, he1, hk1⟩, h2⟩ := h
    refine ⟨List.mem_map.mpr ⟨e1, he1, hk1⟩, ?_⟩
    intro v hv
    obtain ⟨e2, he2, hk2⟩ := h2 v hv
    exact List.mem_map.mpr ⟨e2, he2, hk2⟩

/-- The writer succeeds on a key-covered token list, and writes at least
one bit per token. -/
theorem writeBody_some (offMT lenMT : MapTree) (offKeys lenKeys : List Nat)
    (hoff : MapTreeGood offMT offKeys) (hlen : MapTreeGood lenMT lenKeys) :
    ∀ toks : List LzssByte, (∀ t ∈ toks, TokKeysIn offKeys lenKeys t) →
      ∃ body, writeBody offMT lenMT toks = some body ∧
        toks.length ≤ body.length := by
  intro toks
  induction toks with
  | nil =>
    intro _
    exact ⟨[], rfl, by simp⟩
  | cons t rest ih =>
    intro hk
    obtain ⟨body', hb', hlen'⟩ := ih (fun t' ht' => hk t' (by simp [ht']))
    have hkt := hk t (by simp)
    cases t with
    | uncoded b =>
      refine ⟨(false :: natToBits 8 b) ++ body', ?_, ?_⟩
      · rw [writeBody, hb']
      · simp
        omega
    | encoded size off =>
      obtain ⟨hks, hko⟩ := hkt
      obtain ⟨Wo, co, _, _, hwo, _⟩ := write_encoded_val_spec offMT offKeys hoff off hko
      obtain ⟨Wl, cl, _, _, hwl, _⟩ := write_encoded_val_spec lenMT lenKeys hlen size hks
      refine ⟨(true :: ((codeBits co ++ natToBits Wo off) ++
        (codeBits cl ++ natToBits Wl size))) ++ body', ?_, ?_⟩
      · rw [writeBody, hwo, hwl, hb']
      · simp
        omega
    | encTwoSample size sample =>
      obtain ⟨hks, hkw⟩ := hkt
      obtain ⟨Wl, cl, _, _, hwl, _⟩ := write_encoded_val_spec lenMT lenKeys hlen size hks
      cases sample with
      | one q =>
        obtain ⟨Wq, cq, _, _, hwq, _⟩ := write_encoded_val_spec offMT offKeys hoff q
          (hkw q (by rw [TwoSample.wire]; simp))
        refine ⟨(true :: (((codeBits cq ++ natToBits Wq q) ++ []) ++
          (codeBits cl ++ natToBits Wl size))) ++ body', ?_, ?_⟩
        · rw [writeBody]
          rw [show writeVals offMT (TwoSample.one q).wire =
              some ((codeBits cq ++ natToBits Wq q) ++ []) from by
            rw [TwoSample.wire, writeVals, hwq, writeVals]]
          rw [hwl, hb']
        · simp
          omega
      | two u q =>
        obtain ⟨Wu, cu, _, _, hwu, _⟩ := write_encoded_val_spec offMT offKeys hoff u
          (hkw u (by rw [TwoSample.wire]; simp))
        obtain ⟨Wq, cq, _, _, hwq, _⟩ := write_encoded_val_spec offMT offKeys hoff q
          (hkw q (by rw [TwoSample.wire]; simp))
        refine ⟨(true :: (((codeBits cu ++ natToBits Wu u) ++
          ((codeBits cq ++ natToBits Wq q) ++ [])) ++
          (codeBits cl ++ natToBits Wl size))) ++ body', ?_, ?_⟩
        · rw [writeBody]
          rw [show writeVals offMT (TwoSample.two u q).wire =
              some ((codeBits cu ++ natToBits Wu u) ++
                ((codeBits cq ++ natToBits Wq q) ++ [])) from by
            rw [TwoSample.wire, writeVals, hwu, writeVals, hwq, writeVals]]
          rw [hwl, hb']
        · simp
          omega

/-- The copy-back loop replays an in-bounds self-referential match. -/
theorem copyBack_spec (input : List Nat) :
    ∀ (size pos mb : Nat), 1 ≤ mb → mb ≤ pos → pos + size ≤ input.length →
      (∀ k < size, input[pos + k]? = input[pos - mb + k]?) →
      copyBack (input.take pos) (pos - mb) size = .ok (input.take (pos + size)) := by
  intro size
  induction size with
  | zero =>
    intro pos mb _ _ _ _
    rw [copyBack, Nat.add_zero]
  | succ n ih =>
    intro pos mb h1 h2 h3 hmatch
    rw [copyBack]
    have hb0 : input[pos]? = input[pos - mb]? := by
      have := hmatch 0 (by omega)
      simpa using this
    have hposlt : pos < input.length := by omega
    have hbyte : input[pos - mb]? = some input[pos] := by
      rw [← hb0, List.getElem?_eq_getElem hposlt]
    have hout : (input.take pos)[pos - mb]? = some input[pos] := by
      rw [List.getElem?_take_of_lt (by omega), hbyte]
    rw [hout]
    show copyBack (List.take pos input ++ [input[pos]]) (pos - mb + 1) n =
      DRes.ok (List.take (pos + (n + 1)) input)
    rw [take_push input pos input[pos] (List.getElem?_eq_getElem hposlt)]
    rw [show pos - mb + 1 = pos + 1 - mb from by omega,
      show pos + (n + 1) = pos + 1 + n from by omega]
    refine ih (pos + 1) mb h1 (by omega) (by omega) ?_
    intro k hk
    have := hmatch (k + 1) (by omega)
    rw [show pos + (k + 1) = pos + 1 + k from by omega,
      show pos - mb + (k + 1) = pos + 1 - mb + k from by omega] at this
    exact this

set_option maxRecDepth 40000 in
/-- Replaying a written body: the decode loop consumes the writer's bits
token by token and reconstructs the input. -/
theorem decodeLoop_writeBody (input : List Nat) (method : VpkMethod)
    (offMT lenMT : MapTree) (offKeys lenKeys : List Nat)
    (hoff : MapTreeGood offMT offKeys) (hlen : MapTreeGood lenMT lenKeys)
    (hbytes : ∀ b ∈ input, b < 256) (hL : input.length < 2 ^ 32) :
    ∀ (toks : List LzssByte) (pos : Nat), Toks input method pos toks →
      (∀ t ∈ toks, TokKeysIn offKeys lenKeys t) →
      ∀ body : List Bool, writeBody offMT lenMT toks = some body →
      ∀ fuel : Nat, toks.length < fuel →
      ∀ tail : List Bool,
        decodeLoop offMT.tree lenMT.tree method input.length fuel (body ++ tail)
          (input.take pos) = .ok input := by
  intro toks pos htoks
  induction htoks with
  | nil pos hpe =>
    intro _ body hwb fuel hfu tail
    rw [writeBody] at hwb
    cases hwb
    cases fuel with
    | zero => exact absurd hfu (by simp)
    | succ f =>
      rw [List.nil_append, decodeLoop, hpe, List.take_length, if_neg (lt_irrefl _)]
  | lit pos b rest hb hrec ih =>
    intro hk body hwb fuel hfu tail
    simp only [writeBody] at hwb
    cases hrest : writeBody offMT lenMT rest with
    | none =>
      simp only [hrest] at hwb
      exact Option.noConfusion hwb
    | some body' =>
      simp only [hrest] at hwb
      cases hwb
      cases fuel with
      | zero => exact absurd hfu (by simp)
      | succ f =>
        have hplt : pos < input.length := getElem_lt_of_some input pos b hb
        have hblt : b < 256 := hbytes b (mem_of_some input pos b hb)
        rw [decodeLoop, if_pos (by rw [List.length_take]; omega)]
        rw [show ((false :: natToBits 8 b) ++ body') ++ tail =
          false :: (natToBits 8 b ++ (body' ++ tail)) from by simp]
        simp only [readBit, readN_natToBits 8 b (by omega) (body' ++ tail),
          take_push input pos b hb]
        exact ih (fun t ht => hk t (by simp [ht])) body' hrest f
          (by simp at hfu ⊢; omega) tail
  | back pos size mb rest h1 h2 h3 h4 hmatch hrec ih =>
    intro hk body hwb fuel hfu tail
    have hplt : pos < input.length := by omega
    have hkt := hk (tokOf method size mb) (by simp)
    have hk' : ∀ t ∈ rest, TokKeysIn offKeys lenKeys t :=
      fun t ht => hk t (by simp [ht])
    cases method with
    | oneSample =>
      have htok : tokOf VpkMethod.oneSample size mb = .encoded size mb := rfl
      rw [htok] at hwb hkt
      obtain ⟨hks, hko⟩ := hkt
      obtain ⟨Wo, co, hgeto, hleo, hwo, hreado⟩ :=
        write_encoded_val_spec offMT offKeys hoff mb hko
      obtain ⟨Wl, cl, hgetl, hlel, hwl, hreadl⟩ :=
        write_encoded_val_spec lenMT lenKeys hlen size hks
      simp only [writeBody, hwo, hwl] at hwb
      cases hrest : writeBody offMT lenMT rest with
      | none =>
        simp only [hrest] at hwb
        exact Option.noConfusion hwb
      | some body' =>
        simp only [hrest] at hwb
        cases hwb
        cases fuel with
        | zero => exact absurd hfu (by simp)
        | succ f =>
          rw [decodeLoop, if_pos (by rw [List.length_take]; omega)]
          rw [show ((true :: ((codeBits co ++ natToBits Wo mb) ++
              (codeBits cl ++ natToBits Wl size))) ++ body') ++ tail =
            true :: (((codeBits co ++ natToBits Wo mb) ++
              ((codeBits cl ++ natToBits Wl size) ++ (body' ++ tail)))) from by simp]
          simp only [readBit]
          rw [hreado (by omega) ((codeBits cl ++ natToBits Wl size) ++ (body' ++ tail))]
          simp only [computeMoveBack]
          rw [if_neg (by rw [List.length_take]; omega)]
          rw [show (input.take pos).length - mb = pos - mb from by
            rw [List.length_take]; omega]
          simp only [hreadl (by omega) (body' ++ tail)]
          simp only [copyBack_spec input size pos mb h1 h2 h4 hmatch]
          exact ih hk' body' hrest f (by simp at hfu ⊢; omega) tail
    | twoSample =>
      have htok : tokOf VpkMethod.twoSample size mb =
        .encTwoSample size (TwoSample.ofOffset mb) := rfl
      rw [htok] at hwb hkt
      have hofe : TwoSample.ofOffset mb =
          if (mb + 8) % 4 ≠ 0 then .two ((mb + 8) % 4 - 1) ((mb + 8) / 4)
          else .one ((mb + 8) / 4) := rfl
      cases hof : TwoSample.ofOffset mb with
      | one q =>
        have hq4 : (mb + 8) % 4 = 0 ∧ q = (mb + 8) / 4 := by
          rw [hofe] at hof
          by_cases hrem : (mb + 8) % 4 ≠ 0
          · rw [if_pos hrem] at hof
            exact absurd hof (by simp)
          · rw [if_neg hrem] at hof
            injection hof with hq
            exact ⟨by omega, hq.symm⟩
        obtain ⟨hrem0, hqv⟩ := hq4
        rw [hof] at hwb hkt
        obtain ⟨hks, hkw⟩ := hkt
        have hkq : count_needed_bits q ∈ offKeys := by
          refine hkw q ?_
          rw [TwoSample.wire]
          simp
        obtain ⟨Wq, cq, hgetq, hleq, hwq, hreadq⟩ :=
          write_encoded_val_spec offMT offKeys hoff q hkq
        obtain ⟨Wl, cl, hgetl, hlel, hwl, hreadl⟩ :=
          write_encoded_val_spec lenMT lenKeys hlen size hks
        have hwv : writeVals offMT (TwoSample.one q).wire =
            some ((codeBits cq ++ natToBits Wq q) ++ []) := by
          rw [TwoSample.wire, writeVals, hwq, writeVals]
        simp only [writeBody, hwv, hwl] at hwb
        cases hrest : writeBody offMT lenMT rest with
        | none =>
          simp only [hrest] at hwb
          exact Option.noConfusion hwb
        | some body' =>
          simp only [hrest] at hwb
          cases hwb
          cases fuel with
          | zero => exact absurd hfu (by simp)
          | succ f =>
            have hcmb : computeMoveBack VpkMethod.twoSample offMT.tree q
                ((codeBits cl ++ natToBits Wl size) ++ (body' ++ tail)) =
                DRes.ok (mb, (codeBits cl ++ natToBits Wl size) ++ (body' ++ tail)) := by
              simp only [computeMoveBack]
              rw [if_neg (show ¬q < 3 from by omega),
                if_neg (show ¬4 * q < 8 from by omega),
                show 4 * q - 8 = mb from by omega]
            rw [decodeLoop, if_pos (by rw [List.length_take]; omega)]
            rw [show ((true :: (((codeBits cq ++ natToBits Wq q) ++ []) ++
                (codeBits cl ++ natToBits Wl size))) ++ body') ++ tail =
              true :: (((codeBits cq ++ natToBits Wq q) ++
                ((codeBits cl ++ natToBits Wl size) ++ (body' ++ tail)))) from by simp]
            simp only [readBit]
            simp only [hreadq (show q < 2 ^ 64 from by omega)
              ((codeBits cl ++ natToBits Wl size) ++ (body' ++ tail))]
            simp only [hcmb]
            rw [if_neg (show ¬(List.take pos input).length < mb from by
              rw [List.length_take]; omega)]
            rw [show (List.take pos input).length - mb = pos - mb from by
              rw [List.length_take]; omega]
            simp only [hreadl (show size < 2 ^ 64 from by omega) (body' ++ tail)]
            simp only [copyBack_spec input size pos mb h1 h2 h4 hmatch]
            exact ih hk' body' hrest f (by simp at hfu ⊢; omega) tail
      | two u q =>
        have hq4 : (mb + 8) % 4 ≠ 0 ∧ u = (mb + 8) % 4 - 1 ∧ q = (mb + 8) / 4 := by
          rw [hofe] at hof
          by_cases hrem : (mb + 8) % 4 ≠ 0
          · rw [if_pos hrem] at hof
            injection hof with hu hq
            exact ⟨hrem, hu.symm, hq.symm⟩
          · rw [if_neg hrem] at hof
            exact absurd hof (by simp)
        obtain ⟨hrem0, huv, hqv⟩ := hq4
        rw [hof] at hwb hkt
        obtain ⟨hks, hkw⟩ := hkt
        have hku : count_needed_bits u ∈ offKeys := by
          refine hkw u ?_
          rw [TwoSample.wire]
          simp
        have hkq : count_needed_bits q ∈ offKeys := by
          refine hkw q ?_
          rw [TwoSample.wire]
          simp
        obtain ⟨Wu, cu, hgetu, hleu, hwu, hreadu⟩ :=
          write_encoded_val_spec offMT offKeys hoff u hku
        obtain ⟨Wq, cq, hgetq, hleq, hwq, hreadq⟩ :=
          write_encoded_val_spec offMT offKeys hoff q hkq
        obtain ⟨Wl, cl, hgetl, hlel, hwl, hreadl⟩ :=
          write_encoded_val_spec lenMT lenKeys hlen size hks
        have hwv : writeVals offMT (TwoSample.two u q).wire =
            some ((codeBits cu ++ natToBits Wu u) ++
              ((codeBits cq ++ natToBits Wq q) ++ [])) := by
          rw [TwoSample.wire, writeVals, hwu, writeVals, hwq, writeVals]
        simp only [writeBody, hwv, hwl] at hwb
        cases hrest : writeBody offMT lenMT rest with
        | none =>
          simp only [hrest] at hwb
          exact Option.noConfusion hwb
        | some body' =>
          simp only [hrest] at hwb
          cases hwb
          cases fuel with
          | zero => exact absurd hfu (by simp)
          | succ f =>
            have hcmb : computeMoveBack VpkMethod.twoSample offMT.tree u
                ((codeBits cq ++ natToBits Wq q) ++
                  ((codeBits cl ++ natToBits Wl size) ++ (body' ++ tail))) =
                DRes.ok (mb, (codeBits cl ++ natToBits Wl size) ++ (body' ++ tail)) := by
              simp only [computeMoveBack]
              rw [if_pos (show u < 3 from by omega)]
              simp only [hreadq (show q < 2 ^ 64 from by omega)
                ((codeBits cl ++ natToBits Wl size) ++ (body' ++ tail))]
              rw [if_neg (show ¬u + 1 + 4 * q < 8 from by omega),
                show u + 1 + 4 * q - 8 = mb from by omega]
            rw [decodeLoop, if_pos (by rw [List.length_take]; omega)]
            rw [show ((true :: (((codeBits cu ++ natToBits Wu u) ++
                ((codeBits cq ++ natToBits Wq q) ++ [])) ++
                (codeBits cl ++ natToBits Wl size))) ++ body') ++ tail =
              true :: ((codeBits cu ++ natToBits Wu u) ++
                ((codeBits cq ++ natToBits Wq q) ++
                  ((codeBits cl ++ natToBits Wl size) ++ (body' ++ tail)))) from by simp]
            simp only [readBit]
            simp only [hreadu (show u < 2 ^ 64 from by omega)
              ((codeBits cq ++ natToBits Wq q) ++
                ((codeBits cl ++ natToBits Wl size) ++ (body' ++ tail)))]
            simp only [hcmb]
            rw [if_neg (show ¬(List.take pos input).length < mb from by
              rw [List.length_take]; omega)]
            rw [show (List.take pos input).length - mb = pos - mb from by
              rw [List.length_take]; omega]
            simp only [hreadl (show size < 2 ^ 64 from by omega) (body' ++ tail)]
            simp only [copyBack_spec input size pos mb h1 h2 h4 hmatch]
            exact ih hk' body' hrest f (by simp at hfu ⊢; omega) tail

set_option maxRecDepth 40000 in
/-- C1: For every byte sequence of length at most `2^32 − 1`, every
method in `{OneSample, TwoSample}`, and every match-finder strategy in
`{Brute, Kmp, KmpAhead}`, decoding the result of encoding the sequence
with that method and strategy yields exactly the original sequence. -/
theorem encode_decode_round_trip (input : List Nat) (method : VpkMethod)
    (backend : LzssBackend)
    (hlen : input.length ≤ 2 ^ 32 - 1) (hbytes : ∀ b ∈ input, b < 256) :
    ∃ out, encodeBytes input method backend = .ok out ∧ doDecode out = .ok input := by
  have hL : input.length < 2 ^ 32 := by omega
  have hfs : FinderSound backend.finder := backend_finder_sound backend
  obtain ⟨toks, hbuf, htoks, hpok, htot⟩ :=
    compressGo_spec input method backend.finder hfs (input.length + 1) 0
      (SlidingDict.new input LzssSettings.default) LzssPass.empty
      (dictInv_new input) passOk_empty (by omega)
  set C := compressGo LzssSettings.default method backend.finder (input.length + 1)
      (SlidingDict.new input LzssSettings.default) LzssPass.empty with hC
  have hbuf' : C.2.buf = toks := by simpa using hbuf
  have hcr : compress_rdr input LzssSettings.default method backend.finder =
      .ok { C.2 with decompressed_size := some input.length } := by
    show ((if C.1.total_read < 2 ^ 32 then
        Except.ok { C.2 with decompressed_size := some C.1.total_read }
      else Except.error VpkError.inputTooBig : Except VpkError LzssPass)) =
      Except.ok { C.2 with decompressed_size := some input.length }
    rw [htot, if_pos hL]
  set P : LzssPass := { C.2 with decompressed_size := some input.length } with hP
  set offMT := mapTreeOfTreeOpt (from_found_codes P.moveback_bitfreq) with hoffMT
  set lenMT := mapTreeOfTreeOpt (from_found_codes P.size_bitfreq) with hlenMT
  have hoffG : MapTreeGood offMT (P.moveback_bitfreq.map (·.1)) :=
    mapTreeOfTreeOpt_good _ (fun e he => hpok.2.2 e he)
  have hlenG : MapTreeGood lenMT (P.size_bitfreq.map (·.1)) :=
    mapTreeOfTreeOpt_good _ (fun e he => hpok.2.1 e he)
  have hkeys : ∀ t ∈ toks,
      TokKeysIn (P.moveback_bitfreq.map (·.1)) (P.size_bitfreq.map (·.1)) t := by
    intro t ht
    exact tokCovered_keysIn _ _ t (hpok.1 t (by rw [hbuf']; exact ht))
  obtain ⟨body, hwbody, hblen⟩ :=
    writeBody_some offMT lenMT _ _ hoffG hlenG toks hkeys
  have hPbuf : P.buf = toks := hbuf'
  have hwf : write_file method P offMT lenMT =
      some (packBits (bytesToBits (VpkHeader.writeBytes ⟨input.length, method⟩) ++
        offMT.tree.writeBits ++ lenMT.tree.writeBits ++ body)) := by
    show (writeBody offMT lenMT P.buf).map (fun b =>
      packBits (bytesToBits (VpkHeader.writeBytes ⟨input.length, method⟩) ++
        offMT.tree.writeBits ++ lenMT.tree.writeBits ++ b)) = _
    rw [hPbuf, hwbody]
    rfl
  have hmaps : encodedMapsDefault P = (offMT, lenMT) := rfl
  have henc : encodeBytes input method backend =
      .ok (packBits (bytesToBits (VpkHeader.writeBytes ⟨input.length, method⟩) ++
        offMT.tree.writeBits ++ lenMT.tree.writeBits ++ body)) := by
    show doEncode input LzssSettings.default method backend.finder = _
    simp only [doEncode, hcr, hmaps, hwf]
  have hdec : doDecode (packBits (bytesToBits (VpkHeader.writeBytes
      ⟨input.length, method⟩) ++
      offMT.tree.writeBits ++ lenMT.tree.writeBits ++ body)) = .ok input := by
    simp only [doDecode]
    rw [bytesToBits_packBits]
    generalize List.replicate ((8 - (bytesToBits (VpkHeader.writeBytes
        ⟨input.length, method⟩) ++
      offMT.tree.writeBits ++ lenMT.tree.writeBits ++ body).length % 8) % 8) false = pad
    rw [show (bytesToBits (VpkHeader.writeBytes ⟨input.length, method⟩) ++
        offMT.tree.writeBits ++ lenMT.tree.writeBits ++ body) ++ pad =
      bytesToBits (VpkHeader.writeBytes ⟨input.length, method⟩) ++
        (offMT.tree.writeBits ++ (lenMT.tree.writeBits ++ (body ++ pad))) from by simp]
    simp only [header_round_trip ⟨input.length, method⟩ hL
      (offMT.tree.writeBits ++ (lenMT.tree.writeBits ++ (body ++ pad)))]
    simp only [hoffG.2 (lenMT.tree.writeBits ++ (body ++ pad))]
    simp only [hlenG.2 (body ++ pad)]
    have hdl := decodeLoop_writeBody input method offMT lenMT _ _ hoffG hlenG
      hbytes hL toks 0 htoks hkeys body hwbody ((body ++ pad).length + 1)
      (by rw [List.length_append]; omega) pad
    rw [List.take_zero] at hdl
    exact hdl
  exact ⟨_, henc, hdec⟩

/-- Witness for C1 at a concrete input, method and strategy. -/
theorem encode_decode_round_trip_witness :
    ([7, 7, 7, 7, 7, 7] : List Nat).length ≤ 2 ^ 32 - 1 ∧
    (∀ b ∈ ([7, 7, 7, 7, 7, 7] : List Nat), b < 256) ∧
    ∃ out, encodeBytes [7, 7, 7, 7, 7, 7] VpkMethod.oneSample LzssBackend.brute =
        .ok out ∧
      doDecode out = .ok [7, 7, 7, 7, 7, 7] :=
  ⟨by decide, by decide,
    encode_decode_round_trip [7, 7, 7, 7, 7, 7] VpkMethod.oneSample LzssBackend.brute
      (by decide) (by decide)⟩
